import Mathlib

/-!
Verification of the graph-analysis engine (`GraphAnalyzer`) of the
cyclic-dependency-microservices-detection repository.

The TypeScript source (`backend/src/services/graphAnalyzer.ts`) is shallowly
embedded below.  Design notes for the embedding:

* Node ids are `String`, as in the source.
* A TS `Map` is embedded as an insertion-ordered association list
  (`List (String × α)`): `set` replaces an existing binding in place or
  appends a new one, `get` returns the unique binding.  A TS `Set` is
  embedded as a duplicate-free `List String` (`add` appends if absent,
  `delete` removes, `has` is membership).
* The TS call stack / array `push`-`pop` discipline is embedded with the
  top of the stack at the HEAD of the list (TS pushes and pops at the end
  of the array; the orientation is reversed, the contents are identical).
* JS `number` positions on nodes are opaque to the engine (never read); they
  are embedded as `Int`.  The two derived floating-point metrics
  (`avgDegree`, `density`) are embedded as exact rationals.
* Recursive depth-first traversals are embedded with an explicit fuel
  argument so that every definition is structurally recursive and hence
  executable by the kernel.  The fuel supplied by the top-level entry points
  strictly exceeds the maximal possible recursion depth of the source
  (each nested call consumes a fresh, never-released resource: a newly
  discovered node), which is proved where a claim depends on it.
-/

namespace GraphAnalyzer

/-- Node of a graph, from the `Node` interface of the source:
`id`, `type`, `position {x, y}`, `data.label`. -/
structure Node where
  id : String
  type : String
  posX : Int
  posY : Int
  label : String
deriving DecidableEq, Repr

/-- Edge of a graph, from the `Edge` interface of the source:
`id`, `source`, `target`, optional `label`, optional `type`. -/
structure Edge where
  id : String
  source : String
  target : String
  label : Option String := none
  type : Option String := none
deriving DecidableEq, Repr

/-- Graph snapshot, from the `GraphData` interface of the source. -/
structure GraphData where
  nodes : List Node
  edges : List Edge
deriving DecidableEq, Repr

/-- Elementary cycle record, from the `Cycle` interface of the source:
`nodes` sequence and a `length` field. -/
structure Cycle where
  nodes : List String
  length : Nat
deriving DecidableEq, Repr

/-- Two-node cycle record, from the `TinyCycle` interface of the source. -/
structure TinyCycle where
  node1 : String
  node2 : String
deriving DecidableEq, Repr

/-- Three-state DFS node coloring, from the `VisitStatus` enum of the source. -/
inductive VisitStatus where
  | NOT_VISITED
  | CURRENTLY_VISITING
  | VISITED
deriving DecidableEq, Repr

/-- TS `Map.get`: the value bound to `k`, or `none`. -/
def mapGet {α : Type} : List (String × α) → String → Option α
  | [], _ => none
  | (k', v) :: rest, k => if k' = k then some v else mapGet rest k

/-- TS `Map.set`: replace the binding of `k` in place, or append it. -/
def mapSet {α : Type} : List (String × α) → String → α → List (String × α)
  | [], k, v => [(k, v)]
  | (k', v') :: rest, k, v =>
    if k' = k then (k, v) :: rest else (k', v') :: mapSet rest k v

/-- TS `Set.add`: append the element if it is not already present. -/
def setAdd (s : List String) (x : String) : List String :=
  if x ∈ s then s else s ++ [x]

/-- TS `Set.delete`: remove the element. -/
def setDelete (s : List String) (x : String) : List String :=
  s.filter (· ≠ x)

/-- Method `buildAdjacencyList` (source lines 198-214): every node id becomes
a key bound to `[]`, then for each edge the target is appended to the
source's neighbor list (`get(source) || []`, push, `set`). -/
def buildAdjacencyList (g : GraphData) : List (String × List String) :=
  let init := g.nodes.foldl (fun m n => mapSet m n.id []) []
  g.edges.foldl
    (fun m e => mapSet m e.source (((mapGet m e.source).getD []) ++ [e.target])) init

/-- Neighbor list of `u` in the adjacency mapping of `g`
(`adjacencyList.get(u) || []`). -/
def neighborsOf (g : GraphData) (u : String) : List String :=
  (mapGet (buildAdjacencyList g) u).getD []

/-- Mutable instance state of the `GraphAnalyzer` class (source lines
164-169): `index`, `stack`, `indices`, `lowlinks`, `onStack`, `sccs`. -/
structure TarjanState where
  index : Nat
  stack : List String
  indices : List (String × Nat)
  lowlinks : List (String × Nat)
  onStack : List String
  sccs : List (List String)
deriving DecidableEq, Repr

/-- Method `reset` (source lines 189-196). -/
def sccReset (_ : TarjanState) : TarjanState :=
  { index := 0, stack := [], indices := [], lowlinks := [], onStack := [], sccs := [] }

/-- Pop loop of `strongConnect` (source lines 240-246): do-while popping the
stack into a component until the root is popped, deleting each popped
element from `onStack`.  Arguments: stack, onStack, accumulated component;
result: remaining stack, remaining onStack, finished component. -/
def popLoop (nodeId : String) :
    List String → List String → List String → List String × List String × List String
  | [], onS, acc => ([], onS, acc)
  | w :: rest, onS, acc =>
    let onS' := setDelete onS w
    let acc' := acc ++ [w]
    if w = nodeId then (rest, onS', acc') else popLoop nodeId rest onS' acc'

/-- Neighbor loop of `strongConnect` (source lines 223-237), parameterized by
the recursive call `sc` (the call `this.strongConnect(neighborId, ...)` with
one unit of fuel consumed).  The three branches follow the source: recurse
into an undiscovered neighbor then take the `min` with its lowlink; for a
discovered neighbor still on the stack, take the `min` with its index;
otherwise skip.  The non-null assertions of the source (`!`) are embedded as
`getD 0`. -/
def visitNeighbors (sc : String → TarjanState → TarjanState) (nodeId : String) :
    List String → TarjanState → TarjanState
  | [], s => s
  | neighborId :: rest, s =>
    let s :=
      if (mapGet s.indices neighborId).isNone then
        let s := sc neighborId s
        let v := min ((mapGet s.lowlinks nodeId).getD 0) ((mapGet s.lowlinks neighborId).getD 0)
        { s with lowlinks := mapSet s.lowlinks nodeId v }
      else if neighborId ∈ s.onStack then
        let v := min ((mapGet s.lowlinks nodeId).getD 0) ((mapGet s.indices neighborId).getD 0)
        { s with lowlinks := mapSet s.lowlinks nodeId v }
      else s
    visitNeighbors sc nodeId rest s

/-- Method `strongConnect` (source lines 216-250), with fuel.  On entry the
node receives the next discovery index and lowlink, is pushed on the stack
and added to `onStack`; the neighbors are visited; if the node's lowlink
still equals its index, the stack is popped down to the node, forming a new
component appended to `sccs`. -/
def strongConnect (adj : List (String × List String)) :
    Nat → String → TarjanState → TarjanState
  | 0, _, s => s
  | fuel + 1, nodeId, s =>
    let s := { s with
      indices := mapSet s.indices nodeId s.index,
      lowlinks := mapSet s.lowlinks nodeId s.index,
      index := s.index + 1,
      stack := nodeId :: s.stack,
      onStack := setAdd s.onStack nodeId }
    let s := visitNeighbors (strongConnect adj fuel) nodeId ((mapGet adj nodeId).getD []) s
    if mapGet s.lowlinks nodeId = mapGet s.indices nodeId then
      let p := popLoop nodeId s.stack s.onStack []
      { s with stack := p.1, onStack := p.2.1, sccs := s.sccs ++ [p.2.2] }
    else s

/-- Fuel bound for the Tarjan traversal: every id ever inserted into
`indices` comes from `graph.nodes` (top-level loop) or from a neighbor list
(hence an edge target), and each nested `strongConnect` call inserts a fresh
one, so the recursion depth never exceeds `nodes.length + edges.length`. -/
def tarjanFuel (g : GraphData) : Nat :=
  g.nodes.length + g.edges.length + 1

/-- Main loop of `findStronglyConnectedComponents` (source lines 179-183):
run `strongConnect` from every node not yet discovered. -/
def sccMainLoop (g : GraphData) (adj : List (String × List String))
    (s : TarjanState) : TarjanState :=
  g.nodes.foldl
    (fun s node =>
      if (mapGet s.indices node.id).isNone then strongConnect adj (tarjanFuel g) node.id s
      else s) s

/-- Final read of `findStronglyConnectedComponents` (source line 186): filter
out single-node components from the instance field `sccs`. -/
def sccCollect (s : TarjanState) : List (List String) :=
  s.sccs.filter (fun scc => scc.length > 1)

/-- Method `findStronglyConnectedComponents` (source lines 174-187) as an
instance-state transformer: `reset`, build adjacency, main loop, filtered
read of `this.sccs`. -/
def findSCCsFrom (st : TarjanState) (g : GraphData) :
    List (List String) × TarjanState :=
  let st1 := sccReset st
  let st2 := sccMainLoop g (buildAdjacencyList g) st1
  (sccCollect st2, st2)

/-- Field initializers of a freshly constructed `GraphAnalyzer` instance
(source lines 164-169). -/
def initialTarjanState : TarjanState :=
  { index := 0, stack := [], indices := [], lowlinks := [], onStack := [], sccs := [] }

/-- Value of a `findStronglyConnectedComponents` call on a fresh analyzer. -/
def findStronglyConnectedComponents (g : GraphData) : List (List String) :=
  (findSCCsFrom initialTarjanState g).1

/-- Component-restricted adjacency (source lines 262-266 and 321-325, which
are identical): for each node of `componentNodes`, its adjacency neighbors
filtered to members of the component node set. -/
def componentAdjOf (g : GraphData) (componentNodes : List String) :
    List (String × List String) :=
  let adjacencyList := buildAdjacencyList g
  componentNodes.foldl
    (fun m node =>
      mapSet m node (((mapGet adjacencyList node).getD []).filter (· ∈ componentNodes))) []

/-- Duplicate-avoiding record of a tiny cycle (source lines 288-294): the
pair is appended unless an equal pair in either orientation is present. -/
def tinyRecord (tinyCDs : List TinyCycle) (node neighbor : String) : List TinyCycle :=
  if tinyCDs.any (fun cd =>
      (cd.node1 == node && cd.node2 == neighbor) || (cd.node1 == neighbor && cd.node2 == node))
  then tinyCDs
  else tinyCDs ++ [{ node1 := node, node2 := neighbor }]

/-- Local mutable state of `detectTinyCycles`: the accumulated pair list and
the coloring map `nodesVisitingStatus`. -/
structure TinyState where
  tinyCDs : List TinyCycle
  status : List (String × VisitStatus)
deriving DecidableEq, Repr

/-- Neighbor loop of the `dfsVisit` closure of `detectTinyCycles` (source
lines 279-297), parameterized by the recursive call `rec`: an unvisited
neighbor is recursed into; a currently-visiting neighbor that has a direct
edge back to `node` yields a recorded pair. -/
def tinyNeighbors (compAdj : List (String × List String))
    (rec : String → TinyState → TinyState) (node : String) :
    List String → TinyState → TinyState
  | [], ts => ts
  | nb :: rest, ts =>
    let ts :=
      if mapGet ts.status nb = some VisitStatus.NOT_VISITED then rec nb ts
      else if mapGet ts.status nb = some VisitStatus.CURRENTLY_VISITING then
        if node ∈ (mapGet compAdj nb).getD [] then
          { ts with tinyCDs := tinyRecord ts.tinyCDs node nb }
        else ts
      else ts
    tinyNeighbors compAdj rec node rest ts

/-- The `dfsVisit` closure of `detectTinyCycles` (source lines 276-300), with
fuel: color the node gray, process its neighbors, color it black. -/
def tinyVisit (compAdj : List (String × List String)) :
    Nat → String → TinyState → TinyState
  | 0, _, ts => ts
  | fuel + 1, node, ts =>
    let ts := { ts with status := mapSet ts.status node VisitStatus.CURRENTLY_VISITING }
    let neighbors := (mapGet compAdj node).getD []
    let ts := tinyNeighbors compAdj (tinyVisit compAdj fuel) node neighbors ts
    { ts with status := mapSet ts.status node VisitStatus.VISITED }

/-- Method `detectTinyCycles` (source lines 256-310): build the
component-restricted adjacency, initialize every component node to
`NOT_VISITED`, run `dfsVisit` from every still-unvisited component node,
return the accumulated pairs.  Each nested `dfsVisit` call turns a
`NOT_VISITED` node gray, so the recursion depth never exceeds the number of
component nodes; the supplied fuel strictly exceeds it. -/
def detectTinyCycles (g : GraphData) (componentNodes : List String) : List TinyCycle :=
  let compAdj := componentAdjOf g componentNodes
  let st0 : TinyState :=
    { tinyCDs := [],
      status := componentNodes.foldl (fun m node => mapSet m node VisitStatus.NOT_VISITED) [] }
  let fuel := componentNodes.length + 1
  let final := componentNodes.foldl
    (fun ts node =>
      if mapGet ts.status node = some VisitStatus.NOT_VISITED then tinyVisit compAdj fuel node ts
      else ts) st0
  final.tinyCDs

/-- Local mutable state of `findElementaryCycles` (source lines 316-330):
accumulated cycles, `visited` set (written but never read by the source),
`recursionStack`, and `currentPath`. -/
structure CycState where
  cycles : List Cycle
  visited : List String
  recursionStack : List String
  currentPath : List String
deriving DecidableEq, Repr

/-- Neighbor loop of the `dfs` closure of `findElementaryCycles` (source
lines 337-349), parameterized by the recursive call `rec`: a neighbor equal
to the start node closes the current path into a recorded cycle (when the
path is longer than one node); otherwise the search descends, but only into
a neighbor not on the current path and only while fewer than 100 cycles have
been recorded. -/
def cdfsNeighbors (startNode : String) (rec : String → CycState → CycState) :
    List String → CycState → CycState
  | [], s => s
  | nb :: rest, s =>
    let s :=
      if nb = startNode ∧ s.currentPath.length > 1 then
        { s with cycles := s.cycles ++ [{ nodes := s.currentPath, length := s.currentPath.length }] }
      else if nb ∉ s.recursionStack ∧ s.cycles.length < 100 then rec nb s
      else s
    cdfsNeighbors startNode rec rest s

/-- The `dfs` closure of `findElementaryCycles` (source lines 332-353), with
fuel: push the node on the current path, visited set and recursion stack,
process its neighbors, then pop it from the path and the recursion stack. -/
def cdfs (adjC : List (String × List String)) (startNode : String) :
    Nat → String → CycState → CycState
  | 0, _, s => s
  | fuel + 1, node, s =>
    let s := { s with
      currentPath := s.currentPath ++ [node],
      visited := setAdd s.visited node,
      recursionStack := setAdd s.recursionStack node }
    let s := cdfsNeighbors startNode (cdfs adjC startNode fuel) ((mapGet adjC node).getD []) s
    { s with
      currentPath := s.currentPath.dropLast,
      recursionStack := setDelete s.recursionStack node }

/-- Lexicographic order on character lists, written structurally so the
kernel can evaluate it (the core `String.ltb` is defined by well-founded
recursion over byte positions and does not reduce definitionally). -/
def charListLt : List Char → List Char → Bool
  | [], [] => false
  | [], _ :: _ => true
  | _ :: _, [] => false
  | a :: as, b :: bs => if a < b then true else if b < a then false else charListLt as bs

/-- JS string comparison `a < b`: lexicographic. -/
def jsLt (a b : String) : Bool :=
  charListLt a.data b.data

/-- Index of the first lexicographically smallest element (source lines
387-392: loop keeping the index of the strictly smallest element seen).
Arguments: remaining list, current minimum, next index, best index so far. -/
def minIdxFrom : List String → String → Nat → Nat → Nat
  | [], _, _, best => best
  | x :: rest, curMin, i, best =>
    if jsLt x curMin then minIdxFrom rest x (i + 1) i else minIdxFrom rest curMin (i + 1) best

/-- Rotation of a sequence to start at its first lexicographically smallest
element (source line 394: `[...nodes.slice(minIdx), ...nodes.slice(0, minIdx)]`). -/
def rotateToMin (nodes : List String) : List String :=
  match nodes with
  | [] => []
  | x :: rest =>
    let m := minIdxFrom rest x 1 0
    nodes.drop m ++ nodes.take m

/-- Method `normalizeCycle` (source lines 385-396): rotate to the minimum and
join with the separator. -/
def normalizeCycle (nodes : List String) : String :=
  String.intercalate "->" (rotateToMin nodes)

/-- Method `removeDuplicateCycles` (source lines 369-383): keep each cycle
whose normalized representation has not been seen yet. -/
def removeDuplicateCycles (cycles : List Cycle) : List Cycle :=
  (cycles.foldl
    (fun (acc : List String × List Cycle) cycle =>
      let normalized := normalizeCycle cycle.nodes
      if normalized ∈ acc.1 then acc else (acc.1 ++ [normalized], acc.2 ++ [cycle]))
    ([], [])).2

/-- Stable insertion of a cycle into a length-sorted list: the new element is
placed after every element of smaller or equal length. -/
def insertByLen (c : Cycle) : List Cycle → List Cycle
  | [] => [c]
  | d :: rest => if d.length ≤ c.length then d :: insertByLen c rest else c :: d :: rest

/-- The final `sort((a, b) => a.length - b.length)` of the source (line 366):
JS `Array.sort` is a stable sort, embedded as a stable insertion sort by
`length`. -/
def sortByLen (l : List Cycle) : List Cycle :=
  l.foldl (fun acc c => insertByLen c acc) []

/-- Method `findElementaryCycles` (source lines 315-367): build the
component-restricted adjacency; from each start node (while fewer than 100
cycles are recorded — the source `break` is equivalent to skipping the
remaining iterations since the cycle list never shrinks) clear the traversal
state and run `dfs`; finally deduplicate and sort by length.  Each nested
`dfs` call pushes a node not yet on the recursion stack, and the stack only
ever holds component members, so the recursion depth never exceeds the
number of component nodes; the supplied fuel strictly exceeds it. -/
def findElementaryCycles (g : GraphData) (componentNodes : List String) : List Cycle :=
  let compAdj := componentAdjOf g componentNodes
  let fuel := componentNodes.length + 1
  let final := componentNodes.foldl
    (fun (s : CycState) startNode =>
      if s.cycles.length ≥ 100 then s
      else cdfs compAdj startNode fuel startNode
        { cycles := s.cycles, visited := [], recursionStack := [], currentPath := [] })
    { cycles := [], visited := [], recursionStack := [], currentPath := [] }
  sortByLen (removeDuplicateCycles final.cycles)

/-- Metrics record, from the `GraphMetrics` interface of the source.  The two
floating-point fields are embedded as exact rationals. -/
structure GraphMetrics where
  nodeCount : Nat
  edgeCount : Nat
  avgDegree : Rat
  maxDegree : Nat
  stronglyConnectedComponents : List (List String)
  density : Rat
  inDegrees : List (String × Nat)
  outDegrees : List (String × Nat)
  selfLoops : Nat
  multiEdges : Nat
deriving DecidableEq, Repr

/-- Single edge pass of `calculateMetrics` (source lines 417-429): increment
the out-degree of the source and the in-degree of the target, count
self-loops, and count occurrences of each `source->target` pair key. -/
def metricsEdgePass (edges : List Edge)
    (inDeg outDeg : List (String × Nat)) :
    List (String × Nat) × List (String × Nat) × Nat × List (String × Nat) :=
  edges.foldl
    (fun (acc : List (String × Nat) × List (String × Nat) × Nat × List (String × Nat)) e =>
      let outDeg := mapSet acc.2.1 e.source (((mapGet acc.2.1 e.source).getD 0) + 1)
      let inDeg := mapSet acc.1 e.target (((mapGet acc.1 e.target).getD 0) + 1)
      let selfLoops := if e.source = e.target then acc.2.2.1 + 1 else acc.2.2.1
      let pairKey := e.source ++ "->" ++ e.target
      let edgePairs := mapSet acc.2.2.2 pairKey (((mapGet acc.2.2.2 pairKey).getD 0) + 1)
      (inDeg, outDeg, selfLoops, edgePairs))
    (inDeg, outDeg, 0, [])

/-- Multi-edge count of `calculateMetrics` (source lines 432-437): sum of
`count - 1` over the pair-key counts greater than 1. -/
def countMultiEdges (edgePairs : List (String × Nat)) : Nat :=
  edgePairs.foldl (fun acc p => if p.2 > 1 then acc + (p.2 - 1) else acc) 0

/-- Method `calculateMetrics` (source lines 401-471). -/
def calculateMetrics (g : GraphData) : GraphMetrics :=
  let nodeCount := g.nodes.length
  let edgeCount := g.edges.length
  let inDeg0 := g.nodes.foldl (fun m n => mapSet m n.id 0) []
  let outDeg0 := g.nodes.foldl (fun m n => mapSet m n.id 0) []
  let pass := metricsEdgePass g.edges inDeg0 outDeg0
  let inDegrees := pass.1
  let outDegrees := pass.2.1
  let selfLoops := pass.2.2.1
  let multiEdges := countMultiEdges pass.2.2.2
  let totalDegrees := g.nodes.foldl
    (fun m n =>
      mapSet m n.id (((mapGet inDegrees n.id).getD 0) + ((mapGet outDegrees n.id).getD 0))) []
  let degreeValues : List Nat := totalDegrees.map (·.2)
  let maxDegree := if degreeValues.length > 0 then degreeValues.foldl max 0 else 0
  let avgDegree : Rat :=
    if degreeValues.length > 0 then ((degreeValues.sum : Rat) / (degreeValues.length : Rat))
    else 0
  let maxPossibleEdges := nodeCount * (nodeCount - 1)
  let density : Rat :=
    if maxPossibleEdges > 0 then ((edgeCount : Rat) / (maxPossibleEdges : Rat)) else 0
  { nodeCount := nodeCount
    edgeCount := edgeCount
    avgDegree := avgDegree
    maxDegree := maxDegree
    stronglyConnectedComponents := findStronglyConnectedComponents g
    density := density
    inDegrees := inDegrees
    outDegrees := outDegrees
    selfLoops := selfLoops
    multiEdges := multiEdges }

/-! ### Basic properties of the embedded TS `Map` -/

theorem mapGet_mapSet {α : Type} (m : List (String × α)) (k k' : String) (v : α) :
    mapGet (mapSet m k v) k' = if k = k' then some v else mapGet m k' := by
  induction m with
  | nil => simp [mapGet, mapSet]
  | cons a rest ih =>
    obtain ⟨ka, va⟩ := a
    by_cases hak : ka = k
    · subst hak
      by_cases hk' : ka = k' <;> simp [mapGet, mapSet, hk']
    · by_cases hk' : ka = k'
      · subst hk'
        have : k ≠ ka := fun h => hak h.symm
        simp [mapGet, mapSet, hak, this]
      · simp [mapGet, mapSet, hak, hk', ih]

theorem mapGet_mapSet_self {α : Type} (m : List (String × α)) (k : String) (v : α) :
    mapGet (mapSet m k v) k = some v := by
  simp [mapGet_mapSet]

theorem mapGet_mapSet_ne {α : Type} (m : List (String × α)) {k k' : String} (v : α)
    (h : k ≠ k') : mapGet (mapSet m k v) k' = mapGet m k' := by
  simp [mapGet_mapSet, h]

theorem mapGet_isSome_iff {α : Type} (m : List (String × α)) (k : String) :
    (mapGet m k).isSome ↔ k ∈ m.map Prod.fst := by
  induction m with
  | nil => simp [mapGet]
  | cons a rest ih =>
    obtain ⟨ka, va⟩ := a
    by_cases hk : ka = k
    · subst hk; simp [mapGet]
    · rw [List.map_cons]
      constructor
      · intro h
        rw [mapGet] at h
        rw [if_neg hk] at h
        exact List.mem_cons_of_mem _ (ih.mp h)
      · intro h
        rcases List.mem_cons.mp h with h | h
        · exact absurd h.symm hk
        · rw [mapGet, if_neg hk]
          exact ih.mpr h

theorem keys_mapSet {α : Type} (m : List (String × α)) (k k' : String) (v : α) :
    k' ∈ (mapSet m k v).map Prod.fst ↔ k' ∈ m.map Prod.fst ∨ k' = k := by
  induction m with
  | nil => simp [mapSet, eq_comm]
  | cons a rest ih =>
    obtain ⟨ka, va⟩ := a
    by_cases hak : ka = k
    · subst hak; simp [mapSet]; tauto
    · simp [mapSet, hak, ih]; tauto

/-! ### Characterization of the adjacency mapping -/

/-- Edge relation of a graph: an edge from `u` to `v` exists in `g.edges`. -/
def edgeEx (g : GraphData) (u v : String) : Prop :=
  ∃ e ∈ g.edges, e.source = u ∧ e.target = v

instance (g : GraphData) (u v : String) : Decidable (edgeEx g u v) := by
  unfold edgeEx; infer_instance

theorem initFold_get_not_mem {α : Type} (v0 : α) (nodes : List Node)
    (m : List (String × α)) (w : String) (hw : w ∉ nodes.map Node.id) :
    mapGet (nodes.foldl (fun m n => mapSet m n.id v0) m) w = mapGet m w := by
  induction nodes generalizing m with
  | nil => rfl
  | cons n rest ih =>
    rw [List.map_cons] at hw
    have h1 : w ∉ rest.map Node.id := fun h => hw (List.mem_cons_of_mem _ h)
    have h2 : n.id ≠ w := fun h => hw (h ▸ List.mem_cons_self _ _)
    rw [List.foldl_cons, ih _ h1, mapGet_mapSet_ne _ _ h2]

theorem initFold_get_mem {α : Type} (v0 : α) (nodes : List Node)
    (m : List (String × α)) (w : String) (hw : w ∈ nodes.map Node.id) :
    mapGet (nodes.foldl (fun m n => mapSet m n.id v0) m) w = some v0 := by
  induction nodes generalizing m with
  | nil => simp at hw
  | cons n rest ih =>
    rw [List.foldl_cons]
    by_cases h1 : w ∈ rest.map Node.id
    · exact ih _ h1
    · rw [List.map_cons] at hw
      rcases List.mem_cons.mp hw with hw | hw
      · rw [initFold_get_not_mem _ _ _ _ h1, ← hw, mapGet_mapSet_self]
      · exact absurd hw h1

theorem mapGet_init_nodes (nodes : List Node) (u : String) :
    mapGet (nodes.foldl (fun m n => mapSet m n.id ([] : List String)) []) u =
      if u ∈ nodes.map Node.id then some [] else none := by
  by_cases h : u ∈ nodes.map Node.id
  · rw [if_pos h, initFold_get_mem _ _ _ _ h]
  · rw [if_neg h, initFold_get_not_mem _ _ _ _ h]; rfl

theorem adjacency_fold_mem (edges : List Edge) (m : List (String × List String))
    (u v : String) :
    v ∈ (mapGet (edges.foldl
        (fun m e => mapSet m e.source (((mapGet m e.source).getD []) ++ [e.target])) m) u).getD []
      ↔ v ∈ (mapGet m u).getD [] ∨ ∃ e ∈ edges, e.source = u ∧ e.target = v := by
  induction edges generalizing m with
  | nil => simp
  | cons e rest ih =>
    rw [List.foldl_cons, ih]
    constructor
    · rintro (hv | hv)
      · rw [mapGet_mapSet] at hv
        by_cases hu : e.source = u
        · subst hu
          simp at hv
          rcases hv with hv | hv
          · exact Or.inl hv
          · exact Or.inr ⟨e, List.mem_cons_self _ _, rfl, hv.symm⟩
        · simp [hu] at hv
          exact Or.inl hv
      · obtain ⟨e', he', hs, ht⟩ := hv
        exact Or.inr ⟨e', List.mem_cons_of_mem _ he', hs, ht⟩
    · rintro (hv | ⟨e', he', hs, ht⟩)
      · left
        rw [mapGet_mapSet]
        by_cases hu : e.source = u
        · subst hu; simp; exact Or.inl hv
        · simpa [hu] using hv
      · rcases List.mem_cons.mp he' with he' | he'
        · subst he'
          left
          rw [← hs, mapGet_mapSet_self]
          simp [ht]
        · exact Or.inr ⟨e', he', hs, ht⟩

/-- The neighbor relation of the adjacency mapping is exactly the edge
relation: `v` occurs in `u`'s neighbor list iff some edge `u → v` exists. -/
theorem neighborsOf_iff_edgeEx (g : GraphData) (u v : String) :
    v ∈ neighborsOf g u ↔ edgeEx g u v := by
  unfold neighborsOf buildAdjacencyList edgeEx
  rw [adjacency_fold_mem]
  rw [mapGet_init_nodes]
  by_cases h : u ∈ g.nodes.map Node.id <;> simp [h]

theorem adjacency_fold_keys (edges : List Edge) (m : List (String × List String))
    (u : String) :
    u ∈ (edges.foldl
        (fun m e => mapSet m e.source (((mapGet m e.source).getD []) ++ [e.target])) m).map Prod.fst
      ↔ u ∈ m.map Prod.fst ∨ u ∈ edges.map Edge.source := by
  induction edges generalizing m with
  | nil => simp
  | cons e rest ih =>
    rw [List.foldl_cons, ih, keys_mapSet]
    simp
    tauto

/-- The keys of the adjacency mapping are exactly the node ids together with
the edge sources. -/
theorem adjacency_keys (g : GraphData) (u : String) :
    (mapGet (buildAdjacencyList g) u).isSome ↔
      u ∈ g.nodes.map Node.id ∨ u ∈ g.edges.map Edge.source := by
  unfold buildAdjacencyList
  rw [mapGet_isSome_iff, adjacency_fold_keys]
  constructor
  · rintro (h | h)
    · left
      rcases (mapGet_isSome_iff _ u).mpr h with _
      have := mapGet_init_nodes g.nodes u
      by_cases hu : u ∈ g.nodes.map Node.id
      · exact hu
      · exfalso
        have h2 : (mapGet (g.nodes.foldl (fun m n => mapSet m n.id ([] : List String)) []) u).isSome :=
          (mapGet_isSome_iff _ u).mpr h
        rw [this] at h2
        simp [hu] at h2
    · exact Or.inr h
  · rintro (h | h)
    · left
      apply (mapGet_isSome_iff _ u).mp
      rw [mapGet_init_nodes]
      simp [h]
    · exact Or.inr h

/-- Graph with no nodes and a single dangling edge `x → y`. -/
def danglingGraph : GraphData :=
  { nodes := [], edges := [{ id := "1", source := "x", target := "y" }] }

/-! ### Engine invocations as transformers over the mutable environment

The mutable environment visible to a public engine operation consists of the
caller-supplied `GraphData` and the analyzer's instance fields
(`TarjanState`).  Every statement of the four public methods either reads
`graphData` (`for ... of graphData.nodes/edges`, `.length`) or writes a local
variable or an instance field; no statement assigns into `graphData`, so the
faithful embedding threads the graph value through unchanged.
`calculateMetrics` and `findStronglyConnectedComponents` write the instance
fields (the latter via `reset`/`strongConnect`); `findElementaryCycles` and
`detectTinyCycles` use only local state. -/

/-- Result of one engine call: returned value, the graph as left behind, and
the analyzer instance state as left behind. -/
structure EngineRun (α : Type) where
  result : α
  graph : GraphData
  state : TarjanState
deriving Repr

/-- Method `findStronglyConnectedComponents` over the full environment. -/
def findStronglyConnectedComponentsRun (g : GraphData) (st : TarjanState) :
    EngineRun (List (List String)) :=
  let p := findSCCsFrom st g
  { result := p.1, graph := g, state := p.2 }

/-- Method `calculateMetrics` over the full environment: its only instance-
state effect is the nested `this.findStronglyConnectedComponents(graphData)`
call (source line 457). -/
def calculateMetricsRun (g : GraphData) (st : TarjanState) :
    EngineRun GraphMetrics :=
  { result := calculateMetrics g, graph := g, state := (findSCCsFrom st g).2 }

/-- Method `findElementaryCycles` over the full environment: all of its
traversal state is local (source lines 316-330). -/
def findElementaryCyclesRun (g : GraphData) (componentNodes : List String)
    (st : TarjanState) : EngineRun (List Cycle) :=
  { result := findElementaryCycles g componentNodes, graph := g, state := st }

/-- Method `detectTinyCycles` over the full environment: all of its traversal
state is local (source lines 257-273). -/
def detectTinyCyclesRun (g : GraphData) (componentNodes : List String)
    (st : TarjanState) : EngineRun (List TinyCycle) :=
  { result := detectTinyCycles g componentNodes, graph := g, state := st }

/-- Node constructor used by the concrete test graphs below. -/
def mkNode (i : String) : Node :=
  { id := i, type := "service", posX := 0, posY := 0, label := i }

/-- Edge constructor used by the concrete test graphs below. -/
def mkEdge (i s t : String) : Edge :=
  { id := i, source := s, target := t }

/-- Two mutually dependent nodes `a ⇄ b`: the smallest graph with one
strongly connected component. -/
def twoCycleGraph : GraphData :=
  { nodes := [mkNode "a", mkNode "b"],
    edges := [mkEdge "1" "a" "b", mkEdge "2" "b" "a"] }

/-! ### Claim theorems -/

/-- C6, counterexample to the claim as stated: in a graph whose single edge
`x → y` references no existing node, the id `x` is not a node id and yet IS
a key of the adjacency mapping (source lines 207-211 insert `edge.source` as
a key unconditionally), refuting "a node id not present in graph.nodes never
appears as a key of the adjacency mapping". -/
theorem C6_counterexample :
    "x" ∉ danglingGraph.nodes.map Node.id ∧
      (mapGet (buildAdjacencyList danglingGraph) "x").isSome := by
  decide

/-- C6, amended: the engine does not fail on dangling references — adjacency
building is total — but dangling edges are not dropped: the adjacency keys
are exactly the node ids together with the edge sources (so a dangling
source DOES appear as a key), and the neighbor list of any id consists
exactly of the targets of its outgoing edges, dangling targets included. -/
theorem C6_amended (g : GraphData) (k v : String) :
    ((mapGet (buildAdjacencyList g) k).isSome ↔
      k ∈ g.nodes.map Node.id ∨ k ∈ g.edges.map Edge.source) ∧
    (v ∈ neighborsOf g k ↔ edgeEx g k v) :=
  ⟨adjacency_keys g k, neighborsOf_iff_edgeEx g k v⟩

/-- C8: the claim fails on the code.  The working state of the traversal is
held in instance-wide mutable fields of `GraphAnalyzer` (source lines
164-169) and the service layer shares one module-level instance
(`const analyzer = new GraphAnalyzer()`, `routes/graphs.ts` line 6), so two
concurrent invocations do interfere.  Concretely,
`findStronglyConnectedComponents` executes three steps against the shared
fields — `reset`, the main discovery loop, and the final read
`this.sccs.filter(...)` — and if a second invocation's `reset` runs between
the last two steps of the first invocation, the first invocation returns the
filtered contents of a cleared `sccs` field: the empty list instead of its
graph's one component. -/
theorem C8_interleaving_contamination :
    sccCollect (sccReset (sccMainLoop twoCycleGraph (buildAdjacencyList twoCycleGraph)
        (sccReset initialTarjanState))) = [] ∧
      findStronglyConnectedComponents twoCycleGraph = [["b", "a"]] := by
  constructor
  · rfl
  · rfl

/-- C9: no public engine operation mutates its input `GraphData`: each of the
four public methods, embedded as a transformer over the full mutable
environment (graph plus analyzer instance state), leaves the graph component
— hence the node and edge sequences and every field of every node and edge —
exactly as supplied.  This holds structurally: no statement of the source
methods assigns into `graphData`. -/
theorem C9_no_input_mutation (g : GraphData) (componentNodes : List String)
    (st : TarjanState) :
    (calculateMetricsRun g st).graph = g ∧
      (findStronglyConnectedComponentsRun g st).graph = g ∧
      (findElementaryCyclesRun g componentNodes st).graph = g ∧
      (detectTinyCyclesRun g componentNodes st).graph = g :=
  ⟨rfl, rfl, rfl, rfl⟩

/-! ### Multi-edge counting (claim C7) -/

/-- Pair key used by `calculateMetrics` to identify an ordered
(source, target) pair (source line 427). -/
def pairKey (e : Edge) : String :=
  e.source ++ "->" ++ e.target

/-- The `edgePairs` accumulation of `calculateMetrics` in isolation. -/
def pairFoldAux (edges : List Edge) (m : List (String × Nat)) : List (String × Nat) :=
  edges.foldl (fun m e => mapSet m (pairKey e) (((mapGet m (pairKey e)).getD 0) + 1)) m

theorem metricsEdgePass_pairs (edges : List Edge) :
    ∀ (inDeg outDeg : List (String × Nat)) (sl : Nat) (m : List (String × Nat)),
    (edges.foldl
      (fun (acc : List (String × Nat) × List (String × Nat) × Nat × List (String × Nat)) e =>
        let outDeg := mapSet acc.2.1 e.source (((mapGet acc.2.1 e.source).getD 0) + 1)
        let inDeg := mapSet acc.1 e.target (((mapGet acc.1 e.target).getD 0) + 1)
        let selfLoops := if e.source = e.target then acc.2.2.1 + 1 else acc.2.2.1
        let pk := e.source ++ "->" ++ e.target
        let edgePairs := mapSet acc.2.2.2 pk (((mapGet acc.2.2.2 pk).getD 0) + 1)
        (inDeg, outDeg, selfLoops, edgePairs))
      (inDeg, outDeg, sl, m)).2.2.2 = pairFoldAux edges m := by
  induction edges with
  | nil => intro inDeg outDeg sl m; rfl
  | cons e rest ih =>
    intro inDeg outDeg sl m
    rw [List.foldl_cons]
    exact ih _ _ _ _

theorem metricsEdgePass_pairs_component (edges : List Edge)
    (inDeg outDeg : List (String × Nat)) :
    (metricsEdgePass edges inDeg outDeg).2.2.2 = pairFoldAux edges [] :=
  metricsEdgePass_pairs edges inDeg outDeg 0 []

/-- Contribution of one pair-count to `multiEdges`. -/
def multiContrib (k : Nat) : Nat :=
  if k > 1 then k - 1 else 0

theorem countMultiEdges_eq_sum (m : List (String × Nat)) :
    countMultiEdges m = (m.map (fun p => multiContrib p.2)).sum := by
  suffices h : ∀ a, m.foldl (fun acc p => if p.2 > 1 then acc + (p.2 - 1) else acc) a =
      a + (m.map (fun p => multiContrib p.2)).sum by
    have := h 0
    simpa [countMultiEdges] using this
  induction m with
  | nil => intro a; simp
  | cons p rest ih =>
    intro a
    rw [List.foldl_cons, List.map_cons, List.sum_cons, ih]
    unfold multiContrib
    by_cases hp : p.2 > 1
    · simp only [if_pos hp]
      omega
    · simp only [if_neg hp]
      omega

theorem keys_nodup_mapSet {α : Type} (m : List (String × α)) (k : String) (v : α)
    (h : (m.map Prod.fst).Nodup) : ((mapSet m k v).map Prod.fst).Nodup := by
  induction m with
  | nil => simp [mapSet]
  | cons a rest ih =>
    obtain ⟨ka, va⟩ := a
    rw [List.map_cons, List.nodup_cons] at h
    by_cases hak : ka = k
    · subst hak
      simpa [mapSet, List.nodup_cons] using h
    · rw [mapSet, if_neg hak, List.map_cons, List.nodup_cons]
      refine ⟨fun hmem => ?_, ih h.2⟩
      rcases (keys_mapSet rest k ka v).mp hmem with hmem | hmem
      · exact h.1 hmem
      · exact hak hmem

theorem keys_nodup_pairFold (edges : List Edge) (m : List (String × Nat))
    (h : (m.map Prod.fst).Nodup) : ((pairFoldAux edges m).map Prod.fst).Nodup := by
  induction edges generalizing m with
  | nil => exact h
  | cons e rest ih =>
    rw [pairFoldAux, List.foldl_cons]
    exact ih _ (keys_nodup_mapSet _ _ _ h)

theorem mem_iff_mapGet {α : Type} [DecidableEq α] (m : List (String × α)) (k : String) (v : α)
    (h : (m.map Prod.fst).Nodup) : (k, v) ∈ m ↔ mapGet m k = some v := by
  induction m with
  | nil => simp [mapGet]
  | cons a rest ih =>
    obtain ⟨ka, va⟩ := a
    rw [List.map_cons, List.nodup_cons] at h
    by_cases hak : ka = k
    · subst hak
      rw [mapGet, if_pos rfl]
      simp only [List.mem_cons]
      constructor
      · rintro (heq | hmem)
        · cases heq; rfl
        · exact absurd (List.mem_map_of_mem Prod.fst hmem) h.1
      · rintro heq
        cases heq
        exact Or.inl rfl
    · rw [mapGet, if_neg hak]
      simp only [List.mem_cons]
      rw [ih h.2]
      constructor
      · rintro (heq | hmem)
        · cases heq; exact absurd rfl hak
        · exact hmem
      · exact Or.inr

theorem mapGet_pairFold (edges : List Edge) :
    ∀ (m : List (String × Nat)) (k : String),
    mapGet (pairFoldAux edges m) k =
      if (mapGet m k).isSome ∨ k ∈ edges.map pairKey then
        some ((mapGet m k).getD 0 + edges.countP (fun e => pairKey e == k))
      else none := by
  induction edges with
  | nil => intro m k; cases h : mapGet m k <;> simp [pairFoldAux, h]
  | cons e rest ih =>
    intro m k
    have step : pairFoldAux (e :: rest) m =
        pairFoldAux rest (mapSet m (pairKey e) (((mapGet m (pairKey e)).getD 0) + 1)) := rfl
    rw [step, ih]
    by_cases hk : pairKey e = k
    · subst hk
      rw [mapGet_mapSet_self]
      have hc : (e :: rest).countP (fun e' => pairKey e' == pairKey e) =
          (rest.countP (fun e' => pairKey e' == pairKey e)) + 1 := by
        rw [List.countP_cons]
        simp
      simp only [Option.isSome_some, Option.getD_some, true_or, if_true]
      rw [if_pos (Or.inr (List.mem_map_of_mem pairKey (List.mem_cons_self _ _))), hc]
      congr 1
      omega
    · rw [mapGet_mapSet_ne _ _ hk]
      have hm : k ∈ (e :: rest).map pairKey ↔ k ∈ rest.map pairKey := by
        rw [List.map_cons, List.mem_cons]
        constructor
        · rintro (h | h)
          · exact absurd h.symm hk
          · exact h
        · exact Or.inr
      have hcnt : (e :: rest).countP (fun e' => pairKey e' == k) =
          rest.countP (fun e' => pairKey e' == k) := by
        rw [List.countP_cons]
        simp [hk]
      simp only [hm, hcnt]

/-- Canonical pair-count list: one entry per distinct pair key. -/
def canonPairs (edges : List Edge) : List (String × Nat) :=
  (edges.map pairKey).dedup.map (fun k => (k, edges.countP (fun e => pairKey e == k)))

theorem mapGet_mapList (ks : List String) (f : String → Nat) (k : String) :
    mapGet (ks.map (fun k => (k, f k))) k = if k ∈ ks then some (f k) else none := by
  induction ks with
  | nil => simp [mapGet]
  | cons a rest ih =>
    by_cases hak : a = k
    · subst hak; simp [mapGet]
    · rw [List.map_cons, mapGet, if_neg hak, ih]
      have hmem : (k ∈ a :: rest) ↔ (k ∈ rest) := by
        rw [List.mem_cons]
        exact ⟨fun h => h.resolve_left (fun h2 => hak h2.symm), Or.inr⟩
      simp only [hmem]

theorem pairFold_perm_canon (edges : List Edge) :
    (pairFoldAux edges []).Perm (canonPairs edges) := by
  have hn1 : ((pairFoldAux edges []).map Prod.fst).Nodup :=
    keys_nodup_pairFold edges [] (by simp)
  have hn2 : ((canonPairs edges).map Prod.fst).Nodup := by
    unfold canonPairs
    rw [List.map_map]
    have : (Prod.fst ∘ fun k => (k, edges.countP (fun e => pairKey e == k))) = id := rfl
    rw [this, List.map_id]
    exact List.nodup_dedup _
  refine (List.perm_ext_iff_of_nodup (hn1.of_map _) (hn2.of_map _)).mpr ?_
  rintro ⟨k, v⟩
  rw [mem_iff_mapGet _ _ _ hn1, mem_iff_mapGet _ _ _ hn2]
  rw [mapGet_pairFold]
  unfold canonPairs
  simp only [mapGet_mapList, List.mem_dedup, mapGet, Option.isSome_none, Bool.false_eq_true,
    false_or, Option.getD_none, Nat.zero_add]

/-- Ordered (source, target) pair of an edge. -/
def edgePair (e : Edge) : String × String :=
  (e.source, e.target)

/-- Number of parallel edges of `g` with the given ordered (source, target)
pair.  This is the `k` of the specification sentence. -/
def pairCount (g : GraphData) (s t : String) : Nat :=
  g.edges.countP (fun e => e.source == s && e.target == t)

/-- Modelled from the spec: the value the claim asserts for `multiEdges` —
the sum over every distinct ordered (source, target) pair of `k - 1` when
that pair has `k > 1` parallel edges, and `0` when `k = 1`. -/
def specMultiEdges (g : GraphData) : Nat :=
  ((g.edges.map edgePair).dedup.map
    (fun p => multiContrib (pairCount g p.1 p.2))).sum

theorem dedup_map_of_inj {β γ : Type} [DecidableEq β] [DecidableEq γ]
    (l : List β) (f : β → γ)
    (hinj : ∀ x ∈ l, ∀ y ∈ l, f x = f y → x = y) :
    (l.map f).dedup = l.dedup.map f := by
  induction l with
  | nil => simp
  | cons x rest ih =>
    have hinj' : ∀ a ∈ rest, ∀ b ∈ rest, f a = f b → a = b := fun a ha b hb =>
      hinj a (List.mem_cons_of_mem _ ha) b (List.mem_cons_of_mem _ hb)
    have hmem : f x ∈ rest.map f ↔ x ∈ rest := by
      constructor
      · intro h
        obtain ⟨y, hy, hfy⟩ := List.mem_map.mp h
        have := hinj y (List.mem_cons_of_mem _ hy) x (List.mem_cons_self _ _) hfy
        exact this ▸ hy
      · exact List.mem_map_of_mem f
    by_cases hx : x ∈ rest
    · rw [List.map_cons, List.dedup_cons_of_mem (hmem.mpr hx),
        List.dedup_cons_of_mem hx, ih hinj']
    · rw [List.map_cons, List.dedup_cons_of_not_mem (fun h => hx (hmem.mp h)),
        List.dedup_cons_of_not_mem hx, List.map_cons, ih hinj']

/-- C7, amended: provided distinct ordered (source, target) pairs of edges
of `g` give distinct pair-key strings `source ++ "->" ++ target` (which can
fail only when a node id contains the substring `"->"`), `multiEdges` equals
the specified sum of `k - 1` over every ordered pair with `k > 1` parallel
edges, and in particular is `0` when every ordered pair has at most one
edge. -/
theorem C7_amended (g : GraphData)
    (hinj : ∀ e1 ∈ g.edges, ∀ e2 ∈ g.edges,
      pairKey e1 = pairKey e2 → e1.source = e2.source ∧ e1.target = e2.target) :
    (calculateMetrics g).multiEdges = specMultiEdges g := by
  have h1 : (calculateMetrics g).multiEdges = countMultiEdges (pairFoldAux g.edges []) := by
    show countMultiEdges (metricsEdgePass g.edges _ _).2.2.2 = _
    rw [metricsEdgePass_pairs_component]
  rw [h1, countMultiEdges_eq_sum]
  have h2 : ((pairFoldAux g.edges []).map (fun p => multiContrib p.2)).sum =
      ((canonPairs g.edges).map (fun p => multiContrib p.2)).sum :=
    ((pairFold_perm_canon g.edges).map _).sum_eq
  rw [h2]
  unfold canonPairs specMultiEdges
  have hjoin : ∀ x ∈ g.edges.map edgePair, ∀ y ∈ g.edges.map edgePair,
      x.1 ++ "->" ++ x.2 = y.1 ++ "->" ++ y.2 → x = y := by
    rintro x hx y hy hxy
    obtain ⟨e1, he1, hx1⟩ := List.mem_map.mp hx
    obtain ⟨e2, he2, hy1⟩ := List.mem_map.mp hy
    subst hx1; subst hy1
    have := hinj e1 he1 e2 he2 hxy
    unfold edgePair
    rw [this.1, this.2]
  have hkeys : g.edges.map pairKey = (g.edges.map edgePair).map (fun p => p.1 ++ "->" ++ p.2) := by
    rw [List.map_map]; rfl
  rw [hkeys, dedup_map_of_inj _ _ hjoin, List.map_map, List.map_map]
  congr 1
  apply List.map_congr_left
  intro p hp
  obtain ⟨e2, he2, hpe2⟩ := List.mem_map.mp (List.mem_dedup.mp hp)
  simp only [Function.comp_apply]
  congr 1
  apply List.countP_congr
  intro e' he'
  subst hpe2
  simp only [edgePair]
  constructor
  · intro h
    have hkey : pairKey e' = pairKey e2 := by
      have hb : pairKey e' = e2.source ++ "->" ++ e2.target := eq_of_beq h
      rw [hb]; rfl
    have hst := hinj e' he' e2 he2 hkey
    simp [hst.1, hst.2]
  · intro h
    have hs : e'.source = e2.source ∧ e'.target = e2.target := by simpa using h
    simp [pairKey, hs.1, hs.2]

/-- Graph whose two edges have distinct ordered (source, target) pairs that
produce the same pair-key string: `("a->b", "c")` and `("a", "b->c")` both
join to `"a->b->c"`. -/
def collidingPairGraph : GraphData :=
  { nodes := [],
    edges := [{ id := "e1", source := "a->b", target := "c" },
              { id := "e2", source := "a", target := "b->c" }] }

/-- C7, counterexample to the claim as stated: `calculateMetrics` identifies
ordered pairs by the string `source + "->" + target`, so two distinct
ordered pairs can collide (a node id containing `"->"`); on
`collidingPairGraph` every ordered pair has exactly one edge, so the claimed
sum is 0, yet the code returns `multiEdges = 1`. -/
theorem C7_counterexample :
    (calculateMetrics collidingPairGraph).multiEdges = 1 ∧
      specMultiEdges collidingPairGraph = 0 := by
  constructor
  · rfl
  · rfl

/-- C7, witness for the amended theorem at a concrete input: two parallel
edges `p → q` (collision-free ids), where `multiEdges = 1 = (2 - 1)`. -/
def twoParallelGraph : GraphData :=
  { nodes := [mkNode "p", mkNode "q"],
    edges := [mkEdge "1" "p" "q", mkEdge "2" "p" "q"] }

theorem C7_amended_witness :
    (calculateMetrics twoParallelGraph).multiEdges = specMultiEdges twoParallelGraph ∧
      specMultiEdges twoParallelGraph = 1 :=
  ⟨C7_amended twoParallelGraph (by decide), by rfl⟩

/-! ### Deduplication and ordering of enumerated cycles (claim C4) -/

/-- Normalized name of a cycle record. -/
def cycNorm (c : Cycle) : String :=
  normalizeCycle c.nodes

theorem removeDuplicateCycles_fold_nodup (cycles : List Cycle) :
    ∀ acc : List String × List Cycle,
      acc.2.map cycNorm = acc.1 → acc.1.Nodup →
      ((cycles.foldl
          (fun (acc : List String × List Cycle) cycle =>
            let normalized := normalizeCycle cycle.nodes
            if normalized ∈ acc.1 then acc else (acc.1 ++ [normalized], acc.2 ++ [cycle]))
          acc).2.map cycNorm).Nodup := by
  induction cycles with
  | nil =>
    intro acc h1 h2
    rw [List.foldl_nil, h1]
    exact h2
  | cons c rest ih =>
    intro acc h1 h2
    rw [List.foldl_cons]
    by_cases hc : normalizeCycle c.nodes ∈ acc.1
    · simp only [if_pos hc]
      exact ih acc h1 h2
    · simp only [if_neg hc]
      refine ih _ ?_ ?_
      · simp [h1, cycNorm]
      · rw [List.nodup_append]
        refine ⟨h2, List.nodup_singleton _, ?_⟩
        intro a ha hb
        rw [List.mem_singleton] at hb
        exact hc (hb ▸ ha)

theorem removeDuplicateCycles_normalized_nodup (cycles : List Cycle) :
    ((removeDuplicateCycles cycles).map cycNorm).Nodup := by
  unfold removeDuplicateCycles
  exact removeDuplicateCycles_fold_nodup cycles ([], []) rfl (List.nodup_nil)

theorem removeDuplicateCycles_fold_subset (cycles : List Cycle) :
    ∀ (acc : List String × List Cycle) (c : Cycle),
      c ∈ (cycles.foldl
          (fun (acc : List String × List Cycle) cycle =>
            let normalized := normalizeCycle cycle.nodes
            if normalized ∈ acc.1 then acc else (acc.1 ++ [normalized], acc.2 ++ [cycle]))
          acc).2 → c ∈ acc.2 ∨ c ∈ cycles := by
  induction cycles with
  | nil =>
    intro acc c hc
    exact Or.inl hc
  | cons d rest ih =>
    intro acc c hc
    rw [List.foldl_cons] at hc
    by_cases hd : normalizeCycle d.nodes ∈ acc.1
    · simp only [if_pos hd] at hc
      rcases ih acc c hc with h | h
      · exact Or.inl h
      · exact Or.inr (List.mem_cons_of_mem _ h)
    · simp only [if_neg hd] at hc
      rcases ih _ c hc with h | h
      · rcases List.mem_append.mp h with h | h
        · exact Or.inl h
        · rw [List.mem_singleton] at h
          exact Or.inr (h ▸ List.mem_cons_self _ _)
      · exact Or.inr (List.mem_cons_of_mem _ h)

theorem mem_removeDuplicateCycles (cycles : List Cycle) (c : Cycle)
    (h : c ∈ removeDuplicateCycles cycles) : c ∈ cycles := by
  unfold removeDuplicateCycles at h
  rcases removeDuplicateCycles_fold_subset cycles ([], []) c h with h | h
  · exact absurd h (List.not_mem_nil c)
  · exact h

theorem insertByLen_perm (c : Cycle) (l : List Cycle) :
    (insertByLen c l).Perm (c :: l) := by
  induction l with
  | nil => exact List.Perm.refl _
  | cons d rest ih =>
    rw [insertByLen]
    by_cases hd : d.length ≤ c.length
    · rw [if_pos hd]
      exact (ih.cons d).trans (List.Perm.swap c d rest)
    · rw [if_neg hd]

theorem sortByLen_fold_perm (l : List Cycle) :
    ∀ acc : List Cycle,
      (l.foldl (fun acc c => insertByLen c acc) acc).Perm (acc ++ l) := by
  induction l with
  | nil => intro acc; simp
  | cons c rest ih =>
    intro acc
    rw [List.foldl_cons]
    exact ((ih _).trans ((insertByLen_perm c acc).append_right rest)).trans
      List.perm_middle.symm

theorem sortByLen_perm (l : List Cycle) : (sortByLen l).Perm l := by
  have := sortByLen_fold_perm l []
  simpa [sortByLen] using this

/-- Length comparison used by the final sort. -/
def lenLE (c1 c2 : Cycle) : Prop :=
  c1.length ≤ c2.length

theorem insertByLen_sorted (c : Cycle) (l : List Cycle)
    (h : l.Sorted lenLE) : (insertByLen c l).Sorted lenLE := by
  induction l with
  | nil => simp [insertByLen, List.Sorted]
  | cons d rest ih =>
    rw [List.sorted_cons] at h
    rw [insertByLen]
    by_cases hd : d.length ≤ c.length
    · rw [if_pos hd]
      rw [List.sorted_cons]
      refine ⟨?_, ih h.2⟩
      intro b hb
      rcases List.mem_cons.mp (((insertByLen_perm c rest).mem_iff).mp hb) with hb | hb
      · exact hb ▸ hd
      · exact h.1 b hb
    · rw [if_neg hd]
      rw [List.sorted_cons]
      refine ⟨?_, List.sorted_cons.mpr h⟩
      intro b hb
      rcases List.mem_cons.mp hb with hb | hb
      · exact hb ▸ Nat.le_of_not_le hd
      · exact Nat.le_trans (Nat.le_of_not_le hd) (h.1 b hb)

theorem sortByLen_fold_sorted (l : List Cycle) :
    ∀ acc : List Cycle, acc.Sorted lenLE →
      (l.foldl (fun acc c => insertByLen c acc) acc).Sorted lenLE := by
  induction l with
  | nil => intro acc h; exact h
  | cons c rest ih =>
    intro acc h
    rw [List.foldl_cons]
    exact ih _ (insertByLen_sorted c acc h)

theorem sortByLen_sorted (l : List Cycle) : (sortByLen l).Sorted lenLE :=
  sortByLen_fold_sorted l [] (List.sorted_nil)

/-- C4: the returned cycle list never contains two entries whose node
sequences are cyclic rotations of one another — rotation equivalence decided,
as the claim states it, by rotating each sequence to start at its
lexicographically smallest node id and comparing the normalized sequences —
and the entries are ordered non-decreasing by `length`. -/
theorem C4_no_rotation_duplicates_and_sorted (g : GraphData) (componentNodes : List String) :
    (findElementaryCycles g componentNodes).Pairwise
      (fun c1 c2 => rotateToMin c1.nodes ≠ rotateToMin c2.nodes) ∧
    (findElementaryCycles g componentNodes).Sorted
      (fun c1 c2 => c1.length ≤ c2.length) := by
  constructor
  · have h1 : ∀ raw : List Cycle, (removeDuplicateCycles raw).Pairwise
        (fun c1 c2 => cycNorm c1 ≠ cycNorm c2) := by
      intro raw
      have := removeDuplicateCycles_normalized_nodup raw
      rw [List.Nodup, List.pairwise_map] at this
      exact this
    have h2 : ∀ raw : List Cycle, (removeDuplicateCycles raw).Pairwise
        (fun c1 c2 => rotateToMin c1.nodes ≠ rotateToMin c2.nodes) := by
      intro raw
      refine (h1 raw).imp ?_
      intro c1 c2 hne heq
      exact hne (congrArg (String.intercalate "->") heq)
    have hsym : ∀ {c1 c2 : Cycle}, rotateToMin c1.nodes ≠ rotateToMin c2.nodes →
        rotateToMin c2.nodes ≠ rotateToMin c1.nodes :=
      fun h heq => h heq.symm
    show (sortByLen _).Pairwise _
    exact ((sortByLen_perm _).pairwise_iff hsym).mpr (h2 _)
  · exact sortByLen_sorted _

/-! ### Component-restricted adjacency and validity of enumerated cycles -/

theorem mapGet_constFold {α : Type} (f : String → α) (ks : List String) :
    ∀ (m : List (String × α)) (u : String),
    mapGet (ks.foldl (fun m k => mapSet m k (f k)) m) u =
      if u ∈ ks then some (f u) else mapGet m u := by
  induction ks with
  | nil => intro m u; simp
  | cons k rest ih =>
    intro m u
    rw [List.foldl_cons, ih]
    by_cases hu : u ∈ rest
    · rw [if_pos hu, if_pos (List.mem_cons_of_mem _ hu)]
    · rw [if_neg hu]
      by_cases hk : k = u
      · subst hk
        rw [mapGet_mapSet_self, if_pos (List.mem_cons_self _ _)]
      · rw [mapGet_mapSet_ne _ _ hk]
        have hnot : u ∉ k :: rest := by
          intro h
          rcases List.mem_cons.mp h with h | h
          exacts [hk h.symm, hu h]
        rw [if_neg hnot]

/-- Neighbor relation of the component-restricted adjacency. -/
def compAdjRel (g : GraphData) (comp : List String) (u v : String) : Prop :=
  v ∈ (mapGet (componentAdjOf g comp) u).getD []

theorem componentAdjOf_get (g : GraphData) (comp : List String) (u : String) :
    mapGet (componentAdjOf g comp) u =
      if u ∈ comp then some ((neighborsOf g u).filter (· ∈ comp)) else none := by
  unfold componentAdjOf
  rw [mapGet_constFold
    (fun node => ((mapGet (buildAdjacencyList g) node).getD []).filter (· ∈ comp)) comp [] u]
  by_cases hu : u ∈ comp
  · rw [if_pos hu, if_pos hu]
    rfl
  · rw [if_neg hu, if_neg hu]
    rfl

theorem compAdjRel_iff (g : GraphData) (comp : List String) (u v : String) :
    compAdjRel g comp u v ↔ u ∈ comp ∧ v ∈ comp ∧ edgeEx g u v := by
  unfold compAdjRel
  rw [componentAdjOf_get]
  by_cases hu : u ∈ comp
  · rw [if_pos hu]
    simp only [Option.getD_some, List.mem_filter, decide_eq_true_eq]
    rw [neighborsOf_iff_edgeEx]
    tauto
  · rw [if_neg hu]
    simp [hu]

/-- Validity of a cycle record, exactly as claim C3 states it: a nonempty
duplicate-free sequence of component members, consecutive members joined by
edges of the graph, a closing edge from the last member to the first, and a
`length` field equal to the number of members. -/
def validCycle (g : GraphData) (comp : List String) (c : Cycle) : Prop :=
  c.nodes ≠ [] ∧ c.nodes.Nodup ∧ (∀ n ∈ c.nodes, n ∈ comp) ∧
  c.nodes.Chain' (edgeEx g) ∧
  (∀ a b, c.nodes.head? = some a → c.nodes.getLast? = some b → edgeEx g b a) ∧
  c.length = c.nodes.length

/-- All recorded cycles of a traversal state are valid. -/
def CycInv (g : GraphData) (comp : List String) (s : CycState) : Prop :=
  ∀ c ∈ s.cycles, validCycle g comp c

/-- Invariant of the active search path of `findElementaryCycles`: the
recursion stack mirrors the path, the path repeats no node, stays in the
component, follows edges, and starts at the search's start node. -/
def PathInv (g : GraphData) (comp : List String) (startNode : String)
    (s : CycState) : Prop :=
  s.recursionStack = s.currentPath ∧ s.currentPath.Nodup ∧
  (∀ n ∈ s.currentPath, n ∈ comp) ∧ s.currentPath.Chain' (edgeEx g) ∧
  (s.currentPath ≠ [] → s.currentPath.head? = some startNode)

/-- Number of component-restricted neighbors of `v`. -/
def adjWOf (g : GraphData) (comp : List String) (v : String) : Nat :=
  ((mapGet (componentAdjOf g comp) v).getD []).length

/-- Total component-restricted neighbor count of the distinct component
nodes not on the recursion stack `R` — the amount by which the recorded
cycle count can still grow past the 100 cap: once the cap is reached no new
recursive descent happens, and each frame still alive (a distinct component
node on the stack) appends at most one cycle per remaining neighbor. -/
def capSlack (g : GraphData) (comp : List String) (R : List String) : Nat :=
  ((comp.dedup.filter (· ∉ R)).map (adjWOf g comp)).sum

theorem sum_filter_remove (f : String → Nat) (node : String) :
    ∀ (L : List String) (R : List String), L.Nodup → node ∈ L → node ∉ R →
    (((L.filter (fun v => v ∉ (R ++ [node]))).map f).sum + f node =
      ((L.filter (fun v => v ∉ R)).map f).sum) := by
  intro L
  induction L with
  | nil => intro R _ h _; exact absurd h (List.not_mem_nil node)
  | cons a t ih =>
    intro R hnd hmem hnR
    rw [List.nodup_cons] at hnd
    by_cases ha : a = node
    · subst ha
      have h1 : (a :: t).filter (fun v => v ∉ (R ++ [a])) = t.filter (fun v => v ∉ (R ++ [a])) := by
        rw [List.filter_cons]
        have : ¬ (a ∉ (R ++ [a])) := fun h => h (List.mem_append_right _ (List.mem_singleton_self a))
        simp [this]
      have h2 : (a :: t).filter (fun v => v ∉ R) = a :: t.filter (fun v => v ∉ R) := by
        rw [List.filter_cons]
        simp [hnR]
      have h3 : t.filter (fun v => v ∉ (R ++ [a])) = t.filter (fun v => v ∉ R) := by
        apply List.filter_congr
        intro v hv
        have hva : v ≠ a := fun h => hnd.1 (h ▸ hv)
        simp only [decide_eq_decide]
        rw [List.mem_append, List.mem_singleton]
        tauto
      rw [h1, h3, h2, List.map_cons, List.sum_cons]
      omega
    · have hmem' : node ∈ t := by
        rcases List.mem_cons.mp hmem with h | h
        · exact absurd h.symm ha
        · exact h
      by_cases haR : a ∈ R
      · have h1 : (a :: t).filter (fun v => v ∉ (R ++ [node])) =
            t.filter (fun v => v ∉ (R ++ [node])) := by
          apply List.filter_cons_of_neg
          simp only [decide_eq_true_eq, Decidable.not_not]
          exact List.mem_append_left _ haR
        have h2 : (a :: t).filter (fun v => v ∉ R) = t.filter (fun v => v ∉ R) := by
          apply List.filter_cons_of_neg
          simp only [decide_eq_true_eq, Decidable.not_not]
          exact haR
        rw [h1, h2]
        exact ih R hnd.2 hmem' hnR
      · have hmemA : a ∉ (R ++ [node]) := by
          rw [List.mem_append, List.mem_singleton]
          rintro (h | h)
          exacts [haR h, ha h]
        have h1 : (a :: t).filter (fun v => v ∉ (R ++ [node])) =
            a :: t.filter (fun v => v ∉ (R ++ [node])) := by
          apply List.filter_cons_of_pos
          simpa using hmemA
        have h2 : (a :: t).filter (fun v => v ∉ R) = a :: t.filter (fun v => v ∉ R) := by
          apply List.filter_cons_of_pos
          simpa using haR
        rw [h1, h2, List.map_cons, List.sum_cons, List.map_cons, List.sum_cons]
        have := ih R hnd.2 hmem' hnR
        omega

theorem capSlack_split (g : GraphData) (comp : List String) (R : List String)
    (node : String) (hc : node ∈ comp) (hr : node ∉ R) :
    capSlack g comp (R ++ [node]) + adjWOf g comp node = capSlack g comp R := by
  unfold capSlack
  exact sum_filter_remove (adjWOf g comp) node comp.dedup R (List.nodup_dedup comp)
    (List.mem_dedup.mpr hc) hr

theorem cdfsNeighbors_sound (g : GraphData) (comp : List String) (startNode : String)
    (rec : String → CycState → CycState) (node : String)
    (hrec : ∀ nb s, CycInv g comp s → PathInv g comp startNode s →
      nb ∉ s.currentPath → nb ∈ comp →
      (s.currentPath = [] → nb = startNode) →
      (∀ last, s.currentPath.getLast? = some last → edgeEx g last nb) →
      CycInv g comp (rec nb s) ∧ (rec nb s).currentPath = s.currentPath ∧
        (rec nb s).recursionStack = s.recursionStack ∧
        (rec nb s).cycles.length ≤
          max s.cycles.length 100 + capSlack g comp s.recursionStack) :
    ∀ (nbs : List String) (s : CycState),
      (∀ nb ∈ nbs, compAdjRel g comp node nb) →
      CycInv g comp s → PathInv g comp startNode s →
      s.currentPath ≠ [] → s.currentPath.getLast? = some node →
      CycInv g comp (cdfsNeighbors startNode rec nbs s) ∧
        (cdfsNeighbors startNode rec nbs s).currentPath = s.currentPath ∧
        (cdfsNeighbors startNode rec nbs s).recursionStack = s.recursionStack ∧
        (cdfsNeighbors startNode rec nbs s).cycles.length ≤
          max s.cycles.length (100 + capSlack g comp s.recursionStack) + nbs.length := by
  intro nbs
  induction nbs with
  | nil =>
    intro s _ hcyc hpath _ _
    exact ⟨hcyc, rfl, rfl, Nat.le_trans (Nat.le_max_left _ _) (Nat.le_add_right _ _)⟩
  | cons nb rest ih =>
    intro s hnbs hcyc hpath hne hlast
    rw [cdfsNeighbors]
    have hadj : compAdjRel g comp node nb := hnbs nb (List.mem_cons_self _ _)
    have hrest : ∀ x ∈ rest, compAdjRel g comp node x :=
      fun x hx => hnbs x (List.mem_cons_of_mem _ hx)
    obtain ⟨hadj1, hadj2, hadj3⟩ := (compAdjRel_iff g comp node nb).mp hadj
    by_cases hclose : nb = startNode ∧ s.currentPath.length > 1
    · rw [if_pos hclose]
      set s1 : CycState :=
        { s with cycles := s.cycles ++ [{ nodes := s.currentPath, length := s.currentPath.length }] }
        with hs1
      have hcyc1 : CycInv g comp s1 := by
        intro c hc
        rcases List.mem_append.mp hc with hc | hc
        · exact hcyc c hc
        · rw [List.mem_singleton] at hc
          subst hc
          obtain ⟨hstk, hnod, hmem, hchain, hhead⟩ := hpath
          refine ⟨hne, hnod, hmem, hchain, ?_, rfl⟩
          intro a b ha hb
          have ha2 : a = startNode := by
            have := hhead hne
            rw [this] at ha
            exact (Option.some_injective _ ha).symm
          have hb2 : b = node := by
            rw [hlast] at hb
            exact (Option.some_injective _ hb).symm
          subst ha2
          subst hb2
          exact hclose.1 ▸ hadj3
      obtain ⟨ha, hb, hc, hd⟩ := ih s1 hrest hcyc1 hpath hne hlast
      refine ⟨ha, hb, hc, ?_⟩
      have hlen1 : s1.cycles.length = s.cycles.length + 1 := by
        show (s.cycles ++ [_]).length = s.cycles.length + 1
        rw [List.length_append, List.length_singleton]
      have hK : capSlack g comp s1.recursionStack = capSlack g comp s.recursionStack := rfl
      rw [hlen1, hK] at hd
      have hmax : max (s.cycles.length + 1) (100 + capSlack g comp s.recursionStack) ≤
          max s.cycles.length (100 + capSlack g comp s.recursionStack) + 1 := by
        apply Nat.max_le.mpr
        constructor
        · exact Nat.succ_le_succ (Nat.le_max_left _ _)
        · exact Nat.le_trans (Nat.le_max_right _ _) (Nat.le_add_right _ _)
      calc (cdfsNeighbors startNode rec rest s1).cycles.length
          ≤ max (s.cycles.length + 1) (100 + capSlack g comp s.recursionStack) +
            rest.length := hd
        _ ≤ (max s.cycles.length (100 + capSlack g comp s.recursionStack) + 1) +
            rest.length := Nat.add_le_add_right hmax _
        _ = max s.cycles.length (100 + capSlack g comp s.recursionStack) +
            (nb :: rest).length := by rw [List.length_cons]; omega
    · rw [if_neg hclose]
      by_cases hdesc : nb ∉ s.recursionStack ∧ s.cycles.length < 100
      · rw [if_pos hdesc]
        have hnb_path : nb ∉ s.currentPath := by
          obtain ⟨hstk, _⟩ := hpath
          rw [← hstk]
          exact hdesc.1
        have hnb_start : s.currentPath = [] → nb = startNode := fun h => absurd h hne
        have hnb_edge : ∀ last, s.currentPath.getLast? = some last → edgeEx g last nb := by
          intro last hl
          rw [hlast] at hl
          have : last = node := (Option.some_injective _ hl).symm
          exact this ▸ hadj3
        obtain ⟨hcyc2, hp2, hr2, hb2⟩ := hrec nb s hcyc hpath hnb_path hadj2 hnb_start hnb_edge
        have hpath2 : PathInv g comp startNode (rec nb s) := by
          obtain ⟨hstk, hnod, hmem, hchain, hhead⟩ := hpath
          rw [PathInv, hp2, hr2]
          exact ⟨hstk, hnod, hmem, hchain, hhead⟩
        obtain ⟨ha, hb, hc, hd⟩ := ih (rec nb s) hrest hcyc2 hpath2 (hp2 ▸ hne) (hp2 ▸ hlast)
        rw [hp2] at hb
        rw [hr2] at hc hd
        refine ⟨ha, hb, hc, ?_⟩
        have hb2' : (rec nb s).cycles.length ≤ 100 + capSlack g comp s.recursionStack := by
          have : max s.cycles.length 100 = 100 :=
            Nat.max_eq_right (Nat.le_of_lt hdesc.2)
          rw [this] at hb2
          omega
        have hmax2 : max (rec nb s).cycles.length (100 + capSlack g comp s.recursionStack) =
            100 + capSlack g comp s.recursionStack :=
          Nat.max_eq_right hb2'
        rw [hmax2] at hd
        calc (cdfsNeighbors startNode rec rest (rec nb s)).cycles.length
            ≤ 100 + capSlack g comp s.recursionStack + rest.length := hd
          _ ≤ max s.cycles.length (100 + capSlack g comp s.recursionStack) +
              (nb :: rest).length := by
                have := Nat.le_max_right s.cycles.length
                  (100 + capSlack g comp s.recursionStack)
                rw [List.length_cons]
                omega
      · rw [if_neg hdesc]
        obtain ⟨ha, hb, hc, hd⟩ := ih s hrest hcyc hpath hne hlast
        refine ⟨ha, hb, hc, ?_⟩
        rw [List.length_cons]
        omega

theorem cdfs_sound (g : GraphData) (comp : List String) (startNode : String) :
    ∀ (fuel : Nat) (node : String) (s : CycState),
      CycInv g comp s → PathInv g comp startNode s →
      node ∉ s.currentPath → node ∈ comp →
      (s.currentPath = [] → node = startNode) →
      (∀ last, s.currentPath.getLast? = some last → edgeEx g last node) →
      CycInv g comp (cdfs (componentAdjOf g comp) startNode fuel node s) ∧
        (cdfs (componentAdjOf g comp) startNode fuel node s).currentPath = s.currentPath ∧
        (cdfs (componentAdjOf g comp) startNode fuel node s).recursionStack =
          s.recursionStack ∧
        (cdfs (componentAdjOf g comp) startNode fuel node s).cycles.length ≤
          max s.cycles.length 100 + capSlack g comp s.recursionStack := by
  intro fuel
  induction fuel with
  | zero =>
    intro node s hcyc hpath _ _ _ _
    exact ⟨hcyc, rfl, rfl, Nat.le_trans (Nat.le_max_left _ _) (Nat.le_add_right _ _)⟩
  | succ fuel ih =>
    intro node s hcyc hpath hnode hcomp hstart hedge
    obtain ⟨hstk, hnod, hmem, hchain, hhead⟩ := hpath
    rw [cdfs]
    have hnode_stk : node ∉ s.recursionStack := hstk ▸ hnode
    set s1 : CycState :=
      { s with
        currentPath := s.currentPath ++ [node],
        visited := setAdd s.visited node,
        recursionStack := setAdd s.recursionStack node }
      with hs1
    have hstk1 : s1.recursionStack = s1.currentPath := by
      show setAdd s.recursionStack node = s.currentPath ++ [node]
      rw [setAdd, if_neg hnode_stk, hstk]
    have hpath1 : PathInv g comp startNode s1 := by
      refine ⟨hstk1, ?_, ?_, ?_, ?_⟩
      · show (s.currentPath ++ [node]).Nodup
        rw [List.nodup_append]
        refine ⟨hnod, List.nodup_singleton _, ?_⟩
        intro x hx hy
        rw [List.mem_singleton] at hy
        exact hnode (hy ▸ hx)
      · show ∀ n ∈ s.currentPath ++ [node], n ∈ comp
        intro n hn
        rcases List.mem_append.mp hn with hn | hn
        · exact hmem n hn
        · rw [List.mem_singleton] at hn
          exact hn ▸ hcomp
      · show (s.currentPath ++ [node]).Chain' (edgeEx g)
        rw [List.chain'_append]
        refine ⟨hchain, List.chain'_singleton _, ?_⟩
        intro x hx y hy
        rw [List.head?_cons, Option.mem_some_iff] at hy
        exact hy ▸ hedge x hx
      · show s.currentPath ++ [node] ≠ [] → (s.currentPath ++ [node]).head? = some startNode
        intro _
        cases hp : s.currentPath with
        | nil =>
          rw [List.nil_append, List.head?_cons, hstart hp]
        | cons a t =>
          have h3 := hhead (by rw [hp]; simp)
          rw [hp, List.head?_cons] at h3
          rw [List.cons_append, List.head?_cons]
          exact h3
    have hne1 : s1.currentPath ≠ [] := by
      show s.currentPath ++ [node] ≠ []
      simp
    have hlast1 : s1.currentPath.getLast? = some node := by
      show (s.currentPath ++ [node]).getLast? = some node
      exact List.getLast?_concat _
    have hloop := cdfsNeighbors_sound g comp startNode
      (cdfs (componentAdjOf g comp) startNode fuel) node
      (fun nb s hc hp hn hcm hs he => ih nb s hc hp hn hcm hs he)
      ((mapGet (componentAdjOf g comp) node).getD []) s1
      (fun nb hnb => hnb) hcyc hpath1 hne1 hlast1
    obtain ⟨hcyc2, hp2, hr2, hbd2⟩ := hloop
    set s2 := cdfsNeighbors startNode (cdfs (componentAdjOf g comp) startNode fuel)
      ((mapGet (componentAdjOf g comp) node).getD []) s1 with hs2
    refine ⟨hcyc2, ?_, ?_, ?_⟩
    · show s2.currentPath.dropLast = s.currentPath
      rw [hp2]
      show (s.currentPath ++ [node]).dropLast = s.currentPath
      exact List.dropLast_concat
    · show setDelete s2.recursionStack node = s.recursionStack
      rw [hr2, hstk1]
      show (s.currentPath ++ [node]).filter (· ≠ node) = s.recursionStack
      rw [List.filter_append]
      have h1 : s.currentPath.filter (· ≠ node) = s.currentPath := by
        apply List.filter_eq_self.mpr
        intro a ha
        simp only [decide_eq_true_eq, ne_eq]
        intro h
        exact hnode (h ▸ ha)
      have h2 : ([node] : List String).filter (· ≠ node) = [] := by
        simp
      rw [h1, h2, List.append_nil, hstk]
    · show s2.cycles.length ≤ max s.cycles.length 100 + capSlack g comp s.recursionStack
      have hK1 : s1.recursionStack = s.currentPath ++ [node] := hstk1
      rw [hK1] at hbd2
      have hlen_nbs : ((mapGet (componentAdjOf g comp) node).getD []).length =
          adjWOf g comp node := rfl
      rw [hlen_nbs] at hbd2
      have hsplit := capSlack_split g comp s.currentPath node hcomp hnode
      have hmax : max s.cycles.length (100 + capSlack g comp (s.currentPath ++ [node])) ≤
          max s.cycles.length 100 + capSlack g comp (s.currentPath ++ [node]) := by
        apply Nat.max_le.mpr
        constructor
        · exact Nat.le_trans (Nat.le_max_left _ _) (Nat.le_add_right _ _)
        · exact Nat.add_le_add_right (Nat.le_max_right _ _) _
      rw [hstk]
      have hb1 : s1.cycles.length = s.cycles.length := rfl
      rw [hb1] at hbd2
      omega

theorem findElementaryCycles_fold_sound (g : GraphData) (comp : List String)
    (fuel : Nat) :
    ∀ (starts : List String) (s : CycState),
      (∀ x ∈ starts, x ∈ comp) → CycInv g comp s →
      CycInv g comp (starts.foldl
        (fun (s : CycState) startNode =>
          if s.cycles.length ≥ 100 then s
          else cdfs (componentAdjOf g comp) startNode fuel startNode
            { cycles := s.cycles, visited := [], recursionStack := [], currentPath := [] })
        s) := by
  intro starts
  induction starts with
  | nil => intro s _ hcyc; exact hcyc
  | cons startNode rest ih =>
    intro s hmem hcyc
    rw [List.foldl_cons]
    by_cases hcap : s.cycles.length ≥ 100
    · rw [if_pos hcap]
      exact ih s (fun x hx => hmem x (List.mem_cons_of_mem _ hx)) hcyc
    · rw [if_neg hcap]
      set s0 : CycState :=
        { cycles := s.cycles, visited := [], recursionStack := [], currentPath := [] }
        with hs0
      have hcyc0 : CycInv g comp s0 := hcyc
      have hpath0 : PathInv g comp startNode s0 :=
        ⟨rfl, List.nodup_nil, by intro n hn; exact absurd hn (List.not_mem_nil n),
          List.chain'_nil, fun h => absurd rfl h⟩
      have hres := cdfs_sound g comp startNode fuel startNode s0 hcyc0 hpath0
        (List.not_mem_nil _) (hmem startNode (List.mem_cons_self _ _))
        (fun _ => rfl) (by intro last hl; simp at hl)
      exact ih _ (fun x hx => hmem x (List.mem_cons_of_mem _ hx)) hres.1

/-- C3: every element of the list returned by `findElementaryCycles` is a
valid elementary cycle of the input graph restricted to `componentNodes`:
its `nodes` field is a nonempty list of pairwise-distinct ids all belonging
to `componentNodes`, an edge of `GraphData.edges` joins each node in the
sequence to the next and the last node back to the first, and its `length`
field equals the number of entries of `nodes`. -/
theorem C3_cycles_valid (g : GraphData) (componentNodes : List String) :
    ∀ c ∈ findElementaryCycles g componentNodes,
      c.nodes ≠ [] ∧ c.nodes.Nodup ∧ (∀ n ∈ c.nodes, n ∈ componentNodes) ∧
      c.nodes.Chain' (edgeEx g) ∧
      (∀ a b, c.nodes.head? = some a → c.nodes.getLast? = some b → edgeEx g b a) ∧
      c.length = c.nodes.length := by
  intro c hc
  unfold findElementaryCycles at hc
  have hc2 := (sortByLen_perm _).subset hc
  have hc3 := mem_removeDuplicateCycles _ c hc2
  have hinv := findElementaryCycles_fold_sound g componentNodes
    (componentNodes.length + 1) componentNodes
    { cycles := [], visited := [], recursionStack := [], currentPath := [] }
    (fun x hx => hx) (fun c hc => absurd hc (List.not_mem_nil c))
  exact hinv c hc3

/-- Witness for C3 at a concrete input: on the two-node cycle graph the
enumeration returns the cycle `a, b`, and the validity conclusions hold for
it. -/
theorem C3_cycles_valid_witness :
    ({ nodes := ["a", "b"], length := 2 } : Cycle) ∈
      findElementaryCycles twoCycleGraph ["a", "b"] ∧
    (({ nodes := ["a", "b"], length := 2 } : Cycle).nodes ≠ [] ∧
      ({ nodes := ["a", "b"], length := 2 } : Cycle).nodes.Nodup ∧
      (∀ n ∈ ({ nodes := ["a", "b"], length := 2 } : Cycle).nodes, n ∈ ["a", "b"]) ∧
      ({ nodes := ["a", "b"], length := 2 } : Cycle).nodes.Chain' (edgeEx twoCycleGraph) ∧
      (∀ a b, ({ nodes := ["a", "b"], length := 2 } : Cycle).nodes.head? = some a →
        ({ nodes := ["a", "b"], length := 2 } : Cycle).nodes.getLast? = some b →
        edgeEx twoCycleGraph b a) ∧
      ({ nodes := ["a", "b"], length := 2 } : Cycle).length =
        ({ nodes := ["a", "b"], length := 2 } : Cycle).nodes.length) :=
  ⟨by decide, C3_cycles_valid twoCycleGraph ["a", "b"]
    { nodes := ["a", "b"], length := 2 } (by decide)⟩

/-! ### The 100-cycle cap (claim C5) -/

theorem findElementaryCycles_fold_bound (g : GraphData) (comp : List String)
    (fuel : Nat) :
    ∀ (starts : List String) (s : CycState),
      (∀ x ∈ starts, x ∈ comp) → CycInv g comp s →
      s.cycles.length ≤ 100 + capSlack g comp [] →
      (starts.foldl
        (fun (s : CycState) startNode =>
          if s.cycles.length ≥ 100 then s
          else cdfs (componentAdjOf g comp) startNode fuel startNode
            { cycles := s.cycles, visited := [], recursionStack := [], currentPath := [] })
        s).cycles.length ≤ 100 + capSlack g comp [] := by
  intro starts
  induction starts with
  | nil => intro s _ _ hb; exact hb
  | cons startNode rest ih =>
    intro s hmem hcyc hb
    rw [List.foldl_cons]
    by_cases hcap : s.cycles.length ≥ 100
    · rw [if_pos hcap]
      exact ih s (fun x hx => hmem x (List.mem_cons_of_mem _ hx)) hcyc hb
    · rw [if_neg hcap]
      set s0 : CycState :=
        { cycles := s.cycles, visited := [], recursionStack := [], currentPath := [] }
        with hs0
      have hcyc0 : CycInv g comp s0 := hcyc
      have hpath0 : PathInv g comp startNode s0 :=
        ⟨rfl, List.nodup_nil, by intro n hn; exact absurd hn (List.not_mem_nil n),
          List.chain'_nil, fun h => absurd rfl h⟩
      have hres := cdfs_sound g comp startNode fuel startNode s0 hcyc0 hpath0
        (List.not_mem_nil _) (hmem startNode (List.mem_cons_self _ _))
        (fun _ => rfl) (by intro last hl; simp at hl)
      refine ih _ (fun x hx => hmem x (List.mem_cons_of_mem _ hx)) hres.1 ?_
      have hbd := hres.2.2.2
      have hmax : max s0.cycles.length 100 = 100 :=
        Nat.max_eq_right (Nat.le_of_lt (Nat.lt_of_not_le hcap))
      rw [hmax] at hbd
      exact hbd

/-- Total number of adjacency entries of an association map. -/
def totalAdjSize (m : List (String × List String)) : Nat :=
  (m.map (fun p => p.2.length)).sum

theorem totalAdjSize_mapSet_push (m : List (String × List String)) (k t : String) :
    totalAdjSize (mapSet m k (((mapGet m k).getD []) ++ [t])) = totalAdjSize m + 1 := by
  induction m with
  | nil => simp [mapSet, mapGet, totalAdjSize]
  | cons a rest ih =>
    obtain ⟨ka, va⟩ := a
    by_cases hak : ka = k
    · subst hak
      show totalAdjSize (mapSet ((ka, va) :: rest) ka _) = _
      rw [mapSet, if_pos rfl]
      show (((mapGet ((ka, va) :: rest) ka).getD [] ++ [t]).length + _) = _
      rw [mapGet, if_pos rfl]
      show (va ++ [t]).length + (rest.map (fun p => p.2.length)).sum = _
      rw [List.length_append, List.length_singleton]
      show _ = va.length + (rest.map (fun p => p.2.length)).sum + 1
      omega
    · show totalAdjSize (mapSet ((ka, va) :: rest) k _) = _
      rw [mapSet, if_neg hak]
      have hget : mapGet ((ka, va) :: rest) k = mapGet rest k := by
        rw [mapGet, if_neg hak]
      rw [hget]
      show va.length + totalAdjSize (mapSet rest k (((mapGet rest k).getD []) ++ [t])) = _
      rw [ih]
      show _ = va.length + totalAdjSize rest + 1
      omega

theorem totalAdjSize_edges_fold (edges : List Edge) :
    ∀ m : List (String × List String),
    totalAdjSize (edges.foldl
      (fun m e => mapSet m e.source (((mapGet m e.source).getD []) ++ [e.target])) m) =
    totalAdjSize m + edges.length := by
  induction edges with
  | nil => intro m; rw [List.foldl_nil, List.length_nil]; omega
  | cons e rest ih =>
    intro m
    rw [List.foldl_cons, ih, totalAdjSize_mapSet_push, List.length_cons]
    omega

theorem mem_mapSet {α : Type} (m : List (String × α)) (k : String) (v : α)
    (p : String × α) (hp : p ∈ mapSet m k v) : p = (k, v) ∨ p ∈ m := by
  induction m with
  | nil =>
    rw [mapSet] at hp
    rw [List.mem_singleton] at hp
    exact Or.inl hp
  | cons a rest ih =>
    obtain ⟨ka, va⟩ := a
    rw [mapSet] at hp
    by_cases hak : ka = k
    · rw [if_pos hak] at hp
      rcases List.mem_cons.mp hp with hp | hp
      · exact Or.inl hp
      · exact Or.inr (List.mem_cons_of_mem _ hp)
    · rw [if_neg hak] at hp
      rcases List.mem_cons.mp hp with hp | hp
      · exact Or.inr (hp ▸ List.mem_cons_self _ _)
      · rcases ih hp with h | h
        · exact Or.inl h
        · exact Or.inr (List.mem_cons_of_mem _ h)

theorem initFold_values_nil (nodes : List Node) :
    ∀ m : List (String × List String), (∀ p ∈ m, p.2 = ([] : List String)) →
    ∀ p ∈ nodes.foldl (fun m n => mapSet m n.id ([] : List String)) m, p.2 = [] := by
  induction nodes with
  | nil => intro m hm; exact hm
  | cons n rest ih =>
    intro m hm
    apply ih
    intro p hp
    rcases mem_mapSet m n.id [] p hp with h | h
    · rw [h]
    · exact hm p h

theorem totalAdjSize_buildAdjacencyList (g : GraphData) :
    totalAdjSize (buildAdjacencyList g) = g.edges.length := by
  unfold buildAdjacencyList
  rw [totalAdjSize_edges_fold]
  have hvals := initFold_values_nil g.nodes [] (by intro p hp; exact absurd hp (List.not_mem_nil p))
  have hinit : totalAdjSize (g.nodes.foldl (fun m n => mapSet m n.id ([] : List String)) []) = 0 := by
    unfold totalAdjSize
    apply List.sum_eq_zero
    intro x hx
    obtain ⟨p, hp, hpx⟩ := List.mem_map.mp hx
    rw [← hpx, hvals p hp, List.length_nil]
  omega

theorem keys_nodup_initFold (nodes : List Node) :
    ∀ m : List (String × List String), (m.map Prod.fst).Nodup →
    ((nodes.foldl (fun m n => mapSet m n.id ([] : List String)) m).map Prod.fst).Nodup := by
  induction nodes with
  | nil => intro m hm; exact hm
  | cons n rest ih =>
    intro m hm
    exact ih _ (keys_nodup_mapSet _ _ _ hm)

theorem keys_nodup_buildAdjacencyList (g : GraphData) :
    ((buildAdjacencyList g).map Prod.fst).Nodup := by
  unfold buildAdjacencyList
  have h0 : (([] : List (String × List String)).map Prod.fst).Nodup := List.nodup_nil
  have h1 := keys_nodup_initFold g.nodes [] h0
  generalize hinit : (g.nodes.foldl (fun m n => mapSet m n.id ([] : List String)) []) = m0 at h1 ⊢
  clear hinit
  induction g.edges generalizing m0 with
  | nil => exact h1
  | cons e rest ih =>
    rw [List.foldl_cons]
    exact ih _ (keys_nodup_mapSet _ _ _ h1)

theorem sum_adjW_le_total (m : List (String × List String)) :
    ∀ L : List String, L.Nodup → (m.map Prod.fst).Nodup →
    ((L.map (fun v => ((mapGet m v).getD []).length)).sum ≤ totalAdjSize m) := by
  induction m with
  | nil =>
    intro L _ _
    have : ∀ x ∈ L.map (fun v => ((mapGet ([] : List (String × List String)) v).getD []).length),
        x = 0 := by
      intro x hx
      obtain ⟨v, _, hvx⟩ := List.mem_map.mp hx
      rw [← hvx]
      rfl
    rw [List.sum_eq_zero this]
    exact Nat.zero_le _
  | cons a rest ih =>
    obtain ⟨ka, va⟩ := a
    intro L hL hkeys
    rw [List.map_cons, List.nodup_cons] at hkeys
    have hsum : (L.map (fun v => ((mapGet ((ka, va) :: rest) v).getD []).length)).sum ≤
        (if ka ∈ L then va.length else 0) +
          (L.map (fun v => ((mapGet rest v).getD []).length)).sum := by
      induction L with
      | nil => simp
      | cons x t ihL =>
        rw [List.nodup_cons] at hL
        have ihL' := ihL hL.2
        rw [List.map_cons, List.sum_cons, List.map_cons, List.sum_cons]
        by_cases hx : ka = x
        · subst hx
          rw [if_pos (List.mem_cons_self _ _)]
          have hget : mapGet ((ka, va) :: rest) ka = some va := by
            rw [mapGet, if_pos rfl]
          rw [hget]
          have hka_t : ka ∉ t := hL.1
          have hifeq : (if ka ∈ t then va.length else 0) = 0 := if_neg hka_t
          rw [hifeq] at ihL'
          simp only [Option.getD_some]
          omega
        · have hget : mapGet ((ka, va) :: rest) x = mapGet rest x := by
            rw [mapGet, if_neg hx]
          rw [hget]
          by_cases hmem : ka ∈ t
          · rw [if_pos hmem] at ihL'
            rw [if_pos (List.mem_cons_of_mem _ hmem)]
            omega
          · rw [if_neg hmem] at ihL'
            have : ka ∉ x :: t := by
              intro h
              rcases List.mem_cons.mp h with h | h
              exacts [hx h, hmem h]
            rw [if_neg this]
            omega
    have hrest := ih L hL hkeys.2
    have htotal : totalAdjSize ((ka, va) :: rest) = va.length + totalAdjSize rest := rfl
    rw [htotal]
    by_cases hka : ka ∈ L
    · rw [if_pos hka] at hsum
      omega
    · rw [if_neg hka] at hsum
      omega

theorem capSlack_nil_le_edges (g : GraphData) (comp : List String) :
    capSlack g comp [] ≤ g.edges.length := by
  unfold capSlack
  have h1 : ∀ v, adjWOf g comp v ≤ ((mapGet (buildAdjacencyList g) v).getD []).length := by
    intro v
    unfold adjWOf
    rw [componentAdjOf_get]
    by_cases hv : v ∈ comp
    · rw [if_pos hv]
      exact List.length_filter_le _ _
    · rw [if_neg hv]
      exact Nat.zero_le _
  have hfilter : (comp.dedup.filter (· ∉ ([] : List String))) = comp.dedup := by
    apply List.filter_eq_self.mpr
    intro a _
    simp
  rw [hfilter]
  have h2 : ((comp.dedup.map (adjWOf g comp)).sum ≤
      (comp.dedup.map (fun v => ((mapGet (buildAdjacencyList g) v).getD []).length)).sum) := by
    apply List.sum_le_sum
    intro v _
    exact h1 v
  have h3 := sum_adjW_le_total (buildAdjacencyList g) comp.dedup
    (List.nodup_dedup comp) (keys_nodup_buildAdjacencyList g)
  rw [totalAdjSize_buildAdjacencyList] at h3
  omega

theorem removeDuplicateCycles_length_le (cycles : List Cycle) :
    (removeDuplicateCycles cycles).length ≤ cycles.length := by
  have hzeta : removeDuplicateCycles cycles =
      (cycles.foldl
        (fun (acc : List String × List Cycle) cycle =>
          if normalizeCycle cycle.nodes ∈ acc.1 then acc
          else (acc.1 ++ [normalizeCycle cycle.nodes], acc.2 ++ [cycle]))
        ([], [])).2 := rfl
  rw [hzeta]
  clear hzeta
  suffices h : ∀ acc : List String × List Cycle,
      ((cycles.foldl
        (fun (acc : List String × List Cycle) cycle =>
          if normalizeCycle cycle.nodes ∈ acc.1 then acc
          else (acc.1 ++ [normalizeCycle cycle.nodes], acc.2 ++ [cycle]))
        acc).2).length ≤ acc.2.length + cycles.length by
    have := h ([], [])
    simpa using this
  induction cycles with
  | nil => intro acc; simp
  | cons c rest ih =>
    intro acc
    rw [List.foldl_cons]
    by_cases hc : normalizeCycle c.nodes ∈ acc.1
    · rw [if_pos hc]
      have := ih acc
      rw [List.length_cons]
      omega
    · rw [if_neg hc]
      have := ih (acc.1 ++ [normalizeCycle c.nodes], acc.2 ++ [c])
      rw [List.length_cons]
      simp only [List.length_append, List.length_singleton] at this
      omega

/-- C5, amended: once 100 cycles have been recorded the search stops
descending into new recursive calls, but closing edges examined on the
still-active path are appended past the cap, so the returned list is not
bounded by 100; it is bounded by `100 + E` where `E` is the number of edges
of the graph (each remaining frame holds a distinct component node and can
append at most one cycle per adjacency entry of that node). -/
theorem C5_amended (g : GraphData) (componentNodes : List String) :
    (findElementaryCycles g componentNodes).length ≤ 100 + g.edges.length := by
  unfold findElementaryCycles
  have hperm := sortByLen_perm (removeDuplicateCycles
    (componentNodes.foldl
      (fun (s : CycState) startNode =>
        if s.cycles.length ≥ 100 then s
        else cdfs (componentAdjOf g componentNodes) startNode (componentNodes.length + 1) startNode
          { cycles := s.cycles, visited := [], recursionStack := [], currentPath := [] })
      { cycles := [], visited := [], recursionStack := [], currentPath := [] }).cycles)
  rw [hperm.length_eq]
  have h1 := removeDuplicateCycles_length_le
    ((componentNodes.foldl
      (fun (s : CycState) startNode =>
        if s.cycles.length ≥ 100 then s
        else cdfs (componentAdjOf g componentNodes) startNode (componentNodes.length + 1) startNode
          { cycles := s.cycles, visited := [], recursionStack := [], currentPath := [] })
      { cycles := [], visited := [], recursionStack := [], currentPath := [] }).cycles)
  have h2 := findElementaryCycles_fold_bound g componentNodes (componentNodes.length + 1)
    componentNodes
    { cycles := [], visited := [], recursionStack := [], currentPath := [] }
    (fun x hx => hx) (fun c hc => absurd hc (List.not_mem_nil c))
    (by simp)
  have h3 := capSlack_nil_le_edges g componentNodes
  omega

/-- Ninety-nine petal node ids `p0 … p98`. -/
def petalIds : List String :=
  (List.range 99).map (fun i => "p" ++ toString i)

/-- Star of 99 two-node cycles `x ⇄ pi` together with a three-node cycle
`x → y1 → y2 → x` and the chord `y1 → x`.  The edge order makes the search
from `x` record the 99 petal cycles, then descend to `y1` (99 < 100), then
to `y2` where closing `x` brings the count to 100, and then — with descent
now disabled but the frame at `y1` still active — append the 101st cycle
`x → y1` while unwinding. -/
def capOverflowGraph : GraphData :=
  { nodes := (["x", "y1", "y2"] ++ petalIds).map mkNode,
    edges := (petalIds.map (fun p => mkEdge ("xe" ++ p) "x" p))
      ++ [mkEdge "e1" "x" "y1", mkEdge "e2" "y1" "y2",
          mkEdge "e3" "y1" "x", mkEdge "e4" "y2" "x"]
      ++ (petalIds.map (fun p => mkEdge ("pe" ++ p) p "x")) }

/-- Component queried in the cap-overflow counterexample. -/
def capOverflowComponent : List String :=
  ["x", "y1", "y2"] ++ petalIds

set_option maxRecDepth 100000 in
/-- C5, counterexample to the claim as stated: the closing-edge branch of
`dfs` (source line 339) appends a cycle without consulting the cap, so on
`capOverflowGraph` the returned list has 101 entries — more than 100. -/
theorem C5_counterexample :
    ¬ ((findElementaryCycles capOverflowGraph capOverflowComponent).length ≤ 100) := by
  decide

/-! ### Tiny-cycle detection (claims C2 and C10) -/

/-- The unordered pair `(a, b)` is recorded in the list, in either
orientation. -/
def pairIn (l : List TinyCycle) (a b : String) : Prop :=
  ∃ p ∈ l, (p.node1 = a ∧ p.node2 = b) ∨ (p.node1 = b ∧ p.node2 = a)

/-- Reciprocal component-restricted edges between `a` and `b`. -/
def Recip (g : GraphData) (comp : List String) (a b : String) : Prop :=
  compAdjRel g comp a b ∧ compAdjRel g comp b a

theorem pairIn_symm {l : List TinyCycle} {a b : String} (h : pairIn l a b) :
    pairIn l b a := by
  obtain ⟨p, hp, hor⟩ := h
  exact ⟨p, hp, hor.symm⟩

theorem pairIn_mono {l l' : List TinyCycle} {a b : String} (h : pairIn l a b)
    (hsub : ∀ p ∈ l, p ∈ l') : pairIn l' a b := by
  obtain ⟨p, hp, hor⟩ := h
  exact ⟨p, hsub p hp, hor⟩

theorem tinyRecord_subset (l : List TinyCycle) (a b : String) :
    ∀ p ∈ l, p ∈ tinyRecord l a b := by
  intro p hp
  unfold tinyRecord
  by_cases h : l.any (fun cd =>
      (cd.node1 == a && cd.node2 == b) || (cd.node1 == b && cd.node2 == a))
  · rw [if_pos h]; exact hp
  · rw [if_neg h]; exact List.mem_append_left _ hp

theorem pairIn_tinyRecord (l : List TinyCycle) (a b : String) :
    pairIn (tinyRecord l a b) a b := by
  unfold tinyRecord
  by_cases h : l.any (fun cd =>
      (cd.node1 == a && cd.node2 == b) || (cd.node1 == b && cd.node2 == a))
  · rw [if_pos h]
    obtain ⟨cd, hcd, hcond⟩ := List.any_eq_true.mp h
    refine ⟨cd, hcd, ?_⟩
    rcases Bool.or_eq_true_iff.mp hcond with hc | hc
    · obtain ⟨h1, h2⟩ := Bool.and_eq_true_iff.mp hc
      exact Or.inl ⟨eq_of_beq h1, eq_of_beq h2⟩
    · obtain ⟨h1, h2⟩ := Bool.and_eq_true_iff.mp hc
      exact Or.inr ⟨eq_of_beq h1, eq_of_beq h2⟩
  · rw [if_neg h]
    exact ⟨⟨a, b⟩, List.mem_append_right _ (List.mem_singleton_self _), Or.inl ⟨rfl, rfl⟩⟩

theorem tinyRecord_sound (g : GraphData) (comp : List String) (l : List TinyCycle)
    (a b : String) (hl : ∀ p ∈ l, Recip g comp p.node1 p.node2)
    (hab : Recip g comp a b) :
    ∀ p ∈ tinyRecord l a b, Recip g comp p.node1 p.node2 := by
  intro p hp
  unfold tinyRecord at hp
  by_cases h : l.any (fun cd =>
      (cd.node1 == a && cd.node2 == b) || (cd.node1 == b && cd.node2 == a))
  · rw [if_pos h] at hp; exact hl p hp
  · rw [if_neg h] at hp
    rcases List.mem_append.mp hp with hp | hp
    · exact hl p hp
    · rw [List.mem_singleton] at hp
      rw [hp]
      exact hab

/-- Number of still-unvisited distinct component nodes: the fuel measure of
`dfsVisit`. -/
def NVcount (comp : List String) (ts : TinyState) : Nat :=
  comp.dedup.countP (fun k => mapGet ts.status k = some VisitStatus.NOT_VISITED)

theorem NVcount_mono (comp : List String) (ts ts' : TinyState)
    (h : ∀ k, mapGet ts'.status k = some VisitStatus.NOT_VISITED →
      mapGet ts.status k = some VisitStatus.NOT_VISITED) :
    NVcount comp ts' ≤ NVcount comp ts := by
  unfold NVcount
  apply List.countP_mono_left
  intro k _
  simp only [decide_eq_true_eq]
  exact h k

theorem countP_strict_decrease (u : String) (p q : String → Bool)
    (hpu : p u = true) (hqu : q u = false)
    (hagree : ∀ x, x ≠ u → q x = p x) :
    ∀ L : List String, L.Nodup → u ∈ L → L.countP q < L.countP p := by
  intro L
  induction L with
  | nil => intro _ h; exact absurd h (List.not_mem_nil u)
  | cons a t ih =>
    intro hnd hmem
    rw [List.nodup_cons] at hnd
    rw [List.countP_cons, List.countP_cons]
    by_cases hau : a = u
    · subst hau
      rw [hpu, hqu]
      have hagree_t : t.countP q = t.countP p := by
        apply List.countP_congr
        intro x hx
        have : x ≠ a := fun h => hnd.1 (h ▸ hx)
        rw [hagree x this]
      rw [hagree_t]
      simp
    · have hmem' : u ∈ t := by
        rcases List.mem_cons.mp hmem with h | h
        · exact absurd h.symm hau
        · exact h
      have := ih hnd.2 hmem'
      rw [hagree a hau]
      omega

theorem NVcount_set_gray (comp : List String) (ts : TinyState) (u : String)
    (hu : u ∈ comp) (hnv : mapGet ts.status u = some VisitStatus.NOT_VISITED) :
    NVcount comp
      { ts with status := mapSet ts.status u VisitStatus.CURRENTLY_VISITING } <
      NVcount comp ts := by
  unfold NVcount
  apply countP_strict_decrease u
  · simp [hnv]
  · simp [mapGet_mapSet_self]
  · intro x hx
    have : u ≠ x := fun h => hx h.symm
    simp only [decide_eq_decide]
    rw [show mapGet (mapSet ts.status u VisitStatus.CURRENTLY_VISITING) x =
      mapGet ts.status x from mapGet_mapSet_ne _ _ this]
  · exact List.nodup_dedup comp
  · exact List.mem_dedup.mpr hu

/-- Global invariant of the tiny-cycle traversal: the status map is keyed by
exactly the component members; every recorded pair is a reciprocal
component-restricted dependency; every reciprocal pair whose first member is
black and whose second member is gray or black has been recorded; and a
black node has no unvisited neighbor. -/
def TInv (g : GraphData) (comp : List String) (ts : TinyState) : Prop :=
  (∀ k, (mapGet ts.status k).isSome ↔ k ∈ comp) ∧
  (∀ p ∈ ts.tinyCDs, Recip g comp p.node1 p.node2) ∧
  (∀ a b, mapGet ts.status a = some VisitStatus.VISITED →
    (mapGet ts.status b = some VisitStatus.CURRENTLY_VISITING ∨
      mapGet ts.status b = some VisitStatus.VISITED) →
    Recip g comp a b → pairIn ts.tinyCDs a b) ∧
  (∀ a, mapGet ts.status a = some VisitStatus.VISITED →
    ∀ v, compAdjRel g comp a v →
      mapGet ts.status v ≠ some VisitStatus.NOT_VISITED)

/-- Specification of one `dfsVisit` call, used as the induction hypothesis
for the neighbor loop: it reestablishes the invariant, blackens its
argument, preserves the gray set exactly, never un-blackens a node, never
re-whitens a node, and never discards a recorded pair. -/
def TinyVisitSpec (g : GraphData) (comp : List String)
    (rec : String → TinyState → TinyState) (B : Nat) : Prop :=
  ∀ nb ts, TInv g comp ts → nb ∈ comp →
    mapGet ts.status nb = some VisitStatus.NOT_VISITED →
    NVcount comp ts < B →
    TInv g comp (rec nb ts) ∧
    mapGet (rec nb ts).status nb = some VisitStatus.VISITED ∧
    (∀ k, mapGet ts.status k = some VisitStatus.CURRENTLY_VISITING ↔
      mapGet (rec nb ts).status k = some VisitStatus.CURRENTLY_VISITING) ∧
    (∀ k, mapGet ts.status k = some VisitStatus.VISITED →
      mapGet (rec nb ts).status k = some VisitStatus.VISITED) ∧
    (∀ k, mapGet (rec nb ts).status k = some VisitStatus.NOT_VISITED →
      mapGet ts.status k = some VisitStatus.NOT_VISITED) ∧
    (∀ p ∈ ts.tinyCDs, p ∈ (rec nb ts).tinyCDs)

theorem tinyNeighbors_spec (g : GraphData) (comp : List String)
    (rec : String → TinyState → TinyState) (u : String) (B : Nat)
    (hrec : TinyVisitSpec g comp rec B) :
    ∀ (nbs : List String) (ts : TinyState),
      (∀ b ∈ nbs, compAdjRel g comp u b) →
      TInv g comp ts →
      mapGet ts.status u = some VisitStatus.CURRENTLY_VISITING →
      NVcount comp ts < B →
      TInv g comp (tinyNeighbors (componentAdjOf g comp) rec u nbs ts) ∧
      (∀ k, mapGet ts.status k = some VisitStatus.CURRENTLY_VISITING ↔
        mapGet (tinyNeighbors (componentAdjOf g comp) rec u nbs ts).status k =
          some VisitStatus.CURRENTLY_VISITING) ∧
      (∀ k, mapGet ts.status k = some VisitStatus.VISITED →
        mapGet (tinyNeighbors (componentAdjOf g comp) rec u nbs ts).status k =
          some VisitStatus.VISITED) ∧
      (∀ k, mapGet (tinyNeighbors (componentAdjOf g comp) rec u nbs ts).status k =
          some VisitStatus.NOT_VISITED →
        mapGet ts.status k = some VisitStatus.NOT_VISITED) ∧
      (∀ p ∈ ts.tinyCDs, p ∈ (tinyNeighbors (componentAdjOf g comp) rec u nbs ts).tinyCDs) ∧
      (∀ b ∈ nbs,
        mapGet (tinyNeighbors (componentAdjOf g comp) rec u nbs ts).status b ≠
          some VisitStatus.NOT_VISITED ∧
        (compAdjRel g comp b u →
          pairIn (tinyNeighbors (componentAdjOf g comp) rec u nbs ts).tinyCDs u b)) := by
  intro nbs
  induction nbs with
  | nil =>
    intro ts _ hinv hgray _
    refine ⟨hinv, fun k => Iff.rfl, fun k h => h, fun k h => h, fun p hp => hp, ?_⟩
    intro b hb
    exact absurd hb (List.not_mem_nil b)
  | cons b rest ih =>
    intro ts hnbs hinv hgray hB
    have hadj_ub : compAdjRel g comp u b := hnbs b (List.mem_cons_self _ _)
    have hrest : ∀ x ∈ rest, compAdjRel g comp u x :=
      fun x hx => hnbs x (List.mem_cons_of_mem _ hx)
    have hb_comp : b ∈ comp := ((compAdjRel_iff g comp u b).mp hadj_ub).2.1
    by_cases hnv : mapGet ts.status b = some VisitStatus.NOT_VISITED
    · have hstep : tinyNeighbors (componentAdjOf g comp) rec u (b :: rest) ts =
          tinyNeighbors (componentAdjOf g comp) rec u rest (rec b ts) := by
        rw [tinyNeighbors, if_pos hnv]
      rw [hstep]
      obtain ⟨hinv2, hbvis2, hgiff2, hvmono2, hnvanti2, hpmono2⟩ :=
        hrec b ts hinv hb_comp hnv hB
      have hgray2 : mapGet (rec b ts).status u = some VisitStatus.CURRENTLY_VISITING :=
        (hgiff2 u).mp hgray
      have hB2 : NVcount comp (rec b ts) < B :=
        Nat.lt_of_le_of_lt (NVcount_mono comp ts (rec b ts) hnvanti2) hB
      obtain ⟨hinv3, hgiff3, hvmono3, hnvanti3, hpmono3, hnbs3⟩ :=
        ih (rec b ts) hrest hinv2 hgray2 hB2
      refine ⟨hinv3, ?_, ?_, ?_, ?_, ?_⟩
      · intro k
        exact (hgiff2 k).trans (hgiff3 k)
      · intro k h
        exact hvmono3 k (hvmono2 k h)
      · intro k h
        exact hnvanti2 k (hnvanti3 k h)
      · intro p hp
        exact hpmono3 p (hpmono2 p hp)
      · intro x hx
        rcases List.mem_cons.mp hx with hx | hx
        · subst hx
          constructor
          · intro hcontra
            have := hnvanti3 x hcontra
            rw [hbvis2] at this
            exact Option.noConfusion this (fun h => VisitStatus.noConfusion h)
          · intro hba
            obtain ⟨_, _, hinv1_2, _⟩ := hinv2
            have hpx : pairIn (rec x ts).tinyCDs x u :=
              hinv1_2 x u hbvis2 (Or.inl hgray2) ⟨hba, hadj_ub⟩
            exact pairIn_mono (pairIn_symm hpx) hpmono3
        · exact hnbs3 x hx
    · by_cases hg : mapGet ts.status b = some VisitStatus.CURRENTLY_VISITING
      · by_cases hrecip : u ∈ (mapGet (componentAdjOf g comp) b).getD []
        · have hstep : tinyNeighbors (componentAdjOf g comp) rec u (b :: rest) ts =
              tinyNeighbors (componentAdjOf g comp) rec u rest
                { ts with tinyCDs := tinyRecord ts.tinyCDs u b } := by
            rw [tinyNeighbors, if_neg hnv, if_pos hg, if_pos hrecip]
          rw [hstep]
          have hadj_bu : compAdjRel g comp b u := hrecip
          obtain ⟨hkeys, hsound, hinv1, hinv2x⟩ := hinv
          have hinvA : TInv g comp { ts with tinyCDs := tinyRecord ts.tinyCDs u b } := by
            refine ⟨hkeys, ?_, ?_, hinv2x⟩
            · exact tinyRecord_sound g comp ts.tinyCDs u b hsound ⟨hadj_ub, hadj_bu⟩
            · intro a c ha hc hr
              exact pairIn_mono (hinv1 a c ha hc hr) (tinyRecord_subset _ _ _)
          obtain ⟨hinv3, hgiff3, hvmono3, hnvanti3, hpmono3, hnbs3⟩ :=
            ih { ts with tinyCDs := tinyRecord ts.tinyCDs u b } hrest hinvA hgray hB
          refine ⟨hinv3, hgiff3, hvmono3, hnvanti3, ?_, ?_⟩
          · intro p hp
            exact hpmono3 p (tinyRecord_subset _ _ _ p hp)
          · intro x hx
            rcases List.mem_cons.mp hx with hx | hx
            · subst hx
              constructor
              · intro hcontra
                have := hnvanti3 x hcontra
                rw [hg] at this
                exact Option.noConfusion this (fun h => VisitStatus.noConfusion h)
              · intro _
                exact pairIn_mono (pairIn_tinyRecord ts.tinyCDs u x) hpmono3
            · exact hnbs3 x hx
        · have hstep : tinyNeighbors (componentAdjOf g comp) rec u (b :: rest) ts =
              tinyNeighbors (componentAdjOf g comp) rec u rest ts := by
            rw [tinyNeighbors, if_neg hnv, if_pos hg, if_neg hrecip]
          rw [hstep]
          obtain ⟨hinv3, hgiff3, hvmono3, hnvanti3, hpmono3, hnbs3⟩ :=
            ih ts hrest hinv hgray hB
          refine ⟨hinv3, hgiff3, hvmono3, hnvanti3, hpmono3, ?_⟩
          intro x hx
          rcases List.mem_cons.mp hx with hx | hx
          · subst hx
            constructor
            · intro hcontra
              have := hnvanti3 x hcontra
              rw [hg] at this
              exact Option.noConfusion this (fun h => VisitStatus.noConfusion h)
            · intro hba
              exact absurd hba hrecip
          · exact hnbs3 x hx
      · have hvis : mapGet ts.status b = some VisitStatus.VISITED := by
          obtain ⟨hkeys, _, _, _⟩ := hinv
          have hb_some : (mapGet ts.status b).isSome := (hkeys b).mpr hb_comp
          cases hb_get : mapGet ts.status b with
          | none => rw [hb_get] at hb_some; exact absurd hb_some (by simp)
          | some v =>
            cases v with
            | NOT_VISITED => exact absurd hb_get hnv
            | CURRENTLY_VISITING => exact absurd hb_get hg
            | VISITED => rfl
        have hstep : tinyNeighbors (componentAdjOf g comp) rec u (b :: rest) ts =
            tinyNeighbors (componentAdjOf g comp) rec u rest ts := by
          rw [tinyNeighbors, if_neg hnv, if_neg hg]
        rw [hstep]
        obtain ⟨hinv3, hgiff3, hvmono3, hnvanti3, hpmono3, hnbs3⟩ :=
          ih ts hrest hinv hgray hB
        refine ⟨hinv3, hgiff3, hvmono3, hnvanti3, hpmono3, ?_⟩
        intro x hx
        rcases List.mem_cons.mp hx with hx | hx
        · subst hx
          constructor
          · intro hcontra
            have := hnvanti3 x hcontra
            rw [hvis] at this
            exact Option.noConfusion this (fun h => VisitStatus.noConfusion h)
          · intro hba
            obtain ⟨_, _, hinv1x, _⟩ := hinv
            have hpx : pairIn ts.tinyCDs x u :=
              hinv1x x u hvis (Or.inl hgray) ⟨hba, hadj_ub⟩
            exact pairIn_mono (pairIn_symm hpx) hpmono3
        · exact hnbs3 x hx

theorem tinyVisit_spec (g : GraphData) (comp : List String) :
    ∀ fuel : Nat, TinyVisitSpec g comp (tinyVisit (componentAdjOf g comp) fuel) fuel := by
  intro fuel
  induction fuel with
  | zero =>
    intro nb ts _ _ _ hlt
    exact absurd hlt (Nat.not_lt_zero _)
  | succ fuel ih =>
    intro u ts hinv hu hnv hlt
    obtain ⟨hkeys, hsound, hinv1, hinv2⟩ := hinv
    set ts1 : TinyState :=
      { ts with status := mapSet ts.status u VisitStatus.CURRENTLY_VISITING } with hts1
    set ts2 := tinyNeighbors (componentAdjOf g comp) (tinyVisit (componentAdjOf g comp) fuel)
      u ((mapGet (componentAdjOf g comp) u).getD []) ts1 with hts2
    have hstep : tinyVisit (componentAdjOf g comp) (fuel + 1) u ts =
        { ts2 with status := mapSet ts2.status u VisitStatus.VISITED } := rfl
    rw [hstep]
    have hget1 : ∀ k, mapGet ts1.status k =
        if u = k then some VisitStatus.CURRENTLY_VISITING else mapGet ts.status k := by
      intro k
      exact mapGet_mapSet ts.status u k VisitStatus.CURRENTLY_VISITING
    have hinvA : TInv g comp ts1 := by
      refine ⟨?_, hsound, ?_, ?_⟩
      · intro k
        rw [hget1]
        by_cases hk : u = k
        · rw [if_pos hk]
          simp only [Option.isSome_some, true_iff]
          exact hk ▸ hu
        · rw [if_neg hk]
          exact hkeys k
      · intro a b hva hvb hr
        rw [hget1] at hva
        by_cases hau : u = a
        · rw [if_pos hau] at hva
          exact Option.noConfusion hva (fun h => VisitStatus.noConfusion h)
        · rw [if_neg hau] at hva
          rw [hget1] at hvb
          by_cases hbu : u = b
          · exfalso
            have := hinv2 a hva b (hbu ▸ hr.1)
            exact this (hbu ▸ hnv)
          · rw [if_neg hbu] at hvb
            exact hinv1 a b hva hvb hr
      · intro a hva v hadj
        rw [hget1] at hva
        by_cases hau : u = a
        · rw [if_pos hau] at hva
          exact Option.noConfusion hva (fun h => VisitStatus.noConfusion h)
        · rw [if_neg hau] at hva
          rw [hget1]
          by_cases hvu : u = v
          · rw [if_pos hvu]
            intro h
            exact Option.noConfusion h (fun h2 => VisitStatus.noConfusion h2)
          · rw [if_neg hvu]
            exact hinv2 a hva v hadj
    have hugray1 : mapGet ts1.status u = some VisitStatus.CURRENTLY_VISITING := by
      rw [hget1, if_pos rfl]
    have hlt1 : NVcount comp ts1 < fuel := by
      have h2 := NVcount_set_gray comp ts u hu hnv
      rw [← hts1] at h2
      omega
    obtain ⟨hinvB, hgiff2, hvmono2, hnvanti2, hpmono2, hnbs2⟩ :=
      tinyNeighbors_spec g comp (tinyVisit (componentAdjOf g comp) fuel) u fuel ih
        ((mapGet (componentAdjOf g comp) u).getD []) ts1 (fun b hb => hb)
        hinvA hugray1 hlt1
    obtain ⟨hkeys2, hsound2, hinv1_2, hinv2_2⟩ := hinvB
    have hget3 : ∀ k, mapGet (mapSet ts2.status u VisitStatus.VISITED) k =
        if u = k then some VisitStatus.VISITED else mapGet ts2.status k := by
      intro k
      exact mapGet_mapSet ts2.status u k VisitStatus.VISITED
    have hugray2 : mapGet ts2.status u = some VisitStatus.CURRENTLY_VISITING :=
      (hgiff2 u).mp hugray1
    refine ⟨⟨?_, hsound2, ?_, ?_⟩, ?_, ?_, ?_, ?_, ?_⟩
    · intro k
      show (mapGet (mapSet ts2.status u VisitStatus.VISITED) k).isSome ↔ k ∈ comp
      rw [hget3]
      by_cases hk : u = k
      · rw [if_pos hk]
        simp only [Option.isSome_some, true_iff]
        exact hk ▸ hu
      · rw [if_neg hk]
        exact hkeys2 k
    · intro a b hva hvb hr
      show pairIn ts2.tinyCDs a b
      rw [hget3] at hva hvb
      by_cases hau : u = a
      · subst hau
        have hb_nbs : b ∈ (mapGet (componentAdjOf g comp) u).getD [] := hr.1
        exact (hnbs2 b hb_nbs).2 hr.2
      · rw [if_neg hau] at hva
        by_cases hbu : u = b
        · subst hbu
          exact hinv1_2 a u hva (Or.inl hugray2) hr
        · rw [if_neg hbu] at hvb
          exact hinv1_2 a b hva hvb hr
    · intro a hva v hadj
      rw [hget3] at hva
      show mapGet (mapSet ts2.status u VisitStatus.VISITED) v ≠ some VisitStatus.NOT_VISITED
      rw [hget3]
      by_cases hvu : u = v
      · rw [if_pos hvu]
        intro h
        exact Option.noConfusion h (fun h2 => VisitStatus.noConfusion h2)
      · rw [if_neg hvu]
        by_cases hau : u = a
        · subst hau
          have hv_nbs : v ∈ (mapGet (componentAdjOf g comp) u).getD [] := hadj
          exact (hnbs2 v hv_nbs).1
        · rw [if_neg hau] at hva
          exact hinv2_2 a hva v hadj
    · show mapGet (mapSet ts2.status u VisitStatus.VISITED) u = some VisitStatus.VISITED
      rw [hget3, if_pos rfl]
    · intro k
      show _ ↔ mapGet (mapSet ts2.status u VisitStatus.VISITED) k =
        some VisitStatus.CURRENTLY_VISITING
      rw [hget3]
      by_cases hk : u = k
      · rw [if_pos hk, ← hk, hnv]
        constructor
        · intro h
          exact absurd h (by intro h2; exact Option.noConfusion h2 (fun h3 => VisitStatus.noConfusion h3))
        · intro h
          exact absurd h (by intro h2; exact Option.noConfusion h2 (fun h3 => VisitStatus.noConfusion h3))
      · rw [if_neg hk]
        have hk1 : mapGet ts1.status k = mapGet ts.status k := by
          rw [hget1, if_neg hk]
        rw [← hk1]
        exact hgiff2 k
    · intro k hvk
      show mapGet (mapSet ts2.status u VisitStatus.VISITED) k = some VisitStatus.VISITED
      rw [hget3]
      by_cases hk : u = k
      · rw [if_pos hk]
      · rw [if_neg hk]
        apply hvmono2
        rw [hget1, if_neg hk]
        exact hvk
    · intro k hnvk
      show mapGet ts.status k = some VisitStatus.NOT_VISITED
      rw [hget3] at hnvk
      by_cases hk : u = k
      · rw [if_pos hk] at hnvk
        exact Option.noConfusion hnvk (fun h => VisitStatus.noConfusion h)
      · rw [if_neg hk] at hnvk
        have := hnvanti2 k hnvk
        rw [hget1, if_neg hk] at this
        exact this
    · intro p hp
      exact hpmono2 p hp

theorem mapGet_constValFold {α : Type} (v0 : α) (ks : List String) :
    ∀ (m : List (String × α)) (u : String),
    mapGet (ks.foldl (fun m k => mapSet m k v0) m) u =
      if u ∈ ks then some v0 else mapGet m u := by
  induction ks with
  | nil => intro m u; simp
  | cons k rest ih =>
    intro m u
    rw [List.foldl_cons, ih]
    by_cases hu : u ∈ rest
    · rw [if_pos hu, if_pos (List.mem_cons_of_mem _ hu)]
    · rw [if_neg hu]
      by_cases hk : k = u
      · subst hk
        rw [mapGet_mapSet_self, if_pos (List.mem_cons_self _ _)]
      · rw [mapGet_mapSet_ne _ _ hk]
        have hnot : u ∉ k :: rest := by
          intro h
          rcases List.mem_cons.mp h with h | h
          exacts [hk h.symm, hu h]
        rw [if_neg hnot]

theorem detect_fold_spec (g : GraphData) (comp : List String) (fuel : Nat) :
    ∀ (starts : List String) (ts : TinyState),
      (∀ x ∈ starts, x ∈ comp) →
      TInv g comp ts →
      (∀ k, mapGet ts.status k ≠ some VisitStatus.CURRENTLY_VISITING) →
      NVcount comp ts < fuel →
      TInv g comp (starts.foldl
        (fun ts node =>
          if mapGet ts.status node = some VisitStatus.NOT_VISITED then
            tinyVisit (componentAdjOf g comp) fuel node ts
          else ts) ts) ∧
      (∀ p ∈ ts.tinyCDs, p ∈ (starts.foldl
        (fun ts node =>
          if mapGet ts.status node = some VisitStatus.NOT_VISITED then
            tinyVisit (componentAdjOf g comp) fuel node ts
          else ts) ts).tinyCDs) ∧
      (∀ k, mapGet ts.status k = some VisitStatus.VISITED →
        mapGet (starts.foldl
          (fun ts node =>
            if mapGet ts.status node = some VisitStatus.NOT_VISITED then
              tinyVisit (componentAdjOf g comp) fuel node ts
            else ts) ts).status k = some VisitStatus.VISITED) ∧
      (∀ x ∈ starts, mapGet (starts.foldl
        (fun ts node =>
          if mapGet ts.status node = some VisitStatus.NOT_VISITED then
            tinyVisit (componentAdjOf g comp) fuel node ts
          else ts) ts).status x = some VisitStatus.VISITED) := by
  intro starts
  induction starts with
  | nil =>
    intro ts _ hinv _ _
    exact ⟨hinv, fun p hp => hp, fun k h => h, fun x hx => absurd hx (List.not_mem_nil x)⟩
  | cons x rest ih =>
    intro ts hmem hinv hnogray hlt
    have hx_comp : x ∈ comp := hmem x (List.mem_cons_self _ _)
    have hmem' : ∀ y ∈ rest, y ∈ comp := fun y hy => hmem y (List.mem_cons_of_mem _ hy)
    rw [List.foldl_cons]
    by_cases hx : mapGet ts.status x = some VisitStatus.NOT_VISITED
    · rw [if_pos hx]
      obtain ⟨hinv2, hxvis2, hgiff2, hvmono2, hnvanti2, hpmono2⟩ :=
        tinyVisit_spec g comp fuel x ts hinv hx_comp hx hlt
      have hnogray2 : ∀ k, mapGet (tinyVisit (componentAdjOf g comp) fuel x ts).status k ≠
          some VisitStatus.CURRENTLY_VISITING := by
        intro k hk
        exact hnogray k ((hgiff2 k).mpr hk)
      have hlt2 : NVcount comp (tinyVisit (componentAdjOf g comp) fuel x ts) < fuel :=
        Nat.lt_of_le_of_lt (NVcount_mono comp ts _ hnvanti2) hlt
      obtain ⟨hinv3, hpmono3, hvmono3, hall3⟩ :=
        ih (tinyVisit (componentAdjOf g comp) fuel x ts) hmem' hinv2 hnogray2 hlt2
      refine ⟨hinv3, ?_, ?_, ?_⟩
      · intro p hp
        exact hpmono3 p (hpmono2 p hp)
      · intro k hk
        exact hvmono3 k (hvmono2 k hk)
      · intro y hy
        rcases List.mem_cons.mp hy with hy | hy
        · subst hy
          exact hvmono3 y hxvis2
        · exact hall3 y hy
    · rw [if_neg hx]
      obtain ⟨hinv3, hpmono3, hvmono3, hall3⟩ := ih ts hmem' hinv hnogray hlt
      refine ⟨hinv3, hpmono3, hvmono3, ?_⟩
      intro y hy
      rcases List.mem_cons.mp hy with hy | hy
      · subst hy
        obtain ⟨hkeys, _, _, _⟩ := hinv
        have hy_some : (mapGet ts.status y).isSome := (hkeys y).mpr hx_comp
        have hyvis : mapGet ts.status y = some VisitStatus.VISITED := by
          cases hy_get : mapGet ts.status y with
          | none => rw [hy_get] at hy_some; exact absurd hy_some (by simp)
          | some v =>
            cases v with
            | NOT_VISITED => exact absurd hy_get hx
            | CURRENTLY_VISITING => exact absurd hy_get (hnogray y)
            | VISITED => rfl
        exact hvmono3 y hyvis
      · exact hall3 y hy

/-- Characterization of `detectTinyCycles`: the pair `(A, B)` is reported,
in either orientation, exactly when there are reciprocal edges between `A`
and `B` and both belong to the queried component. -/
theorem detectTinyCycles_pairIn_iff (g : GraphData) (componentNodes : List String)
    (A B : String) :
    pairIn (detectTinyCycles g componentNodes) A B ↔
      Recip g componentNodes A B := by
  set st0 : TinyState :=
    { tinyCDs := [],
      status := componentNodes.foldl
        (fun m node => mapSet m node VisitStatus.NOT_VISITED) [] } with hst0
  have hget0 : ∀ k, mapGet st0.status k =
      if k ∈ componentNodes then some VisitStatus.NOT_VISITED else none := by
    intro k
    show mapGet (componentNodes.foldl (fun m node => mapSet m node VisitStatus.NOT_VISITED) []) k = _
    rw [mapGet_constValFold]
    by_cases hk : k ∈ componentNodes
    · rw [if_pos hk, if_pos hk]
    · rw [if_neg hk, if_neg hk]
      rfl
  have hinv0 : TInv g componentNodes st0 := by
    refine ⟨?_, ?_, ?_, ?_⟩
    · intro k
      rw [hget0]
      by_cases hk : k ∈ componentNodes
      · rw [if_pos hk]
        simp only [Option.isSome_some, true_iff]
        exact hk
      · rw [if_neg hk]
        simp only [Option.isSome_none, Bool.false_eq_true, false_iff]
        exact hk
    · intro p hp
      exact absurd hp (List.not_mem_nil p)
    · intro a b hva _ _
      rw [hget0] at hva
      by_cases ha : a ∈ componentNodes
      · rw [if_pos ha] at hva
        exact absurd hva (by intro h; exact Option.noConfusion h (fun h2 => VisitStatus.noConfusion h2))
      · rw [if_neg ha] at hva
        exact Option.noConfusion hva
    · intro a hva v _
      rw [hget0] at hva
      by_cases ha : a ∈ componentNodes
      · rw [if_pos ha] at hva
        exact absurd hva (by intro h; exact Option.noConfusion h (fun h2 => VisitStatus.noConfusion h2))
      · rw [if_neg ha] at hva
        exact Option.noConfusion hva
  have hnogray0 : ∀ k, mapGet st0.status k ≠ some VisitStatus.CURRENTLY_VISITING := by
    intro k
    rw [hget0]
    by_cases hk : k ∈ componentNodes
    · rw [if_pos hk]
      intro h
      exact Option.noConfusion h (fun h2 => VisitStatus.noConfusion h2)
    · rw [if_neg hk]
      exact fun h => Option.noConfusion h
  have hlt0 : NVcount componentNodes st0 < componentNodes.length + 1 := by
    have h1 : NVcount componentNodes st0 ≤ componentNodes.dedup.length :=
      List.countP_le_length _
    have h2 : componentNodes.dedup.length ≤ componentNodes.length :=
      List.Sublist.length_le (List.dedup_sublist componentNodes)
    omega
  obtain ⟨hinvF, _, _, hallF⟩ := detect_fold_spec g componentNodes
    (componentNodes.length + 1) componentNodes st0
    (fun x hx => hx) hinv0 hnogray0 hlt0
  obtain ⟨hkeysF, hsoundF, hinv1F, _⟩ := hinvF
  have hdet : detectTinyCycles g componentNodes =
      (componentNodes.foldl
        (fun ts node =>
          if mapGet ts.status node = some VisitStatus.NOT_VISITED then
            tinyVisit (componentAdjOf g componentNodes) (componentNodes.length + 1) node ts
          else ts) st0).tinyCDs := rfl
  rw [hdet]
  constructor
  · intro hpair
    obtain ⟨p, hp, hor⟩ := hpair
    have := hsoundF p hp
    rcases hor with ⟨h1, h2⟩ | ⟨h1, h2⟩
    · rw [h1, h2] at this
      exact this
    · rw [h1, h2] at this
      exact ⟨this.2, this.1⟩
  · intro hrecip
    have hA : A ∈ componentNodes := ((compAdjRel_iff g componentNodes A B).mp hrecip.1).1
    have hB : B ∈ componentNodes := ((compAdjRel_iff g componentNodes A B).mp hrecip.1).2.1
    exact hinv1F A B (hallF A hA) (Or.inr (hallF B hB)) hrecip

/-- C2: `detectTinyCycles` returns the pair `(A, B)` (in either orientation)
if and only if some edge `A → B` and some edge `B → A` both exist in
`GraphData.edges` and both `A` and `B` are members of `componentNodes`. -/
theorem C2_tiny_cycles_iff (g : GraphData) (componentNodes : List String) (A B : String) :
    (∃ p ∈ detectTinyCycles g componentNodes,
      p = { node1 := A, node2 := B } ∨ p = { node1 := B, node2 := A }) ↔
    (edgeEx g A B ∧ edgeEx g B A ∧ A ∈ componentNodes ∧ B ∈ componentNodes) := by
  have h := detectTinyCycles_pairIn_iff g componentNodes A B
  have hpair : (∃ p ∈ detectTinyCycles g componentNodes,
      p = { node1 := A, node2 := B } ∨ p = { node1 := B, node2 := A }) ↔
      pairIn (detectTinyCycles g componentNodes) A B := by
    unfold pairIn
    constructor
    · rintro ⟨p, hp, hor⟩
      refine ⟨p, hp, ?_⟩
      rcases hor with h1 | h1
      · exact Or.inl (by rw [h1]; exact ⟨rfl, rfl⟩)
      · exact Or.inr (by rw [h1]; exact ⟨rfl, rfl⟩)
    · rintro ⟨p, hp, hor⟩
      refine ⟨p, hp, ?_⟩
      obtain ⟨p1, p2⟩ := p
      rcases hor with ⟨h1, h2⟩ | ⟨h1, h2⟩
      · exact Or.inl (by cases h1; cases h2; rfl)
      · exact Or.inr (by cases h1; cases h2; rfl)
  rw [hpair, h]
  unfold Recip
  rw [compAdjRel_iff, compAdjRel_iff]
  constructor
  · rintro ⟨⟨hA, hB, hAB⟩, ⟨_, _, hBA⟩⟩
    exact ⟨hAB, hBA, hA, hB⟩
  · rintro ⟨hAB, hBA, hA, hB⟩
    exact ⟨⟨hA, hB, hAB⟩, ⟨hB, hA, hBA⟩⟩

/-- C10: a self-loop `n → n` on a member `n` of the queried component is
reported by `detectTinyCycles` as a degenerate pair with
`node1 = node2 = n`, even though no two-node reciprocal edge pair exists. -/
theorem C10_self_loop_degenerate_pair (g : GraphData) (componentNodes : List String)
    (n : String) (hn : n ∈ componentNodes)
    (hloop : ∃ e ∈ g.edges, e.source = n ∧ e.target = n) :
    { node1 := n, node2 := n : TinyCycle } ∈ detectTinyCycles g componentNodes := by
  have h := (detectTinyCycles_pairIn_iff g componentNodes n n).mpr
    ⟨(compAdjRel_iff g componentNodes n n).mpr ⟨hn, hn, hloop⟩,
     (compAdjRel_iff g componentNodes n n).mpr ⟨hn, hn, hloop⟩⟩
  obtain ⟨p, hp, hor⟩ := h
  obtain ⟨p1, p2⟩ := p
  rcases hor with ⟨h1, h2⟩ | ⟨h1, h2⟩ <;>
    · cases h1; cases h2; exact hp

/-- C10, witness: the single node `s` with a self-loop. -/
def selfLoopGraph : GraphData :=
  { nodes := [mkNode "s"], edges := [mkEdge "1" "s" "s"] }

theorem C10_witness :
    "s" ∈ (["s"] : List String) ∧
      (∃ e ∈ selfLoopGraph.edges, e.source = "s" ∧ e.target = "s") ∧
      { node1 := "s", node2 := "s" : TinyCycle } ∈ detectTinyCycles selfLoopGraph ["s"] :=
  ⟨by decide, by decide,
    C10_self_loop_degenerate_pair selfLoopGraph ["s"] "s" (by decide) (by decide)⟩

/-! ### Strongly connected components (claim C1)

Correctness of the embedded Tarjan traversal.  The development follows the
classical invariants: stack indices strictly decrease toward the bottom;
every gray (on the current call path) node reaches every stack node above it
through stack nodes of no smaller index; every stack node has a lowlink
witness it reaches through stack nodes of no smaller index; finished stack
nodes have a strictly smaller lowlink than index and no edge leading to a
stack node below their lowlink.  At a pop these facts confine paths to the
popped segment and give its mutual reachability. -/

/-- Reachability along the adjacency mapping through nodes satisfying `S`
(both endpoints of every edge used lie in `S`). -/
inductive ReachP (adj : List (String × List String)) (S : String → Prop) :
    String → String → Prop where
  | refl (x : String) (hx : S x) : ReachP adj S x x
  | step (x y z : String) (hx : S x) (hy : y ∈ (mapGet adj x).getD [])
      (h : ReachP adj S y z) : ReachP adj S x z

/-- Reachability along graph edges through nodes of the list `S`: the
claim-level notion "reaches using only edges whose endpoints both lie in the
component's node set". -/
inductive ReachIn (g : GraphData) (S : List String) : String → String → Prop where
  | refl (x : String) (hx : x ∈ S) : ReachIn g S x x
  | step (x y z : String) (hx : x ∈ S) (hxy : edgeEx g x y)
      (h : ReachIn g S y z) : ReachIn g S x z

theorem ReachP.src_mem {adj S x y} (h : ReachP adj S x y) : S x := by
  cases h with
  | refl _ hx => exact hx
  | step _ _ _ hx _ _ => exact hx

theorem ReachP.dst_mem {adj S x y} (h : ReachP adj S x y) : S y := by
  induction h with
  | refl _ hx => exact hx
  | step _ _ _ _ _ _ ih => exact ih

theorem ReachP.mono {adj S S' x y} (h : ReachP adj S x y)
    (hss : ∀ z, S z → S' z) : ReachP adj S' x y := by
  induction h with
  | refl x hx => exact ReachP.refl x (hss x hx)
  | step x y z hx hy _ ih => exact ReachP.step x y z (hss x hx) hy ih

theorem ReachP.trans {adj S x y z} (h1 : ReachP adj S x y)
    (h2 : ReachP adj S y z) : ReachP adj S x z := by
  induction h1 with
  | refl _ _ => exact h2
  | step a b _ ha hb _ ih => exact ReachP.step a b z ha hb (ih h2)

theorem ReachP.append_edge {adj S x p y} (h : ReachP adj S x p)
    (he : y ∈ (mapGet adj p).getD []) (hy : S y) : ReachP adj S x y := by
  induction h with
  | refl a ha => exact ReachP.step a y y ha he (ReachP.refl y hy)
  | step a b _ ha hb _ ih => exact ReachP.step a b y ha hb (ih he)

theorem ReachP.toReachIn {g : GraphData} {P : List String} {x y : String}
    (h : ReachP (buildAdjacencyList g) (fun z => z ∈ P) x y) : ReachIn g P x y := by
  induction h with
  | refl a ha => exact ReachIn.refl a ha
  | step a b c ha hb _ ih =>
    exact ReachIn.step a b c ha ((neighborsOf_iff_edgeEx g a b).mp hb) ih

/-- Discovery index of a node (`0` when undiscovered). -/
def idxOf (s : TarjanState) (w : String) : Nat :=
  (mapGet s.indices w).getD 0

/-- Lowlink of a node (`0` when absent). -/
def lowOf (s : TarjanState) (w : String) : Nat :=
  (mapGet s.lowlinks w).getD 0

/-- A node has been discovered. -/
def inDom (s : TarjanState) (w : String) : Prop :=
  (mapGet s.indices w).isSome

/-- Mutual reachability of every pair of a component's members through the
component's own node set. -/
def MutualReach (adj : List (String × List String)) (P : List String) : Prop :=
  ∀ a ∈ P, ∀ b ∈ P, ReachP adj (fun z => z ∈ P) a b

/-- Standing invariant of the Tarjan traversal state.  `G` is the list of
gray nodes: the nodes of the currently active chain of `strongConnect`
frames. -/
structure TarInv (adj : List (String × List String)) (s : TarjanState)
    (G : List String) : Prop where
  domStack : ∀ w ∈ s.stack, inDom s w
  stackSorted : List.Pairwise (fun a b => idxOf s b < idxOf s a) s.stack
  idxLtCounter : ∀ w, inDom s w → idxOf s w < s.index
  onStackEq : ∀ w, w ∈ s.onStack ↔ w ∈ s.stack
  lowDom : ∀ w, inDom s w → (mapGet s.lowlinks w).isSome
  lowLeIdx : ∀ w ∈ s.stack, lowOf s w ≤ idxOf s w
  finStrict : ∀ w ∈ s.stack, w ∉ G → lowOf s w < idxOf s w
  lowWitness : ∀ w ∈ s.stack, ∃ z ∈ s.stack, idxOf s z = lowOf s w ∧
    ReachP adj (fun y => y ∈ s.stack ∧ lowOf s w ≤ idxOf s y) w z
  finEdges : ∀ p ∈ s.stack, p ∉ G → ∀ b ∈ (mapGet adj p).getD [],
    inDom s b ∧ (b ∈ s.stack → lowOf s p ≤ idxOf s b)
  grayReach : ∀ a ∈ G, ∀ y ∈ s.stack, idxOf s a ≤ idxOf s y →
    ReachP adj (fun z => z ∈ s.stack ∧ idxOf s a ≤ idxOf s z) a y
  graySub : ∀ a ∈ G, a ∈ s.stack
  partition : ∀ w, inDom s w ↔ (w ∈ s.stack ∨ ∃ P ∈ s.sccs, w ∈ P)
  allNodup : (s.stack ++ s.sccs.join).Nodup

theorem stack_nodup {adj s G} (h : TarInv adj s G) : s.stack.Nodup :=
  (List.nodup_append.mp h.allNodup).1

theorem mapGet_some_mem {α : Type} {m : List (String × α)} {k : String} {v : α}
    (h : mapGet m k = some v) : (k, v) ∈ m := by
  induction m with
  | nil => simp [mapGet] at h
  | cons p rest ih =>
    rw [mapGet] at h
    by_cases hk : p.1 = k
    · rw [if_pos hk] at h
      obtain ⟨k', v'⟩ := p
      simp only at hk h
      subst hk
      cases h
      exact List.mem_cons_self _ _
    · rw [if_neg hk] at h
      exact List.mem_cons_of_mem _ (ih h)

/-- Number of ids of the universe `U` not yet discovered: the fuel measure of
the Tarjan recursion. -/
def freshCnt (U : List String) (s : TarjanState) : Nat :=
  U.dedup.countP (fun w => !(mapGet s.indices w).isSome)

theorem freshCnt_mono (U : List String) (s s' : TarjanState)
    (h : ∀ w, inDom s w → inDom s' w) : freshCnt U s' ≤ freshCnt U s := by
  unfold freshCnt
  apply List.countP_mono_left
  intro w _
  simp only [Bool.not_eq_true', Option.not_isSome, Option.isNone_iff_eq_none]
  intro hw
  by_contra hcon
  have : inDom s' w := h w (by
    unfold inDom
    cases hmw : mapGet s.indices w with
    | none => exact absurd hmw hcon
    | some _ => simp)
  unfold inDom at this
  rw [hw] at this
  simp at this

theorem freshCnt_strict (U : List String) (s s' : TarjanState) (u : String)
    (hu : u ∈ U) (hdom : ¬ inDom s u) (hdom' : inDom s' u)
    (hagree : ∀ w, w ≠ u → mapGet s'.indices w = mapGet s.indices w) :
    freshCnt U s' < freshCnt U s := by
  unfold freshCnt
  apply countP_strict_decrease u
  · unfold inDom at hdom
    simp only [Bool.not_eq_true', Option.not_isSome, Option.isNone_iff_eq_none]
    cases hmw : mapGet s.indices u with
    | none => rfl
    | some _ => rw [hmw] at hdom; simp at hdom
  · unfold inDom at hdom'
    simp only [Bool.not_eq_false', hdom']
  · intro x hx
    rw [hagree x hx]
  · exact U.nodup_dedup
  · exact List.mem_dedup.mpr hu

theorem foldl_setDelete_mem (L onS : List String) (x : String) :
    x ∈ L.foldl setDelete onS ↔ x ∈ onS ∧ x ∉ L := by
  induction L generalizing onS with
  | nil => simp
  | cons a t ih =>
    rw [List.foldl_cons, ih]
    unfold setDelete
    simp only [List.mem_filter, List.mem_cons, decide_eq_true_eq]
    constructor
    · rintro ⟨⟨h1, h2⟩, h3⟩
      exact ⟨h1, by rintro (rfl | hm) <;> [exact h2 rfl; exact h3 hm]⟩
    · rintro ⟨h1, h2⟩
      exact ⟨⟨h1, fun hx => h2 (Or.inl hx)⟩, fun hm => h2 (Or.inr hm)⟩

theorem popLoop_spec (nodeId : String) :
    ∀ (A B onS acc : List String), nodeId ∉ A →
    popLoop nodeId (A ++ nodeId :: B) onS acc =
      (B, (A ++ [nodeId]).foldl setDelete onS, acc ++ (A ++ [nodeId])) := by
  intro A
  induction A with
  | nil =>
    intro B onS acc _
    simp [popLoop]
  | cons a A' ih =>
    intro B onS acc hA
    have ha : a ≠ nodeId := fun h => hA (h ▸ List.mem_cons_self a A')
    have hA' : nodeId ∉ A' := fun h => hA (List.mem_cons_of_mem a h)
    simp only [List.cons_append, popLoop]
    rw [if_neg ha, List.append_eq, ih B (setDelete onS a) (acc ++ [a]) hA']
    simp [List.append_assoc]

/-- State after the entry block of `strongConnect` (source lines 217-221):
assign discovery index and lowlink, bump the counter, push, mark on-stack. -/
def pushState (u : String) (s : TarjanState) : TarjanState :=
  { s with
    indices := mapSet s.indices u s.index,
    lowlinks := mapSet s.lowlinks u s.index,
    index := s.index + 1,
    stack := u :: s.stack,
    onStack := setAdd s.onStack u }

/-- Lowlink overwrite of the current node (source lines 228 and 233). -/
def updLow (v : String) (n : Nat) (s : TarjanState) : TarjanState :=
  { s with lowlinks := mapSet s.lowlinks v n }

theorem strongConnect_succ (adj : List (String × List String)) (fuel : Nat)
    (u : String) (s : TarjanState) :
    strongConnect adj (fuel + 1) u s =
      (let s2 := visitNeighbors (strongConnect adj fuel) u
        ((mapGet adj u).getD []) (pushState u s);
      if mapGet s2.lowlinks u = mapGet s2.indices u then
        let p := popLoop u s2.stack s2.onStack []
        { s2 with stack := p.1, onStack := p.2.1, sccs := s2.sccs ++ [p.2.2] }
      else s2) := rfl

theorem idxOf_push_self (u : String) (s : TarjanState) :
    idxOf (pushState u s) u = s.index := by
  unfold idxOf pushState
  simp [mapGet_mapSet_self]

theorem idxOf_push_ne (u : String) (s : TarjanState) {w : String} (h : w ≠ u) :
    idxOf (pushState u s) w = idxOf s w := by
  unfold idxOf pushState
  simp only
  rw [mapGet_mapSet_ne _ _ (Ne.symm h)]

theorem lowOf_push_self (u : String) (s : TarjanState) :
    lowOf (pushState u s) u = s.index := by
  unfold lowOf pushState
  simp [mapGet_mapSet_self]

theorem lowOf_push_ne (u : String) (s : TarjanState) {w : String} (h : w ≠ u) :
    lowOf (pushState u s) w = lowOf s w := by
  unfold lowOf pushState
  simp only
  rw [mapGet_mapSet_ne _ _ (Ne.symm h)]

theorem inDom_push (u : String) (s : TarjanState) (w : String) :
    inDom (pushState u s) w ↔ w = u ∨ inDom s w := by
  unfold inDom pushState
  simp only
  rw [mapGet_mapSet]
  by_cases h : u = w
  · subst h; simp
  · rw [if_neg h]
    simp [Ne.symm h]

theorem push_establish (adj : List (String × List String)) (u : String)
    (s : TarjanState) (G : List String) (hinv : TarInv adj s G)
    (hfresh : ¬ inDom s u)
    (hgray : (G = [] ∧ s.stack = []) ∨
      (∃ p, p ∈ G ∧ u ∈ (mapGet adj p).getD [] ∧ ∀ a ∈ G, idxOf s a ≤ idxOf s p)) :
    TarInv adj (pushState u s) (u :: G) := by
  have hust : u ∉ s.stack := fun h => hfresh (hinv.domStack u h)
  have hstack1 : (pushState u s).stack = u :: s.stack := rfl
  have hctr1 : (pushState u s).index = s.index + 1 := rfl
  have hsccs1 : (pushState u s).sccs = s.sccs := rfl
  have hne_of_mem : ∀ w ∈ s.stack, w ≠ u := fun w hw he => hust (he ▸ hw)
  have hne_of_dom : ∀ w, inDom s w → w ≠ u := fun w hw he => hfresh (he ▸ hw)
  refine ⟨?_, ?_, ?_, ?_, ?_, ?_, ?_, ?_, ?_, ?_, ?_, ?_, ?_⟩
  · -- domStack
    intro w hw
    rw [hstack1, List.mem_cons] at hw
    rcases hw with hwu | hw
    · exact (inDom_push u s w).mpr (Or.inl hwu)
    · exact (inDom_push u s w).mpr (Or.inr (hinv.domStack w hw))
  · -- stackSorted
    rw [hstack1, List.pairwise_cons]
    constructor
    · intro b hb
      rw [idxOf_push_self, idxOf_push_ne u s (hne_of_mem b hb)]
      exact hinv.idxLtCounter b (hinv.domStack b hb)
    · exact hinv.stackSorted.imp_of_mem (fun {a b} ha hb hr => by
        rwa [idxOf_push_ne u s (hne_of_mem a ha), idxOf_push_ne u s (hne_of_mem b hb)])
  · -- idxLtCounter
    intro w hw
    rw [hctr1]
    rcases (inDom_push u s w).mp hw with rfl | hw
    · rw [idxOf_push_self]; omega
    · rw [idxOf_push_ne u s (hne_of_dom w hw)]
      have := hinv.idxLtCounter w hw
      omega
  · -- onStackEq
    intro w
    have huon : u ∉ s.onStack := fun h => hust ((hinv.onStackEq u).mp h)
    show w ∈ setAdd s.onStack u ↔ w ∈ u :: s.stack
    rw [setAdd, if_neg huon, List.mem_append, List.mem_singleton, List.mem_cons,
      hinv.onStackEq w]
    tauto
  · -- lowDom
    intro w hw
    show (mapGet (mapSet s.lowlinks u s.index) w).isSome
    rcases (inDom_push u s w).mp hw with rfl | hw
    · rw [mapGet_mapSet_self]; rfl
    · rw [mapGet_mapSet_ne _ _ (Ne.symm (hne_of_dom w hw))]
      exact hinv.lowDom w hw
  · -- lowLeIdx
    intro w hw
    rw [hstack1, List.mem_cons] at hw
    rcases hw with rfl | hw
    · rw [lowOf_push_self, idxOf_push_self]
    · rw [lowOf_push_ne u s (hne_of_mem w hw), idxOf_push_ne u s (hne_of_mem w hw)]
      exact hinv.lowLeIdx w hw
  · -- finStrict
    intro w hw hwG
    have hwu : w ≠ u := fun he => hwG (he ▸ List.mem_cons_self u G)
    rw [hstack1, List.mem_cons] at hw
    rcases hw with rfl | hw
    · exact absurd rfl hwu
    · rw [lowOf_push_ne u s hwu, idxOf_push_ne u s hwu]
      exact hinv.finStrict w hw (fun h => hwG (List.mem_cons_of_mem u h))
  · -- lowWitness
    intro w hw
    rw [hstack1, List.mem_cons] at hw
    rcases hw with rfl | hw
    · refine ⟨w, ?_, ?_, ?_⟩
      · rw [hstack1]; exact List.mem_cons_self w s.stack
      · rw [lowOf_push_self, idxOf_push_self]
      · exact ReachP.refl w ⟨by rw [hstack1]; exact List.mem_cons_self w s.stack,
          by rw [lowOf_push_self, idxOf_push_self]⟩
    · obtain ⟨z, hz, hzi, hpath⟩ := hinv.lowWitness w hw
      refine ⟨z, ?_, ?_, ?_⟩
      · rw [hstack1]; exact List.mem_cons_of_mem u hz
      · rw [idxOf_push_ne u s (hne_of_mem z hz), lowOf_push_ne u s (hne_of_mem w hw)]
        exact hzi
      · rw [lowOf_push_ne u s (hne_of_mem w hw)]
        exact hpath.mono (fun y ⟨hy1, hy2⟩ => ⟨by rw [hstack1]; exact List.mem_cons_of_mem u hy1,
          by rwa [idxOf_push_ne u s (hne_of_mem y hy1)]⟩)
  · -- finEdges
    intro p hp hpG
    have hpu : p ≠ u := fun he => hpG (he ▸ List.mem_cons_self u G)
    rw [hstack1, List.mem_cons] at hp
    rcases hp with rfl | hp
    · exact absurd rfl hpu
    · intro b hb
      obtain ⟨hb1, hb2⟩ := hinv.finEdges p hp (fun h => hpG (List.mem_cons_of_mem u h)) b hb
      constructor
      · exact (inDom_push u s b).mpr (Or.inr hb1)
      · intro hbs
        rw [hstack1, List.mem_cons] at hbs
        rw [lowOf_push_ne u s hpu]
        rcases hbs with rfl | hbs
        · rw [idxOf_push_self]
          have h1 := hinv.lowLeIdx p hp
          have h2 := hinv.idxLtCounter p (hinv.domStack p hp)
          omega
        · rw [idxOf_push_ne u s (hne_of_mem b hbs)]
          exact hb2 hbs
  · -- grayReach
    intro a ha y hy hxy
    rw [List.mem_cons] at ha
    rw [hstack1, List.mem_cons] at hy
    rcases ha with ha | ha
    · subst ha
      rcases hy with hy | hy
      · rw [hy]
        exact ReachP.refl a ⟨by rw [hstack1]; exact List.mem_cons_self a s.stack, le_refl _⟩
      · exfalso
        rw [idxOf_push_self, idxOf_push_ne a s (hne_of_mem y hy)] at hxy
        have := hinv.idxLtCounter y (hinv.domStack y hy)
        omega
    · rcases hgray with ⟨hG, _⟩ | ⟨p, hpG, hpu, hmax⟩
      · rw [hG] at ha; exact absurd ha (List.not_mem_nil a)
      · have haS := hinv.graySub a ha
        have hau : a ≠ u := hne_of_mem a haS
        have hpS := hinv.graySub p hpG
        have hmono : ∀ z, (z ∈ s.stack ∧ idxOf s a ≤ idxOf s z) →
            (z ∈ (pushState u s).stack ∧ idxOf (pushState u s) a ≤ idxOf (pushState u s) z) := by
          intro z ⟨hz1, hz2⟩
          refine ⟨by rw [hstack1]; exact List.mem_cons_of_mem u hz1, ?_⟩
          rwa [idxOf_push_ne u s (hne_of_mem z hz1), idxOf_push_ne u s hau]
        rcases hy with hy | hy
        · rw [hy]
          have hpath := hinv.grayReach a ha p hpS (hmax a ha)
          refine ReachP.append_edge (hpath.mono hmono) ?_ ?_
          · show u ∈ (mapGet adj p).getD []
            exact hpu
          · refine ⟨by rw [hstack1]; exact List.mem_cons_self u s.stack, ?_⟩
            rw [idxOf_push_ne u s hau, idxOf_push_self]
            have := hinv.idxLtCounter a (hinv.domStack a haS)
            omega
        · have hxy' : idxOf s a ≤ idxOf s y := by
            rwa [idxOf_push_ne u s hau, idxOf_push_ne u s (hne_of_mem y hy)] at hxy
          exact (hinv.grayReach a ha y hy hxy').mono hmono
  · -- graySub
    intro a ha
    rw [hstack1]
    rw [List.mem_cons] at ha
    rcases ha with rfl | ha
    · exact List.mem_cons_self a s.stack
    · exact List.mem_cons_of_mem u (hinv.graySub a ha)
  · -- partition
    intro w
    rw [inDom_push, hstack1, hsccs1, List.mem_cons, hinv.partition w]
    tauto
  · -- allNodup
    rw [hstack1, hsccs1]
    show ((u :: s.stack) ++ s.sccs.join).Nodup
    rw [List.cons_append, List.nodup_cons]
    refine ⟨?_, hinv.allNodup⟩
    rw [List.mem_append]
    rintro (h | h)
    · exact hust h
    · rw [List.mem_join] at h
      obtain ⟨P, hP, hwP⟩ := h
      exact hfresh ((hinv.partition u).mpr (Or.inr ⟨P, hP, hwP⟩))

theorem lowOf_upd_self (v : String) (n : Nat) (s : TarjanState) :
    lowOf (updLow v n s) v = n := by
  unfold lowOf updLow
  simp [mapGet_mapSet_self]

theorem lowOf_upd_ne (v : String) (n : Nat) (s : TarjanState) {w : String}
    (h : w ≠ v) : lowOf (updLow v n s) w = lowOf s w := by
  unfold lowOf updLow
  simp only
  rw [mapGet_mapSet_ne _ _ (Ne.symm h)]

theorem TarInv_updLow (adj : List (String × List String)) (s : TarjanState)
    (G' : List String) (v : String) (n : Nat) (hinv : TarInv adj s G')
    (hvG : v ∈ G') (hvstack : v ∈ s.stack) (hn : n ≤ lowOf s v)
    (hwit : ∃ z ∈ s.stack, idxOf s z = n ∧
      ReachP adj (fun y => y ∈ s.stack ∧ n ≤ idxOf s y) v z) :
    TarInv adj (updLow v n s) G' := by
  have hstk : (updLow v n s).stack = s.stack := rfl
  have hidx : ∀ w, idxOf (updLow v n s) w = idxOf s w := fun w => rfl
  have hdom : ∀ w, inDom (updLow v n s) w ↔ inDom s w := fun w => Iff.rfl
  have hlow : ∀ w, w ≠ v → lowOf (updLow v n s) w = lowOf s w :=
    fun w hw => lowOf_upd_ne v n s hw
  refine ⟨?_, ?_, ?_, ?_, ?_, ?_, ?_, ?_, ?_, ?_, ?_, ?_, ?_⟩
  · intro w hw
    exact (hdom w).mpr (hinv.domStack w (hstk ▸ hw))
  · rw [hstk]
    exact hinv.stackSorted.imp_of_mem (fun {a b} _ _ hr => by rwa [hidx, hidx])
  · intro w hw
    rw [hidx]
    exact hinv.idxLtCounter w ((hdom w).mp hw)
  · intro w
    rw [hstk]
    exact hinv.onStackEq w
  · intro w hw
    show (mapGet (mapSet s.lowlinks v n) w).isSome
    by_cases hwv : w = v
    · subst hwv
      rw [mapGet_mapSet_self]
      rfl
    · rw [mapGet_mapSet_ne _ _ (Ne.symm hwv)]
      exact hinv.lowDom w ((hdom w).mp hw)
  · intro w hw
    rw [hstk] at hw
    rw [hidx]
    by_cases hwv : w = v
    · subst hwv
      rw [lowOf_upd_self]
      exact le_trans hn (hinv.lowLeIdx w hw)
    · rw [hlow w hwv]
      exact hinv.lowLeIdx w hw
  · intro w hw hwG
    have hwv : w ≠ v := fun he => hwG (he ▸ hvG)
    rw [hstk] at hw
    rw [hidx, hlow w hwv]
    exact hinv.finStrict w hw hwG
  · intro w hw
    rw [hstk] at hw
    by_cases hwv : w = v
    · subst hwv
      obtain ⟨z, hz, hzi, hpath⟩ := hwit
      refine ⟨z, hstk ▸ hz, by rw [hidx, lowOf_upd_self]; exact hzi, ?_⟩
      rw [lowOf_upd_self]
      exact hpath.mono (fun y ⟨hy1, hy2⟩ => ⟨hstk ▸ hy1, by rw [hidx]; exact hy2⟩)
    · obtain ⟨z, hz, hzi, hpath⟩ := hinv.lowWitness w hw
      refine ⟨z, hstk ▸ hz, by rw [hidx, hlow w hwv]; exact hzi, ?_⟩
      rw [hlow w hwv]
      exact hpath.mono (fun y ⟨hy1, hy2⟩ => ⟨hstk ▸ hy1, by rw [hidx]; exact hy2⟩)
  · intro p hp hpG b hb
    have hpv : p ≠ v := fun he => hpG (he ▸ hvG)
    rw [hstk] at hp
    obtain ⟨hb1, hb2⟩ := hinv.finEdges p hp hpG b hb
    refine ⟨(hdom b).mpr hb1, ?_⟩
    intro hbs
    rw [hstk] at hbs
    rw [hidx, hlow p hpv]
    exact hb2 hbs
  · intro a ha y hy hxy
    rw [hstk] at hy
    rw [hidx, hidx] at hxy
    exact (hinv.grayReach a ha y hy hxy).mono
      (fun z ⟨hz1, hz2⟩ => ⟨hstk ▸ hz1, by rw [hidx, hidx]; exact hz2⟩)
  · intro a ha
    rw [hstk]
    exact hinv.graySub a ha
  · intro w
    rw [hdom, hstk]
    exact hinv.partition w
  · rw [hstk]
    exact hinv.allNodup

theorem pairwise_decr_split (f : String → Nat) (A : List String) (x : String)
    (B : List String) (h : List.Pairwise (fun a b => f b < f a) (A ++ x :: B)) :
    (∀ w ∈ A, f x < f w) ∧ (∀ w ∈ B, f w < f x) := by
  rw [List.pairwise_append] at h
  obtain ⟨_, hxB, hcross⟩ := h
  rw [List.pairwise_cons] at hxB
  exact ⟨fun w hw => hcross w hw x (List.mem_cons_self x B), fun w hw => hxB.1 w hw⟩

theorem reach_stays_in_seg (adj : List (String × List String)) (s2 : TarjanState)
    (P : List String) (tv t : Nat)
    (hPchar : ∀ z, z ∈ P ↔ (z ∈ s2.stack ∧ tv ≤ idxOf s2 z))
    (hPedge : ∀ q ∈ P, ∀ b ∈ (mapGet adj q).getD [], b ∈ s2.stack → tv ≤ idxOf s2 b) :
    ∀ x y, ReachP adj (fun z => z ∈ s2.stack ∧ t ≤ idxOf s2 z) x y → x ∈ P → y ∈ P := by
  intro x y h
  induction h with
  | refl a _ => exact id
  | step a b c _ hb hbc ih =>
    intro haP
    apply ih
    have hbS : b ∈ s2.stack ∧ t ≤ idxOf s2 b := hbc.src_mem
    exact (hPchar b).mpr ⟨hbS.1, hPedge a haP b hb hbS.1⟩

theorem reach_avoid (adj : List (String × List String)) (s2 : TarjanState)
    (P rest : List String) (tv t : Nat)
    (hsplit : s2.stack = P ++ rest)
    (hPchar : ∀ z, z ∈ P ↔ (z ∈ s2.stack ∧ tv ≤ idxOf s2 z))
    (hPedge : ∀ q ∈ P, ∀ b ∈ (mapGet adj q).getD [], b ∈ s2.stack → tv ≤ idxOf s2 b) :
    ∀ x y, ReachP adj (fun z => z ∈ s2.stack ∧ t ≤ idxOf s2 z) x y → x ∉ P → y ∉ P →
      ReachP adj (fun z => z ∈ rest ∧ t ≤ idxOf s2 z) x y := by
  intro x y h
  induction h with
  | refl a ha =>
    intro haP _
    refine ReachP.refl a ⟨?_, ha.2⟩
    have ha1 := ha.1
    rw [hsplit, List.mem_append] at ha1
    rcases ha1 with ha1 | ha1
    · exact absurd ha1 haP
    · exact ha1
  | step a b c ha hb hbc ih =>
    intro haP hcP
    have hbP : b ∉ P := fun hbP =>
      hcP (reach_stays_in_seg adj s2 P tv t hPchar hPedge b c hbc hbP)
    have harest : a ∈ rest := by
      have ha1 := ha.1
      rw [hsplit, List.mem_append] at ha1
      rcases ha1 with ha1 | ha1
      · exact absurd ha1 haP
      · exact ha1
    exact ReachP.step a b c ⟨harest, ha.2⟩ hb (ih hbP hcP)

theorem pop_establish (adj : List (String × List String)) (v : String)
    (G NEW rest : List String) (s2 s3 : TarjanState)
    (hinv : TarInv adj s2 (v :: G))
    (hshape : s2.stack = NEW ++ v :: rest)
    (hfreshNEW : ∀ w ∈ NEW, w ∉ v :: G)
    (hlowge : ∀ w ∈ NEW, lowOf s2 v ≤ lowOf s2 w)
    (hGbelow : ∀ a ∈ G, idxOf s2 a < idxOf s2 v)
    (heq : mapGet s2.lowlinks v = mapGet s2.indices v)
    (hvedges : ∀ b ∈ (mapGet adj v).getD [], b ∈ s2.stack → lowOf s2 v ≤ idxOf s2 b)
    (hs3 : s3 = { s2 with stack := rest, onStack := (NEW ++ [v]).foldl setDelete s2.onStack, sccs := s2.sccs ++ [NEW ++ [v]] }) :
    TarInv adj s3 G ∧ MutualReach adj (NEW ++ [v]) := by
  subst hs3
  have hveq : lowOf s2 v = idxOf s2 v := by
    unfold lowOf idxOf
    rw [heq]
  have hsplit2 : s2.stack = (NEW ++ [v]) ++ rest := by
    rw [hshape, List.append_assoc, List.singleton_append]
  have hnd2 : s2.stack.Nodup := stack_nodup hinv
  have hndP : ((NEW ++ [v]) ++ rest).Nodup := hsplit2 ▸ hnd2
  have hdisj : ∀ w ∈ rest, w ∉ NEW ++ [v] := by
    intro w hw hwP
    exact (List.nodup_append.mp hndP).2.2 hwP hw
  have hvst : v ∈ s2.stack := by
    rw [hshape]
    exact List.mem_append_right NEW (List.mem_cons_self v rest)
  have hidxsplit := pairwise_decr_split (idxOf s2) NEW v rest (hshape ▸ hinv.stackSorted)
  have hPchar : ∀ z, z ∈ NEW ++ [v] ↔ (z ∈ s2.stack ∧ idxOf s2 v ≤ idxOf s2 z) := by
    intro z
    constructor
    · intro hz
      rw [List.mem_append, List.mem_singleton] at hz
      rcases hz with hz | hzv
      · refine ⟨?_, le_of_lt (hidxsplit.1 z hz)⟩
        rw [hsplit2]
        exact List.mem_append_left rest (List.mem_append_left [v] hz)
      · rw [hzv]
        exact ⟨hvst, le_refl _⟩
    · rintro ⟨hz1, hz2⟩
      rw [hshape, List.mem_append, List.mem_cons] at hz1
      rw [List.mem_append, List.mem_singleton]
      rcases hz1 with hz1 | hz1 | hz1
      · exact Or.inl hz1
      · exact Or.inr hz1
      · exact absurd hz2 (by have := hidxsplit.2 z hz1; omega)
  have hPedge : ∀ q ∈ NEW ++ [v], ∀ b ∈ (mapGet adj q).getD [],
      b ∈ s2.stack → idxOf s2 v ≤ idxOf s2 b := by
    intro q hq b hb hbs
    rw [List.mem_append, List.mem_singleton] at hq
    rcases hq with hq | rfl
    · have hqs : q ∈ s2.stack := ((hPchar q).mp (List.mem_append_left [v] hq)).1
      have := (hinv.finEdges q hqs (hfreshNEW q hq) b hb).2 hbs
      have := hlowge q hq
      omega
    · have := hvedges b hb hbs
      omega
  -- members of the popped segment have lowlink at least idx v
  have hlowP : ∀ w ∈ NEW ++ [v], idxOf s2 v ≤ lowOf s2 w := by
    intro w hw
    rw [List.mem_append, List.mem_singleton] at hw
    rcases hw with hw | rfl
    · have := hlowge w hw; omega
    · omega
  -- every member of the segment reaches v inside the segment
  have hkey : ∀ n w, w ∈ NEW ++ [v] → idxOf s2 w ≤ n →
      ReachP adj (fun z => z ∈ NEW ++ [v]) w v := by
    intro n
    induction n with
    | zero =>
      intro w hw hwn
      by_cases hwv : w = v
      · subst hwv; exact ReachP.refl w hw
      · exfalso
        have hwNEW : w ∈ NEW := by
          rw [List.mem_append, List.mem_singleton] at hw
          rcases hw with hw | hw
          · exact hw
          · exact absurd hw hwv
        have hws : w ∈ s2.stack := ((hPchar w).mp hw).1
        have := hinv.finStrict w hws (hfreshNEW w hwNEW)
        omega
    | succ n ih =>
      intro w hw hwn
      by_cases hwv : w = v
      · subst hwv; exact ReachP.refl w hw
      · have hwNEW : w ∈ NEW := by
          rw [List.mem_append, List.mem_singleton] at hw
          rcases hw with hw | hw
          · exact hw
          · exact absurd hw hwv
        have hws : w ∈ s2.stack := ((hPchar w).mp hw).1
        have hstrict := hinv.finStrict w hws (hfreshNEW w hwNEW)
        obtain ⟨z, hz, hzi, hpath⟩ := hinv.lowWitness w hws
        have hzP : z ∈ NEW ++ [v] := (hPchar z).mpr ⟨hz, by
          have := hlowP w hw; omega⟩
        have hpath' : ReachP adj (fun y => y ∈ NEW ++ [v]) w z :=
          hpath.mono (fun y ⟨hy1, hy2⟩ => (hPchar y).mpr ⟨hy1, by
            have := hlowP w hw; omega⟩)
        have hzn : idxOf s2 z ≤ n := by
          have := hlowP w hw; omega
        exact hpath'.trans (ih z hzP hzn)
  -- v reaches every member of the segment inside the segment
  have hfromv : ∀ y ∈ NEW ++ [v], ReachP adj (fun z => z ∈ NEW ++ [v]) v y := by
    intro y hy
    have hy' := (hPchar y).mp hy
    have := hinv.grayReach v (List.mem_cons_self v G) y hy'.1 hy'.2
    exact this.mono (fun z ⟨hz1, hz2⟩ => (hPchar z).mpr ⟨hz1, hz2⟩)
  have hmut : MutualReach adj (NEW ++ [v]) := by
    intro a ha b hb
    exact (hkey (idxOf s2 a) a ha (le_refl _)).trans (hfromv b hb)
  refine ⟨?_, hmut⟩
  -- the invariant for the popped state
  have hrest_sub : ∀ w ∈ rest, w ∈ s2.stack := by
    intro w hw
    rw [hsplit2]
    exact List.mem_append_right _ hw
  have hrest_lt : ∀ w ∈ rest, idxOf s2 w < idxOf s2 v := hidxsplit.2
  have hnotP_of_rest : ∀ w ∈ rest, w ∉ NEW ++ [v] := hdisj
  have hrest_of_nP : ∀ w, w ∈ s2.stack → w ∉ NEW ++ [v] → w ∈ rest := by
    intro w hw hwP
    rw [hsplit2, List.mem_append] at hw
    rcases hw with hw | hw
    · exact absurd hw hwP
    · exact hw
  have hvnG : ∀ a ∈ G, a ≠ v := by
    intro a ha he
    have := hGbelow a ha
    rw [he] at this
    omega
  have hGrest : ∀ a ∈ G, a ∈ rest := by
    intro a ha
    refine hrest_of_nP a (hinv.graySub a (List.mem_cons_of_mem v ha)) ?_
    intro haP
    have := ((hPchar a).mp haP).2
    have := hGbelow a ha
    omega
  refine ⟨?_, ?_, ?_, ?_, ?_, ?_, ?_, ?_, ?_, ?_, ?_, ?_, ?_⟩
  · -- domStack
    intro w hw
    exact hinv.domStack w (hrest_sub w hw)
  · -- stackSorted
    have h1 := hsplit2 ▸ hinv.stackSorted
    rw [List.pairwise_append] at h1
    exact h1.2.1.imp_of_mem (fun {a b} _ _ hr => hr)
  · -- idxLtCounter
    intro w hw
    exact hinv.idxLtCounter w hw
  · -- onStackEq
    intro w
    show w ∈ (NEW ++ [v]).foldl setDelete s2.onStack ↔ w ∈ rest
    rw [foldl_setDelete_mem, hinv.onStackEq w]
    constructor
    · rintro ⟨h1, h2⟩
      exact hrest_of_nP w h1 h2
    · intro h
      exact ⟨hrest_sub w h, hnotP_of_rest w h⟩
  · -- lowDom
    intro w hw
    exact hinv.lowDom w hw
  · -- lowLeIdx
    intro w hw
    exact hinv.lowLeIdx w (hrest_sub w hw)
  · -- finStrict
    intro w hw hwG
    refine hinv.finStrict w (hrest_sub w hw) ?_
    rw [List.mem_cons]
    rintro (rfl | h)
    · exact absurd (List.mem_append_right NEW (List.mem_singleton.mpr rfl))
        (hnotP_of_rest w hw)
    · exact hwG h
  · -- lowWitness
    intro w hw
    obtain ⟨z, hz, hzi, hpath⟩ := hinv.lowWitness w (hrest_sub w hw)
    have hwlow : lowOf s2 w < idxOf s2 v := by
      have h1 := hinv.lowLeIdx w (hrest_sub w hw)
      have h2 := hrest_lt w hw
      omega
    have hzrest : z ∈ rest := by
      refine hrest_of_nP z hz ?_
      intro hzP
      have := ((hPchar z).mp hzP).2
      omega
    refine ⟨z, hzrest, hzi, ?_⟩
    exact reach_avoid adj s2 (NEW ++ [v]) rest (idxOf s2 v) (lowOf s2 w) hsplit2
      hPchar hPedge w z hpath (hnotP_of_rest w hw) (hnotP_of_rest z hzrest)
  · -- finEdges
    intro p hp hpG b hb
    have hp2 : p ∉ (v :: G) := by
      rw [List.mem_cons]
      rintro (rfl | h)
      · exact absurd (List.mem_append_right NEW (List.mem_singleton.mpr rfl))
          (hnotP_of_rest p hp)
      · exact hpG h
    obtain ⟨hb1, hb2⟩ := hinv.finEdges p (hrest_sub p hp) hp2 b hb
    exact ⟨hb1, fun hbs => hb2 (hrest_sub b hbs)⟩
  · -- grayReach
    intro a ha y hy hxy
    have hpath := hinv.grayReach a (List.mem_cons_of_mem v ha) y (hrest_sub y hy) hxy
    exact reach_avoid adj s2 (NEW ++ [v]) rest (idxOf s2 v) (idxOf s2 a) hsplit2
      hPchar hPedge a y hpath (hnotP_of_rest a (hGrest a ha)) (hnotP_of_rest y hy)
  · -- graySub
    intro a ha
    exact hGrest a ha
  · -- partition
    intro w
    show inDom s2 w ↔ w ∈ rest ∨ ∃ P ∈ s2.sccs ++ [NEW ++ [v]], w ∈ P
    rw [hinv.partition w]
    constructor
    · rintro (hw | ⟨P, hP, hwP⟩)
      · rw [hsplit2, List.mem_append] at hw
        rcases hw with hw | hw
        · exact Or.inr ⟨NEW ++ [v], List.mem_append_right _ (List.mem_singleton.mpr rfl), hw⟩
        · exact Or.inl hw
      · exact Or.inr ⟨P, List.mem_append_left _ hP, hwP⟩
    · rintro (hw | ⟨P, hP, hwP⟩)
      · exact Or.inl (hrest_sub w hw)
      · rw [List.mem_append, List.mem_singleton] at hP
        rcases hP with hP | rfl
        · exact Or.inr ⟨P, hP, hwP⟩
        · exact Or.inl (((hPchar w).mp hwP).1)
  · -- allNodup
    show (rest ++ (s2.sccs ++ [NEW ++ [v]]).join).Nodup
    have hj : (s2.sccs ++ [NEW ++ [v]]).join = s2.sccs.join ++ (NEW ++ [v]) := by
      simp
    have hperm : (rest ++ (s2.sccs ++ [NEW ++ [v]]).join).Perm
        (s2.stack ++ s2.sccs.join) := by
      rw [hj, hsplit2]
      refine List.Perm.trans List.perm_append_comm ?_
      rw [List.append_assoc]
      exact List.perm_append_comm
    exact hperm.symm.nodup hinv.allNodup

/-- Precondition of a `strongConnect` call: invariant, undiscovered node,
and either a top-level call (empty stack) or a call on an edge from the
deepest gray node. -/
structure PreSC (adj : List (String × List String)) (u : String)
    (s : TarjanState) (G : List String) : Prop where
  inv : TarInv adj s G
  fresh : ¬ inDom s u
  gray : (G = [] ∧ s.stack = []) ∨
    (∃ p, p ∈ G ∧ u ∈ (mapGet adj p).getD [] ∧ ∀ a ∈ G, idxOf s a ≤ idxOf s p)

/-- Postcondition of a `strongConnect` call relating entry state `s` and
result state `s'`. -/
structure PostSC (adj : List (String × List String)) (u : String)
    (s s' : TarjanState) (G : List String) : Prop where
  inv : TarInv adj s' G
  udom : inDom s' u
  uidx : idxOf s' u = s.index
  domMono : ∀ w, inDom s w → inDom s' w
  idxFrozen : ∀ w, inDom s w → mapGet s'.indices w = mapGet s.indices w
  lowFrozen : ∀ w, inDom s w → mapGet s'.lowlinks w = mapGet s.lowlinks w
  ctrMono : s.index ≤ s'.index
  sccsExt : ∃ EXTRA, s'.sccs = s.sccs ++ EXTRA ∧ ∀ P ∈ EXTRA, MutualReach adj P
  stackCases : (s'.stack = s.stack ∧ lowOf s' u = idxOf s' u) ∨
    (∃ NEW, s'.stack = NEW ++ u :: s.stack ∧ (∀ w, w ∈ NEW ++ [u] → ¬ inDom s w) ∧
      (∀ w ∈ NEW, lowOf s' u ≤ lowOf s' w))

/-- Postcondition of the neighbor loop of `strongConnect` for the current
node `v`, relating loop entry state `s` and loop exit state `s'`. -/
structure PostVN (adj : List (String × List String)) (v : String)
    (nbs : List String) (s s' : TarjanState) (G : List String) : Prop where
  inv : TarInv adj s' (v :: G)
  domMono : ∀ w, inDom s w → inDom s' w
  idxFrozen : ∀ w, inDom s w → mapGet s'.indices w = mapGet s.indices w
  lowFrozen : ∀ w, inDom s w → w ≠ v → mapGet s'.lowlinks w = mapGet s.lowlinks w
  lowMono : lowOf s' v ≤ lowOf s v
  ctrMono : s.index ≤ s'.index
  sccsExt : ∃ EXTRA, s'.sccs = s.sccs ++ EXTRA ∧ ∀ P ∈ EXTRA, MutualReach adj P
  stackExt : ∃ NEW, s'.stack = NEW ++ s.stack ∧ (∀ w ∈ NEW, ¬ inDom s w) ∧
    (∀ w ∈ NEW, lowOf s' v ≤ lowOf s' w)
  processed : ∀ b ∈ nbs, inDom s' b ∧ (b ∈ s'.stack → lowOf s' v ≤ idxOf s' b)

theorem push_grayMax (u : String) (s : TarjanState) (G : List String)
    (hinv : TarInv adj s G) (hfresh : ¬ inDom s u) :
    ∀ a ∈ u :: G, idxOf (pushState u s) a ≤ idxOf (pushState u s) u := by
  intro a ha
  rw [List.mem_cons] at ha
  rcases ha with rfl | ha
  · exact le_refl _
  · have haS := hinv.graySub a ha
    have hadom := hinv.domStack a haS
    have hau : a ≠ u := fun he => hfresh (he ▸ hadom)
    rw [idxOf_push_ne u s hau, idxOf_push_self]
    have := hinv.idxLtCounter a hadom
    omega

theorem visitNeighbors_spec (adj : List (String × List String)) (U : List String)
    (v : String) (G : List String) (fuel : Nat)
    (sc : String → TarjanState → TarjanState)
    (hU : ∀ p b, b ∈ (mapGet adj p).getD [] → b ∈ U)
    (hsc : ∀ u t, PreSC adj u t (v :: G) → u ∈ U → freshCnt U t < fuel →
      PostSC adj u t (sc u t) (v :: G)) :
    ∀ (nbs : List String) (s : TarjanState), TarInv adj s (v :: G) →
      (∀ a ∈ v :: G, idxOf s a ≤ idxOf s v) →
      (∀ b ∈ nbs, b ∈ (mapGet adj v).getD []) →
      freshCnt U s < fuel →
      PostVN adj v nbs s (visitNeighbors sc v nbs s) G := by
  intro nbs
  induction nbs with
  | nil =>
    intro s hinv _ _ _
    show PostVN adj v [] s s G
    refine ⟨hinv, fun w h => h, fun w _ => rfl, fun w _ _ => rfl, le_refl _, le_refl _,
      ⟨[], (List.append_nil _).symm, fun P hP => absurd hP (List.not_mem_nil P)⟩,
      ⟨[], (List.nil_append _).symm, fun w hw => absurd hw (List.not_mem_nil w),
        fun w hw => absurd hw (List.not_mem_nil w)⟩,
      fun b hb => absurd hb (List.not_mem_nil b)⟩
  | cons b rest ih =>
    intro s hinv hgm hnbs hfc
    have hv : v ∈ s.stack := hinv.graySub v (List.mem_cons_self v G)
    have hvdom : inDom s v := hinv.domStack v hv
    have hbadj : b ∈ (mapGet adj v).getD [] := hnbs b (List.mem_cons_self b rest)
    have hrestadj : ∀ c ∈ rest, c ∈ (mapGet adj v).getD [] :=
      fun c hc => hnbs c (List.mem_cons_of_mem b hc)
    by_cases hb1 : (mapGet s.indices b).isNone
    · -- undiscovered neighbor: recursive call, then min with the child lowlink
      have hbfresh : ¬ inDom s b := by
        unfold inDom
        rw [Option.isNone_iff_eq_none] at hb1
        rw [hb1]
        simp
      have hpost : PostSC adj b s (sc b s) (v :: G) := by
        refine hsc b s ⟨hinv, hbfresh, Or.inr ⟨v, List.mem_cons_self v G, hbadj, hgm⟩⟩
          (hU v b hbadj) hfc
      set s2 := sc b s with hs2def
      have hv2 : v ∈ s2.stack := by
        rcases hpost.stackCases with ⟨hse, _⟩ | ⟨NEWc, hsc2, _, _⟩
        · rw [hse]; exact hv
        · rw [hsc2]
          exact List.mem_append_right NEWc (List.mem_cons_of_mem b hv)
      have hvdom2 : inDom s2 v := hpost.domMono v hvdom
      have hlowveq : lowOf s2 v = lowOf s v := by
        unfold lowOf
        rw [hpost.lowFrozen v hvdom]
      have hidxveq : idxOf s2 v = idxOf s v := by
        unfold idxOf
        rw [hpost.idxFrozen v hvdom]
      have hstep : visitNeighbors sc v (b :: rest) s =
          visitNeighbors sc v rest (updLow v (min (lowOf s2 v) (lowOf s2 b)) s2) := by
        rw [visitNeighbors, if_pos hb1]
        rfl
      set n := min (lowOf s2 v) (lowOf s2 b) with hndef
      set s₁ := updLow v n s2 with hs₁def
      have hn : n ≤ lowOf s2 v := Nat.min_le_left _ _
      have hnb : n ≤ lowOf s2 b := Nat.min_le_right _ _
      have hwit : ∃ z ∈ s2.stack, idxOf s2 z = n ∧
          ReachP adj (fun y => y ∈ s2.stack ∧ n ≤ idxOf s2 y) v z := by
        rcases Nat.le_total (lowOf s2 v) (lowOf s2 b) with hc | hc
        · have hneq : n = lowOf s2 v := Nat.min_eq_left hc
          obtain ⟨z, hz, hzi, hpath⟩ := hpost.inv.lowWitness v hv2
          exact ⟨z, hz, by rw [hneq]; exact hzi, by rw [hneq]; exact hpath⟩
        · have hneq : n = lowOf s2 b := Nat.min_eq_right hc
          -- the neighbor is on the stack in this case
          have hb2 : b ∈ s2.stack := by
            rcases hpost.stackCases with ⟨hse, hbe⟩ | ⟨NEWc, hsc2, _, _⟩
            · exfalso
              have h1 : idxOf s2 b = s.index := hpost.uidx
              have h2 := hinv.lowLeIdx v hv
              have h3 := hinv.idxLtCounter v hvdom
              rw [hbe, h1] at hc
              omega
            · rw [hsc2]
              exact List.mem_append_right NEWc (List.mem_cons_self b s.stack)
          obtain ⟨z, hz, hzi, hpath⟩ := hpost.inv.lowWitness b hb2
          refine ⟨z, hz, by rw [hneq]; exact hzi, ?_⟩
          rw [hneq]
          refine ReachP.step v b z ⟨hv2, ?_⟩ hbadj hpath
          have := hpost.inv.lowLeIdx v hv2
          omega
      have hinv₁ : TarInv adj s₁ (v :: G) :=
        TarInv_updLow adj s2 (v :: G) v n hpost.inv (List.mem_cons_self v G) hv2 hn hwit
      have hidx₁ : ∀ w, idxOf s₁ w = idxOf s2 w := fun w => rfl
      have hdom₁ : ∀ w, inDom s₁ w ↔ inDom s2 w := fun w => Iff.rfl
      have hlow₁v : lowOf s₁ v = n := lowOf_upd_self v n s2
      have hgm₁ : ∀ a ∈ v :: G, idxOf s₁ a ≤ idxOf s₁ v := by
        intro a ha
        have hadom : inDom s a := hinv.domStack a (hinv.graySub a ha)
        have h1 : idxOf s₁ a = idxOf s a := by
          rw [hidx₁]
          unfold idxOf
          rw [hpost.idxFrozen a hadom]
        rw [h1, hidx₁ v, hidxveq]
        exact hgm a ha
      have hfc₁ : freshCnt U s₁ < fuel := by
        have h1 : freshCnt U s₁ = freshCnt U s2 := rfl
        rw [h1]
        exact lt_of_le_of_lt (freshCnt_mono U s s2 hpost.domMono) hfc
      have hrec := ih s₁ hinv₁ hgm₁ hrestadj hfc₁
      rw [hstep]
      set s' := visitNeighbors sc v rest s₁ with hs'def
      have hdommid : ∀ w, inDom s w → inDom s₁ w :=
        fun w hw => (hdom₁ w).mpr (hpost.domMono w hw)
      have hlowfin_v : lowOf s' v ≤ n := by
        have := hrec.lowMono
        rwa [hlow₁v] at this
      refine ⟨hrec.inv, ?_, ?_, ?_, ?_, ?_, ?_, ?_, ?_⟩
      · -- domMono
        exact fun w hw => hrec.domMono w (hdommid w hw)
      · -- idxFrozen
        intro w hw
        rw [hrec.idxFrozen w (hdommid w hw)]
        exact hpost.idxFrozen w hw
      · -- lowFrozen
        intro w hw hwv
        rw [hrec.lowFrozen w (hdommid w hw) hwv]
        show mapGet (mapSet s2.lowlinks v n) w = mapGet s.lowlinks w
        rw [mapGet_mapSet_ne _ _ (Ne.symm hwv)]
        exact hpost.lowFrozen w hw
      · -- lowMono
        rw [← hlowveq]
        exact le_trans hlowfin_v hn
      · -- ctrMono
        have h1 : s₁.index = s2.index := rfl
        have h2 := hrec.ctrMono
        rw [h1] at h2
        exact le_trans hpost.ctrMono h2
      · -- sccsExt
        obtain ⟨E1, hE1, hE1m⟩ := hpost.sccsExt
        obtain ⟨E2, hE2, hE2m⟩ := hrec.sccsExt
        refine ⟨E1 ++ E2, ?_, ?_⟩
        · rw [hE2]
          show s₁.sccs ++ E2 = s.sccs ++ (E1 ++ E2)
          have h1 : s₁.sccs = s2.sccs := rfl
          rw [h1, hE1, List.append_assoc]
        · intro P hP
          rw [List.mem_append] at hP
          rcases hP with hP | hP
          · exact hE1m P hP
          · exact hE2m P hP
      · -- stackExt
        obtain ⟨NEWr, hsr, hfrr, hlr⟩ := hrec.stackExt
        rcases hpost.stackCases with ⟨hse, _⟩ | ⟨NEWc, hsc2, hfrc, hlmc⟩
        · refine ⟨NEWr, ?_, ?_, hlr⟩
          · rw [hsr]
            have h1 : s₁.stack = s2.stack := rfl
            rw [h1, hse]
          · intro w hw
            exact fun hcon => hfrr w hw (hdommid w hcon)
        · refine ⟨NEWr ++ (NEWc ++ [b]), ?_, ?_, ?_⟩
          · rw [hsr]
            have h1 : s₁.stack = s2.stack := rfl
            rw [h1, hsc2, List.append_assoc, List.append_assoc, List.singleton_append]
          · intro w hw
            rw [List.mem_append] at hw
            rcases hw with hw | hw
            · exact fun hcon => hfrr w hw (hdommid w hcon)
            · exact hfrc w hw
          · intro w hw
            rw [List.mem_append] at hw
            rcases hw with hw | hw
            · exact hlr w hw
            · -- w was discovered by the child call
              have hwdom2 : inDom s2 w := by
                rw [List.mem_append, List.mem_singleton] at hw
                rcases hw with hw | hw
                · exact hpost.inv.domStack w (by
                    rw [hsc2]
                    exact List.mem_append_left _ hw)
                · rw [hw]; exact hpost.udom
              have hwv : w ≠ v := by
                intro he
                exact hfrc w hw (he ▸ hvdom)
              have hwlow2 : lowOf s2 b ≤ lowOf s2 w := by
                rw [List.mem_append, List.mem_singleton] at hw
                rcases hw with hw | hw
                · exact hlmc w hw
                · rw [hw]
              have h1 : lowOf s' w = lowOf s₁ w := by
                unfold lowOf
                rw [hrec.lowFrozen w ((hdom₁ w).mpr hwdom2) hwv]
              have h2 : lowOf s₁ w = lowOf s2 w := lowOf_upd_ne v n s2 hwv
              rw [h1, h2]
              omega
      · -- processed
        intro c hc
        rw [List.mem_cons] at hc
        rcases hc with hc | hc
        · -- the neighbor b just handled
          subst hc
          have hcdom : inDom s' c := hrec.domMono c ((hdom₁ c).mpr hpost.udom)
          refine ⟨hcdom, ?_⟩
          intro hcs
          obtain ⟨NEWr, hsr, hfrr, _⟩ := hrec.stackExt
          have hcs₁ : c ∈ s₁.stack := by
            rw [hsr, List.mem_append] at hcs
            rcases hcs with hcs | hcs
            · exact absurd ((hdom₁ c).mpr hpost.udom) (hfrr c hcs)
            · exact hcs
          have hcs2 : c ∈ s2.stack := hcs₁
          have hcle : lowOf s2 c ≤ idxOf s2 c := hpost.inv.lowLeIdx c hcs2
          have h3 : idxOf s' c = idxOf s₁ c := by
            unfold idxOf
            rw [hrec.idxFrozen c ((hdom₁ c).mpr hpost.udom)]
          rw [h3, hidx₁ c]
          omega
        · -- remaining neighbors: from the tail call
          exact hrec.processed c hc
    · -- already discovered neighbor
      have hbdom : inDom s b := by
        unfold inDom
        cases hm : mapGet s.indices b with
        | none => rw [Option.isNone_iff_eq_none] at hb1; exact absurd hm hb1
        | some _ => simp
      by_cases hb2 : b ∈ s.onStack
      · -- on-stack neighbor: min with its index
        have hbstack : b ∈ s.stack := (hinv.onStackEq b).mp hb2
        have hstep : visitNeighbors sc v (b :: rest) s =
            visitNeighbors sc v rest (updLow v (min (lowOf s v) (idxOf s b)) s) := by
          rw [visitNeighbors, if_neg hb1, if_pos hb2]
          rfl
        set n := min (lowOf s v) (idxOf s b) with hndef
        set s₁ := updLow v n s with hs₁def
        have hn : n ≤ lowOf s v := Nat.min_le_left _ _
        have hnb : n ≤ idxOf s b := Nat.min_le_right _ _
        have hwit : ∃ z ∈ s.stack, idxOf s z = n ∧
            ReachP adj (fun y => y ∈ s.stack ∧ n ≤ idxOf s y) v z := by
          rcases Nat.le_total (lowOf s v) (idxOf s b) with hc | hc
          · have hneq : n = lowOf s v := Nat.min_eq_left hc
            obtain ⟨z, hz, hzi, hpath⟩ := hinv.lowWitness v hv
            exact ⟨z, hz, by rw [hneq]; exact hzi, by rw [hneq]; exact hpath⟩
          · have hneq : n = idxOf s b := Nat.min_eq_right hc
            refine ⟨b, hbstack, hneq.symm, ?_⟩
            refine ReachP.step v b b ⟨hv, ?_⟩ hbadj (ReachP.refl b ⟨hbstack, hnb⟩)
            have := hinv.lowLeIdx v hv
            omega
        have hinv₁ : TarInv adj s₁ (v :: G) :=
          TarInv_updLow adj s (v :: G) v n hinv (List.mem_cons_self v G) hv hn hwit
        have hidx₁ : ∀ w, idxOf s₁ w = idxOf s w := fun w => rfl
        have hdom₁ : ∀ w, inDom s₁ w ↔ inDom s w := fun w => Iff.rfl
        have hlow₁v : lowOf s₁ v = n := lowOf_upd_self v n s
        have hgm₁ : ∀ a ∈ v :: G, idxOf s₁ a ≤ idxOf s₁ v := by
          intro a ha
          rw [hidx₁, hidx₁]
          exact hgm a ha
        have hfc₁ : freshCnt U s₁ < fuel := hfc
        have hrec := ih s₁ hinv₁ hgm₁ hrestadj hfc₁
        rw [hstep]
        set s' := visitNeighbors sc v rest s₁ with hs'def
        have hlowfin_v : lowOf s' v ≤ n := by
          have := hrec.lowMono
          rwa [hlow₁v] at this
        refine ⟨hrec.inv, ?_, ?_, ?_, ?_, ?_, ?_, ?_, ?_⟩
        · exact fun w hw => hrec.domMono w ((hdom₁ w).mpr hw)
        · intro w hw
          exact hrec.idxFrozen w ((hdom₁ w).mpr hw)
        · intro w hw hwv
          rw [hrec.lowFrozen w ((hdom₁ w).mpr hw) hwv]
          show mapGet (mapSet s.lowlinks v n) w = mapGet s.lowlinks w
          rw [mapGet_mapSet_ne _ _ (Ne.symm hwv)]
        · exact le_trans hlowfin_v hn
        · exact hrec.ctrMono
        · obtain ⟨E2, hE2, hE2m⟩ := hrec.sccsExt
          exact ⟨E2, hE2, hE2m⟩
        · obtain ⟨NEWr, hsr, hfrr, hlr⟩ := hrec.stackExt
          refine ⟨NEWr, hsr, ?_, hlr⟩
          intro w hw
          exact fun hcon => hfrr w hw ((hdom₁ w).mpr hcon)
        · intro c hc
          rw [List.mem_cons] at hc
          rcases hc with hc | hc
          · subst hc
            refine ⟨hrec.domMono c ((hdom₁ c).mpr hbdom), ?_⟩
            intro _
            have h3 : idxOf s' c = idxOf s₁ c := by
              unfold idxOf
              rw [hrec.idxFrozen c ((hdom₁ c).mpr hbdom)]
            rw [h3, hidx₁ c]
            omega
          · exact hrec.processed c hc
      · -- discovered but finished neighbor: no state change
        have hbstack : b ∉ s.stack := fun h => hb2 ((hinv.onStackEq b).mpr h)
        have hstep : visitNeighbors sc v (b :: rest) s = visitNeighbors sc v rest s := by
          rw [visitNeighbors, if_neg hb1, if_neg hb2]
        have hrec := ih s hinv hgm hrestadj hfc
        rw [hstep]
        set s' := visitNeighbors sc v rest s with hs'def
        refine ⟨hrec.inv, hrec.domMono, hrec.idxFrozen, hrec.lowFrozen, hrec.lowMono,
          hrec.ctrMono, hrec.sccsExt, hrec.stackExt, ?_⟩
        intro c hc
        rw [List.mem_cons] at hc
        rcases hc with hc | hc
        · subst hc
          refine ⟨hrec.domMono c hbdom, ?_⟩
          intro hcs
          exfalso
          obtain ⟨NEWr, hsr, hfrr, _⟩ := hrec.stackExt
          rw [hsr, List.mem_append] at hcs
          rcases hcs with hcs | hcs
          · exact hfrr c hcs hbdom
          · exact hbstack hcs
        · exact hrec.processed c hc

theorem strongConnect_spec (adj : List (String × List String)) (U : List String)
    (hU : ∀ p b, b ∈ (mapGet adj p).getD [] → b ∈ U) :
    ∀ (fuel : Nat) (u : String) (s : TarjanState) (G : List String),
      PreSC adj u s G → u ∈ U → freshCnt U s < fuel →
      PostSC adj u s (strongConnect adj fuel u s) G := by
  intro fuel
  induction fuel with
  | zero =>
    intro u s G _ _ hf
    exact absurd hf (Nat.not_lt_zero _)
  | succ fuel ih =>
    intro u s G hpre huU hfc
    have hdom_push : ∀ w, inDom s w → inDom (pushState u s) w :=
      fun w hw => (inDom_push u s w).mpr (Or.inr hw)
    have hinv1 : TarInv adj (pushState u s) (u :: G) :=
      push_establish adj u s G hpre.inv hpre.fresh hpre.gray
    have hgm1 : ∀ a ∈ u :: G, idxOf (pushState u s) a ≤ idxOf (pushState u s) u :=
      push_grayMax u s G hpre.inv hpre.fresh
    have hfc1 : freshCnt U (pushState u s) < fuel := by
      have hlt : freshCnt U (pushState u s) < freshCnt U s := by
        refine freshCnt_strict U s (pushState u s) u huU hpre.fresh
          ((inDom_push u s u).mpr (Or.inl rfl)) ?_
        intro w hw
        show mapGet (mapSet s.indices u s.index) w = mapGet s.indices w
        rw [mapGet_mapSet_ne _ _ (Ne.symm hw)]
      omega
    have hloop := visitNeighbors_spec adj U u G fuel (strongConnect adj fuel) hU
      (fun u' t hp hu' hf => ih u' t (u :: G) hp hu' hf)
      ((mapGet adj u).getD []) (pushState u s) hinv1 hgm1 (fun b hb => hb) hfc1
    set S2 := visitNeighbors (strongConnect adj fuel) u ((mapGet adj u).getD [])
      (pushState u s) with hS2def
    have hstack1 : (pushState u s).stack = u :: s.stack := rfl
    have hudom1 : inDom (pushState u s) u := (inDom_push u s u).mpr (Or.inl rfl)
    have hudom2 : inDom S2 u := hloop.domMono u hudom1
    have huidx2 : idxOf S2 u = s.index := by
      unfold idxOf
      rw [hloop.idxFrozen u hudom1]
      exact idxOf_push_self u s
    have hdomMono : ∀ w, inDom s w → inDom S2 w :=
      fun w hw => hloop.domMono w (hdom_push w hw)
    have hidxFrozen : ∀ w, inDom s w → mapGet S2.indices w = mapGet s.indices w := by
      intro w hw
      have hwu : w ≠ u := fun he => hpre.fresh (he ▸ hw)
      rw [hloop.idxFrozen w (hdom_push w hw)]
      show mapGet (mapSet s.indices u s.index) w = mapGet s.indices w
      rw [mapGet_mapSet_ne _ _ (Ne.symm hwu)]
    have hlowFrozen : ∀ w, inDom s w → mapGet S2.lowlinks w = mapGet s.lowlinks w := by
      intro w hw
      have hwu : w ≠ u := fun he => hpre.fresh (he ▸ hw)
      rw [hloop.lowFrozen w (hdom_push w hw) hwu]
      show mapGet (mapSet s.lowlinks u s.index) w = mapGet s.lowlinks w
      rw [mapGet_mapSet_ne _ _ (Ne.symm hwu)]
    have hctr : s.index ≤ S2.index := by
      have h1 : (pushState u s).index = s.index + 1 := rfl
      have h2 := hloop.ctrMono
      rw [h1] at h2
      omega
    obtain ⟨NEW, hshape0, hfrNEW, hlowNEW⟩ := hloop.stackExt
    have hshape : S2.stack = NEW ++ u :: s.stack := by
      rw [hshape0, hstack1]
    have huNEW : u ∉ NEW := fun h => hfrNEW u h hudom1
    have hfreshNEW_s : ∀ w ∈ NEW, ¬ inDom s w :=
      fun w hw hcon => hfrNEW w hw (hdom_push w hcon)
    have hfreshNEW_uG : ∀ w ∈ NEW, w ∉ u :: G := by
      intro w hw hcon
      rw [List.mem_cons] at hcon
      rcases hcon with hcon | hcon
      · exact hfrNEW w hw (hcon ▸ hudom1)
      · exact hfrNEW w hw (hdom_push w
          (hpre.inv.domStack w (hpre.inv.graySub w hcon)))
    obtain ⟨E1, hE1, hE1m⟩ := hloop.sccsExt
    have hsccs1 : (pushState u s).sccs = s.sccs := rfl
    have hGbelow : ∀ a ∈ G, idxOf S2 a < idxOf S2 u := by
      intro a ha
      have hadom : inDom s a := hpre.inv.domStack a (hpre.inv.graySub a ha)
      have h1 : idxOf S2 a = idxOf s a := by
        unfold idxOf
        rw [hidxFrozen a hadom]
      rw [h1, huidx2]
      exact hpre.inv.idxLtCounter a hadom
    have heval : strongConnect adj (fuel + 1) u s =
        (if mapGet S2.lowlinks u = mapGet S2.indices u then { S2 with stack := (popLoop u S2.stack S2.onStack []).1, onStack := (popLoop u S2.stack S2.onStack []).2.1, sccs := S2.sccs ++ [(popLoop u S2.stack S2.onStack []).2.2] } else S2) := by
      rw [hS2def]
      rfl
    by_cases hcond : mapGet S2.lowlinks u = mapGet S2.indices u
    · -- the node roots a component: pop the segment
      have hpopeq : popLoop u S2.stack S2.onStack [] =
          (s.stack, (NEW ++ [u]).foldl setDelete S2.onStack, NEW ++ [u]) := by
        rw [hshape]
        rw [popLoop_spec u NEW s.stack S2.onStack [] huNEW]
        simp
      have hres : strongConnect adj (fuel + 1) u s =
          { S2 with stack := s.stack, onStack := (NEW ++ [u]).foldl setDelete S2.onStack, sccs := S2.sccs ++ [NEW ++ [u]] } := by
        rw [heval, if_pos hcond, hpopeq]
      obtain ⟨hinv3, hmut⟩ := pop_establish adj u G NEW s.stack S2
        { S2 with stack := s.stack, onStack := (NEW ++ [u]).foldl setDelete S2.onStack, sccs := S2.sccs ++ [NEW ++ [u]] }
        hloop.inv hshape hfreshNEW_uG hlowNEW hGbelow hcond
        (fun b hb => (hloop.processed b hb).2) rfl
      rw [hres]
      refine ⟨hinv3, hudom2, huidx2, hdomMono, hidxFrozen, hlowFrozen, hctr, ?_, ?_⟩
      · refine ⟨E1 ++ [NEW ++ [u]], ?_, ?_⟩
        · show S2.sccs ++ [NEW ++ [u]] = s.sccs ++ (E1 ++ [NEW ++ [u]])
          rw [hE1, hsccs1, List.append_assoc]
        · intro P hP
          rw [List.mem_append, List.mem_singleton] at hP
          rcases hP with hP | hP
          · exact hE1m P hP
          · rw [hP]
            exact hmut
      · refine Or.inl ⟨rfl, ?_⟩
        show lowOf S2 u = idxOf S2 u
        unfold lowOf idxOf
        rw [hcond]
    · -- the node does not root a component: the stack keeps the segment
      have hres : strongConnect adj (fuel + 1) u s = S2 := by
        rw [heval, if_neg hcond]
      have hustack2 : u ∈ S2.stack := by
        rw [hshape]
        exact List.mem_append_right NEW (List.mem_cons_self u s.stack)
      have hustrict : lowOf S2 u < idxOf S2 u := by
        have hle := hloop.inv.lowLeIdx u hustack2
        have hne : lowOf S2 u ≠ idxOf S2 u := by
          intro he
          apply hcond
          have h1 := hloop.inv.lowDom u hudom2
          unfold inDom at hudom2
          unfold lowOf idxOf at he
          cases hm1 : mapGet S2.lowlinks u with
          | none => rw [hm1] at h1; simp at h1
          | some a =>
            cases hm2 : mapGet S2.indices u with
            | none => rw [hm2] at hudom2; simp at hudom2
            | some b =>
              rw [hm1, hm2] at he
              simp only [Option.getD_some] at he
              rw [he]
        omega
      have hinvG : TarInv adj S2 G := by
        refine ⟨hloop.inv.domStack, hloop.inv.stackSorted, hloop.inv.idxLtCounter,
          hloop.inv.onStackEq, hloop.inv.lowDom, hloop.inv.lowLeIdx, ?_,
          hloop.inv.lowWitness, ?_, ?_, ?_, hloop.inv.partition, hloop.inv.allNodup⟩
        · intro w hw hwG
          by_cases hwu : w = u
          · rw [hwu]
            exact hustrict
          · exact hloop.inv.finStrict w hw (by
              rw [List.mem_cons]
              rintro (h | h)
              · exact hwu h
              · exact hwG h)
        · intro p hp hpG b hb
          by_cases hpu : p = u
          · subst hpu
            exact hloop.processed b hb
          · exact hloop.inv.finEdges p hp (by
              rw [List.mem_cons]
              rintro (h | h)
              · exact hpu h
              · exact hpG h) b hb
        · intro a ha y hy hxy
          exact hloop.inv.grayReach a (List.mem_cons_of_mem u ha) y hy hxy
        · intro a ha
          exact hloop.inv.graySub a (List.mem_cons_of_mem u ha)
      rw [hres]
      refine ⟨hinvG, hudom2, huidx2, hdomMono, hidxFrozen, hlowFrozen, hctr, ?_, ?_⟩
      · refine ⟨E1, ?_, hE1m⟩
        rw [hE1, hsccs1]
      · refine Or.inr ⟨NEW, hshape, ?_, hlowNEW⟩
        intro w hw
        rw [List.mem_append, List.mem_singleton] at hw
        rcases hw with hw | hw
        · exact hfreshNEW_s w hw
        · rw [hw]
          exact hpre.fresh

theorem freshCnt_le (U : List String) (s : TarjanState) :
    freshCnt U s ≤ U.length := by
  unfold freshCnt
  exact le_trans (List.countP_le_length _) U.dedup_sublist.length_le

theorem TarInv_init (adj : List (String × List String)) :
    TarInv adj { index := 0, stack := [], indices := [], lowlinks := [], onStack := [], sccs := [] } [] := by
  have hdom : ∀ w, ¬ inDom { index := 0, stack := ([] : List String), indices := ([] : List (String × Nat)), lowlinks := ([] : List (String × Nat)), onStack := ([] : List String), sccs := ([] : List (List String)) } w := by
    intro w
    unfold inDom mapGet
    simp
  refine ⟨?_, ?_, ?_, ?_, ?_, ?_, ?_, ?_, ?_, ?_, ?_, ?_, ?_⟩
  · intro w hw; exact absurd hw (List.not_mem_nil w)
  · exact List.Pairwise.nil
  · intro w hw; exact absurd hw (hdom w)
  · intro w; exact Iff.rfl
  · intro w hw; exact absurd hw (hdom w)
  · intro w hw; exact absurd hw (List.not_mem_nil w)
  · intro w hw; exact absurd hw (List.not_mem_nil w)
  · intro w hw; exact absurd hw (List.not_mem_nil w)
  · intro w hw; exact absurd hw (List.not_mem_nil w)
  · intro a ha; exact absurd ha (List.not_mem_nil a)
  · intro a ha; exact absurd ha (List.not_mem_nil a)
  · intro w
    constructor
    · intro hw; exact absurd hw (hdom w)
    · rintro (hw | ⟨P, hP, _⟩)
      · exact absurd hw (List.not_mem_nil w)
      · exact absurd hP (List.not_mem_nil P)
  · exact List.nodup_nil

theorem mainLoop_fold (g : GraphData) (U : List String)
    (hU : ∀ p b, b ∈ (mapGet (buildAdjacencyList g) p).getD [] → b ∈ U)
    (hflen : U.length < tarjanFuel g) :
    ∀ (nds : List Node) (s : TarjanState),
      (∀ nd ∈ nds, nd.id ∈ U) →
      TarInv (buildAdjacencyList g) s [] → s.stack = [] →
      (∀ P ∈ s.sccs, MutualReach (buildAdjacencyList g) P) →
      TarInv (buildAdjacencyList g)
        (nds.foldl (fun s node =>
          if (mapGet s.indices node.id).isNone then
            strongConnect (buildAdjacencyList g) (tarjanFuel g) node.id s
          else s) s) [] ∧
      (nds.foldl (fun s node =>
        if (mapGet s.indices node.id).isNone then
          strongConnect (buildAdjacencyList g) (tarjanFuel g) node.id s
        else s) s).stack = [] ∧
      (∀ P ∈ (nds.foldl (fun s node =>
        if (mapGet s.indices node.id).isNone then
          strongConnect (buildAdjacencyList g) (tarjanFuel g) node.id s
        else s) s).sccs, MutualReach (buildAdjacencyList g) P) := by
  intro nds
  induction nds with
  | nil =>
    intro s _ hinv hstk hsccs
    exact ⟨hinv, hstk, hsccs⟩
  | cons nd t ih =>
    intro s hndsU hinv hstk hsccs
    rw [List.foldl_cons]
    by_cases hnd : (mapGet s.indices nd.id).isNone
    · rw [if_pos hnd]
      have hfresh : ¬ inDom s nd.id := by
        unfold inDom
        rw [Option.isNone_iff_eq_none] at hnd
        rw [hnd]
        simp
      have hfc : freshCnt U s < tarjanFuel g :=
        lt_of_le_of_lt (freshCnt_le U s) hflen
      have hpost := strongConnect_spec (buildAdjacencyList g) U hU (tarjanFuel g)
        nd.id s [] ⟨hinv, hfresh, Or.inl ⟨rfl, hstk⟩⟩
        (hndsU nd (List.mem_cons_self nd t)) hfc
      set s1 := strongConnect (buildAdjacencyList g) (tarjanFuel g) nd.id s with hs1
      have hstk1 : s1.stack = [] := by
        rcases hpost.stackCases with ⟨hse, _⟩ | ⟨NEW, hsh, _, _⟩
        · rw [hse, hstk]
        · exfalso
          -- a top-level call always pops its entire segment
          have hsh' : s1.stack = NEW ++ nd.id :: [] := by rw [hsh, hstk]
          have hmemu : nd.id ∈ s1.stack := by
            rw [hsh']
            exact List.mem_append_right NEW (List.mem_cons_self _ _)
          have hstrict := hpost.inv.finStrict nd.id hmemu (List.not_mem_nil _)
          obtain ⟨z, hz, hzi, _⟩ := hpost.inv.lowWitness nd.id hmemu
          have hsplit := pairwise_decr_split (idxOf s1) NEW nd.id []
            (hsh' ▸ hpost.inv.stackSorted)
          rw [hsh'] at hz
          rw [List.mem_append, List.mem_cons] at hz
          rcases hz with hz | hz | hz
          · have := hsplit.1 z hz
            omega
          · rw [hz] at hzi
            omega
          · exact absurd hz (List.not_mem_nil z)
      obtain ⟨E, hE, hEm⟩ := hpost.sccsExt
      have hsccs1 : ∀ P ∈ s1.sccs, MutualReach (buildAdjacencyList g) P := by
        intro P hP
        rw [hE, List.mem_append] at hP
        rcases hP with hP | hP
        · exact hsccs P hP
        · exact hEm P hP
      exact ih s1 (fun nd' h => hndsU nd' (List.mem_cons_of_mem nd h))
        hpost.inv hstk1 hsccs1
    · rw [if_neg hnd]
      exact ih s (fun nd' h => hndsU nd' (List.mem_cons_of_mem nd h)) hinv hstk hsccs

/-- **C1**: the components returned by `findStronglyConnectedComponents` are
pairwise disjoint, duplicate-free, of size at least 2 (so no singleton is
ever reported, a self-loop node included), and strongly connected through
edges whose endpoints both lie in the component. -/
theorem C1_scc_correct (g : GraphData) :
    (findStronglyConnectedComponents g).Pairwise List.Disjoint ∧
    (∀ c ∈ findStronglyConnectedComponents g, c.Nodup) ∧
    (∀ c ∈ findStronglyConnectedComponents g, 2 ≤ c.length) ∧
    (∀ c ∈ findStronglyConnectedComponents g, ∀ a ∈ c, ∀ b ∈ c, ReachIn g c a b) := by
  set adj := buildAdjacencyList g with hadj
  set U := g.nodes.map Node.id ++ (adj.map Prod.snd).join with hUdef
  have hU : ∀ p b, b ∈ (mapGet adj p).getD [] → b ∈ U := by
    intro p b hb
    cases hm : mapGet adj p with
    | none =>
      rw [hm] at hb
      exact absurd hb (List.not_mem_nil b)
    | some l =>
      rw [hm] at hb
      simp only [Option.getD_some] at hb
      rw [hUdef, List.mem_append]
      refine Or.inr ?_
      rw [List.mem_join]
      exact ⟨l, List.mem_map_of_mem Prod.snd (mapGet_some_mem hm), hb⟩
  have hflen : U.length < tarjanFuel g := by
    rw [hUdef, List.length_append, List.length_map]
    have hjlen : ((adj.map Prod.snd).join).length = g.edges.length := by
      rw [List.length_join]
      have h1 : (adj.map Prod.snd).map List.length = adj.map (fun p => p.2.length) := by
        rw [List.map_map]
        rfl
      rw [h1, hadj]
      show totalAdjSize (buildAdjacencyList g) = g.edges.length
      exact totalAdjSize_buildAdjacencyList g
    rw [hjlen]
    unfold tarjanFuel
    omega
  have hUn : ∀ nd ∈ g.nodes, nd.id ∈ U := by
    intro nd hnd
    rw [hUdef, List.mem_append]
    exact Or.inl (List.mem_map_of_mem Node.id hnd)
  have hmain := mainLoop_fold g U hU hflen g.nodes
    { index := 0, stack := [], indices := [], lowlinks := [], onStack := [], sccs := [] }
    hUn (TarInv_init adj) rfl
    (fun P hP => absurd hP (List.not_mem_nil P))
  obtain ⟨hinvF, hstkF, hmutF⟩ := hmain
  set stF := g.nodes.foldl (fun s node =>
    if (mapGet s.indices node.id).isNone then
      strongConnect adj (tarjanFuel g) node.id s
    else s) { index := 0, stack := [], indices := [], lowlinks := [], onStack := [], sccs := [] } with hstF
  have hres : findStronglyConnectedComponents g = stF.sccs.filter (fun scc => scc.length > 1) := by
    rfl
  have hjoin : stF.sccs.join.Nodup := by
    have h := hinvF.allNodup
    rw [hstkF] at h
    simpa using h
  have hsub : (stF.sccs.filter (fun scc => scc.length > 1)).Sublist stF.sccs :=
    List.filter_sublist _
  have hnodups : ∀ c ∈ stF.sccs, c.Nodup := (List.nodup_join.mp hjoin).1
  have hpair : stF.sccs.Pairwise List.Disjoint := (List.nodup_join.mp hjoin).2
  refine ⟨?_, ?_, ?_, ?_⟩
  · rw [hres]
    exact hpair.sublist hsub
  · intro c hc
    rw [hres] at hc
    exact hnodups c (List.mem_of_mem_filter hc)
  · intro c hc
    rw [hres, List.mem_filter] at hc
    have := hc.2
    simp only [gt_iff_lt, decide_eq_true_eq] at this
    omega
  · intro c hc a ha b hb
    rw [hres] at hc
    have hmut := hmutF c (List.mem_of_mem_filter hc)
    exact ReachP.toReachIn (hmut a ha b hb)

end GraphAnalyzer
